import Mathlib

set_option autoImplicit false

/-!
Broker session command completion (qpid/broker/SessionState.cpp)

A shallow embedding of the command-completion engine of the broker
`SessionState` and of its `AsyncCommandManager`, followed by theorems about
them.  Stateful C++ methods become functions on an explicit state record;
everything a method sends to a collaborator (the peer through the handler,
the connection, a pending command) is appended to the `effects` trace of the
state, in program order.  A command id (`framing::SequenceNumber`) is a `Nat`.
-/

namespace Qpid

/-- Modelled from the spec: the classes `framing::SequenceNumber` and
`framing::SequenceSet` are not part of the sources.  A command id is a natural
number (ids are taken in the window in which the 32-bit modular order agrees
with the order of the natural numbers), and a sequence set is a set of command
ids kept as an increasing list. -/
abbrev SequenceSet := List Nat

/-- The payload of an `execution.result`. -/
abbrev Bytes := List Nat

namespace SequenceSet

/-- Insert an id (no effect when it is already a member). -/
def add : SequenceSet → Nat → SequenceSet
  | [], x => [x]
  | y :: ys, x =>
    if x < y then x :: y :: ys
    else if x = y then y :: ys
    else y :: add ys x

/-- Remove an id (no effect when it is not a member). -/
def remove (s : SequenceSet) (x : Nat) : SequenceSet :=
  s.filter (fun y => y != x)

/-- The smallest member; `none` on the empty set, where the C++ `front()` has no
defined value. -/
def front : SequenceSet → Option Nat
  | [] => none
  | x :: xs =>
    match front xs with
    | none => some x
    | some m => some (min x m)

end SequenceSet

/-- The ways a call into the session can fail. -/
inductive SessionError where
  /-- `NotImplementedException` thrown by `handleCommand`. -/
  | notImplemented
  /-- `InternalErrorException` thrown by `handleIn`. -/
  | internalError
  /-- No defined behaviour: a null `handler` is dereferenced, `front()` is taken of
  an empty set, or an `assert` fails. -/
  | undefinedBehaviour
  deriving DecidableEq, Repr

/-- The `framing::Invoker::Result` of a dispatched method. -/
structure InvokerResult where
  /-- Whether some handler accepted the method (`wasHandled()`). -/
  handled : Bool
  /-- The encoded return value, when there is one (`hasResult()`, `getResult()`). -/
  result : Option Bytes
  deriving DecidableEq, Repr

/-- The default constructed `framing::Invoker::Result()`. -/
def InvokerResult.empty : InvokerResult := ⟨false, none⟩

/-- Modelled from the spec: the method handlers reached through
`invoke(adapter, *method)` are not part of the sources.  What the handler of a
method does with the session, after section 4.1b of the spec. -/
inductive Dispatch where
  /-- No handler takes the method. -/
  | unhandled
  /-- The handler finishes inline, possibly with a return value. -/
  | inline (result : Option Bytes)
  /-- The handler of `execution.sync`: it calls `addPendingExecutionSync`. -/
  | executionSync
  /-- The handler defers the command: it calls `registerAsyncCommand`. -/
  | deferAsync
  deriving DecidableEq, Repr

/-- What the session reads of a `framing::AMQMethodBody`. -/
structure AMQMethodBody where
  /-- The sync bit of the method (`isSync()`). -/
  isSync : Bool
  /-- Whether the method carries content (`isContentBearing()`). -/
  isContentBearing : Bool
  /-- The handler the invoker dispatches the method to. -/
  dispatch : Dispatch
  deriving DecidableEq, Repr

/-- Everything the session sends to a collaborator. -/
inductive Effect where
  /-- Sent to the peer: `getProxy().getExecution().result(id, value)`. -/
  | executionResult (id : Nat) (value : Bytes)
  /-- Sent to the peer: `getProxy().getMessage().accept(accepted)`. -/
  | messageAccept (transfers : SequenceSet)
  /-- Sent to the peer by `handler->sendCompletion()`: a `session.completion`
  carrying the receiver-completed command ids. -/
  | sessionCompletion (commands : SequenceSet)
  /-- The request `getConnection().requestIOProcessing(bind(&schedule, ...))`. -/
  | requestIOProcessing
  /-- The call `flush()` on the pending command with this id. -/
  | flush (id : Nat)
  deriving DecidableEq, Repr

/-- The fields `addPendingCommand` stores in an `AsyncCommandContext`. -/
structure AsyncCommandContext where
  id : Nat
  requiresAccept : Bool
  syncBitSet : Bool
  deriving DecidableEq, Repr

/-- An entry of `completedCommands`. -/
structure CommandInfo where
  id : Nat
  results : InvokerResult
  requiresAccept : Bool
  syncBitSet : Bool
  deriving DecidableEq, Repr

/-- The state of `SessionState::AsyncCommandManager`. -/
structure AsyncCommandManager where
  /-- Whether the back-reference `session` is non-null. -/
  session : Bool
  isAttached : Bool
  /-- The `std::map` from id to pending command, in key order. -/
  pendingCommands : List (Nat × AsyncCommandContext)
  /-- The `std::vector` of completed commands, oldest first. -/
  completedCommands : List CommandInfo
  deriving DecidableEq, Repr

/-- Modelled from the spec: the base class `qpid::SessionState` is not part of the
sources.  The receiver half of the command tracking: the id the next command
gets, the ids received but not completed, and the ids completed. -/
structure ReceiverState where
  expected : Nat
  incomplete : SequenceSet
  completed : SequenceSet
  deriving DecidableEq, Repr

/-- The state of the broker `SessionState` that command completion reads and
writes. -/
structure SessionState where
  receiver : ReceiverState
  /-- Whether `handler` is non-null. -/
  handler : Bool
  /-- Whether `semanticState` allows output activation. -/
  outputEnabled : Bool
  currentCommandComplete : Bool
  syncCurrentCommand : Bool
  acceptRequired : Bool
  accepted : SequenceSet
  /-- The `std::queue` of deferred `execution.sync` ids, head first. -/
  pendingExecutionSyncs : List Nat
  asyncCommandManager : AsyncCommandManager
  /-- Everything sent to collaborators so far, oldest first. -/
  effects : List Effect
  deriving DecidableEq, Repr

namespace ReceiverState

/-- Modelled from the spec: `receiverGetCurrent()`, the id of the command being
received, one below the id the next command gets. -/
def receiverGetCurrent (r : ReceiverState) : Nat := r.expected - 1

/-- Modelled from the spec: `receiverRecord` for a frame that is a whole command.
The command gets the next id, which joins the incomplete set. -/
def receiverRecord (r : ReceiverState) : ReceiverState :=
  { r with expected := r.expected + 1, incomplete := SequenceSet.add r.incomplete r.expected }

/-- Modelled from the spec: `receiverCompleted(id)` moves the id from the incomplete
set to the completed set ("Mark the id complete in the receiver set"). -/
def receiverCompleted (r : ReceiverState) (id : Nat) : ReceiverState :=
  { r with incomplete := SequenceSet.remove r.incomplete id,
           completed := SequenceSet.add r.completed id }

end ReceiverState

namespace AsyncCommandManager

/-- The `std::map::erase(key)` on the pending map. -/
def erasePending (p : List (Nat × AsyncCommandContext)) (id : Nat) :
    List (Nat × AsyncCommandContext) :=
  p.filter (fun e => e.1 != id)

/-- The `std::map::insert(item)` on the pending map: `none` when the key is taken. -/
def insertPending : List (Nat × AsyncCommandContext) → AsyncCommandContext →
    Option (List (Nat × AsyncCommandContext))
  | [], c => some [(c.id, c)]
  | e :: es, c =>
    if c.id < e.1 then some ((c.id, c) :: e :: es)
    else if c.id = e.1 then none
    else (insertPending es c).map (fun r => e :: r)

/-- The method `addPendingCommand`: the command is filed under `seq`; a duplicate
id fails the assertion. -/
def addPendingCommand (m : AsyncCommandManager) (seq : Nat)
    (acceptRequired syncBitSet : Bool) : Except SessionError AsyncCommandManager :=
  match insertPending m.pendingCommands ⟨seq, acceptRequired, syncBitSet⟩ with
  | some p => .ok { m with pendingCommands := p }
  | none => .error .undefinedBehaviour

/-- The method `cancelPendingCommand`. -/
def cancelPendingCommand (m : AsyncCommandManager) (cmd : AsyncCommandContext) :
    AsyncCommandManager :=
  { m with pendingCommands := erasePending m.pendingCommands cmd.id }

/-- The method `completePendingCommand`, on the manager alone.  The second
component tells whether `requestIOProcessing` was called. -/
def completePendingCommand (m : AsyncCommandManager) (cmd : AsyncCommandContext)
    (result : InvokerResult) : AsyncCommandManager × Bool :=
  if m.session && m.isAttached then
    let completed := m.completedCommands ++ [⟨cmd.id, result, cmd.requiresAccept, cmd.syncBitSet⟩]
    ({ m with completedCommands := completed,
              pendingCommands := erasePending m.pendingCommands cmd.id },
     completed.length == 1)
  else
    ({ m with pendingCommands := erasePending m.pendingCommands cmd.id }, false)

/-- A burst of completions with no drain in between; the second component counts
the calls of `requestIOProcessing`. -/
def completeBurst (m : AsyncCommandManager) :
    List (AsyncCommandContext × InvokerResult) → AsyncCommandManager × Nat
  | [] => (m, 0)
  | (cmd, result) :: rest =>
    let r := completePendingCommand m cmd result
    let t := completeBurst r.1 rest
    (t.1, (if r.2 then 1 else 0) + t.2)

/-- The method `cancel`. -/
def cancel (m : AsyncCommandManager) : AsyncCommandManager :=
  { m with session := false }

/-- The method `attached`. -/
def attached (m : AsyncCommandManager) : AsyncCommandManager :=
  { m with isAttached := true }

/-- The method `detached`. -/
def detached (m : AsyncCommandManager) : AsyncCommandManager :=
  { m with isAttached := false }

/-- A detached manager of a live session with the asynchronous command 10
pending. -/
def detachedManager : AsyncCommandManager :=
  ⟨true, false, [(10, ⟨10, false, false⟩)], []⟩

end AsyncCommandManager

namespace SessionState

/-- Modelled from the spec: the inline `isAttached()` of the session is in a header
that is not part of the sources.  The session is attached when a handler is
bound. -/
def isAttached (st : SessionState) : Bool := st.handler

/-- A call through `handler` (`getProxy()`, `getConnection()`,
`handler->sendCompletion()`): it needs the handler and leaves one effect. -/
def emit (st : SessionState) (e : Effect) : Except SessionError SessionState :=
  if st.handler then .ok { st with effects := st.effects ++ [e] }
  else .error .undefinedBehaviour

/-- Modelled from the spec: `SessionHandler::sendCompletion` is not part of the
sources.  The session.completion it sends carries the receiver-completed
command ids. -/
def handlerSendCompletion (r : ReceiverState) : Effect :=
  .sessionCompletion r.completed

/-- The method `sendCompletion`: it calls `handler->sendCompletion()`. -/
def sendCompletion (st : SessionState) : Except SessionError SessionState :=
  emit st (handlerSendCompletion st.receiver)

/-- The method `sendAcceptAndCompletion`. -/
def sendAcceptAndCompletion (st : SessionState) : Except SessionError SessionState :=
  if st.accepted.isEmpty then sendCompletion st
  else
    match emit st (.messageAccept st.accepted) with
    | .ok st1 => sendCompletion { st1 with accepted := [] }
    | .error e => .error e

/-- The `while` loop of `completeCommand`: pop and complete deferred
execution.sync ids while the head is not above the smallest incomplete id.
Returns the receiver, the queue left and the flag `callSendCompletion`. -/
def completePendingSyncs : ReceiverState → List Nat → Bool →
    Except SessionError (ReceiverState × List Nat × Bool)
  | r, [], call => .ok (r, [], call)
  | r, s :: rest, call =>
    match SequenceSet.front r.incomplete with
    | none => .error .undefinedBehaviour
    | some f =>
      if s ≤ f then completePendingSyncs (r.receiverCompleted s) rest true
      else .ok (r, s :: rest, call)

/-- The method `completeCommand`. -/
def completeCommand (st : SessionState) (id : Nat) (results : InvokerResult)
    (requiresAccept syncBitSet : Bool) : Except SessionError SessionState :=
  let st1 := { st with receiver := st.receiver.receiverCompleted id }
  let sent :=
    match results.result with
    | some value => emit st1 (.executionResult id value)
    | none => .ok st1
  match sent with
  | .error e => .error e
  | .ok st2 =>
    let st3 := if requiresAccept then { st2 with accepted := SequenceSet.add st2.accepted id }
               else st2
    match completePendingSyncs st3.receiver st3.pendingExecutionSyncs false with
    | .error e => .error e
    | .ok (r, queue, callSendCompletion) =>
      let st4 := { st3 with receiver := r, pendingExecutionSyncs := queue }
      if syncBitSet then sendAcceptAndCompletion st4
      else if callSendCompletion then sendCompletion st4
      else .ok st4

/-- The loop of `flushPendingCommands`: `flush()` on every pending command, in key
order. -/
def flushPendingCommands (st : SessionState) : SessionState :=
  { st with effects := st.effects ++
      st.asyncCommandManager.pendingCommands.map (fun e => Effect.flush e.1) }

/-- The method `addPendingExecutionSync`. -/
def addPendingExecutionSync (st : SessionState) : Except SessionError SessionState :=
  let syncCommandId := st.receiver.receiverGetCurrent
  match SequenceSet.front st.receiver.incomplete with
  | none => .error .undefinedBehaviour
  | some f =>
    if f < syncCommandId then
      .ok (flushPendingCommands
        { st with currentCommandComplete := false,
                  pendingExecutionSyncs := st.pendingExecutionSyncs ++ [syncCommandId] })
    else .ok st

/-- The method `registerAsyncCommand`. -/
def registerAsyncCommand (st : SessionState) : Except SessionError SessionState :=
  match st.asyncCommandManager.addPendingCommand st.receiver.receiverGetCurrent
      st.acceptRequired st.syncCurrentCommand with
  | .ok m => .ok { st with currentCommandComplete := false, asyncCommandManager := m }
  | .error e => .error e

/-- The call `invoke(adapter, *method)`: the handler runs against the session and
an `Invoker::Result` comes back. -/
def invoke (st : SessionState) (method : AMQMethodBody) :
    Except SessionError (SessionState × InvokerResult) :=
  match method.dispatch with
  | .unhandled => .ok (st, ⟨false, none⟩)
  | .inline result => .ok (st, ⟨true, result⟩)
  | .executionSync =>
    match addPendingExecutionSync st with
    | .ok st1 => .ok (st1, ⟨true, none⟩)
    | .error e => .error e
  | .deferAsync =>
    match registerAsyncCommand st with
    | .ok st1 => .ok (st1, ⟨true, none⟩)
    | .error e => .error e

/-- The method `handleCommand`. -/
def handleCommand (st : SessionState) (method : AMQMethodBody) (id : Nat) :
    Except SessionError SessionState :=
  let st1 := { st with currentCommandComplete := true,
                       syncCurrentCommand := method.isSync,
                       acceptRequired := false }
  match invoke st1 method with
  | .error e => .error e
  | .ok (st2, invocation) =>
    if !invocation.handled then .error .notImplemented
    else if st2.currentCommandComplete then
      completeCommand st2 id invocation false st2.syncCurrentCommand
    else .ok st2

/-- The method `AsyncCommandManager::completePendingCommand` with its call into
the session: the drain request goes through `session->getConnection()`. -/
def completePendingCommand (st : SessionState) (cmd : AsyncCommandContext)
    (result : InvokerResult) : Except SessionError SessionState :=
  let r := st.asyncCommandManager.completePendingCommand cmd result
  let st1 := { st with asyncCommandManager := r.1 }
  if r.2 then emit st1 .requestIOProcessing else .ok st1

/-- The `for` loop of `processCompletedCommands`. -/
def processLoop : SessionState → List CommandInfo → Except SessionError SessionState
  | st, [] => .ok st
  | st, cmd :: rest =>
    match completeCommand st cmd.id cmd.results cmd.requiresAccept cmd.syncBitSet with
    | .ok st1 => processLoop st1 rest
    | .error e => .error e

/-- The method `AsyncCommandManager::processCompletedCommands` (the drain). -/
def processCompletedCommands (st : SessionState) : Except SessionError SessionState :=
  let looped :=
    if st.asyncCommandManager.session && st.isAttached then
      processLoop st st.asyncCommandManager.completedCommands
    else .ok st
  match looped with
  | .ok st1 =>
    .ok { st1 with asyncCommandManager :=
                     { st1.asyncCommandManager with completedCommands := [] } }
  | .error e => .error e

/-- The method `detach`. -/
def detach (st : SessionState) : SessionState :=
  { st with asyncCommandManager := st.asyncCommandManager.detached,
            outputEnabled := false,
            handler := false }

/-- The method `attach`. -/
def attach (st : SessionState) : SessionState :=
  { st with handler := true,
            asyncCommandManager := st.asyncCommandManager.attached }

/-- The session as its constructor leaves it, with the command point of the
receiver at `first`. -/
def create (first : Nat) : SessionState :=
  attach
    { receiver := ⟨first, [], []⟩,
      handler := false,
      outputEnabled := false,
      currentCommandComplete := false,
      syncCurrentCommand := false,
      acceptRequired := false,
      accepted := [],
      pendingExecutionSyncs := [],
      asyncCommandManager := ⟨true, false, [], []⟩,
      effects := [] }

end SessionState

/-- What can happen to a session. -/
inductive Input where
  /-- A single-frame command arrives: it is recorded by the receiver and
  `handleIn` passes it to `handleCommand` under the current id. -/
  | command (method : AMQMethodBody)
  /-- A worker completes the pending command filed under `id`. -/
  | completed (id : Nat) (result : InvokerResult)
  /-- The scheduled drain runs on the I/O thread. -/
  | drain
  | detach
  | attach
  deriving DecidableEq, Repr

namespace SessionState

/-- One step of the session. -/
def step (st : SessionState) : Input → Except SessionError SessionState
  | .command method =>
    let st1 := { st with receiver := st.receiver.receiverRecord }
    handleCommand st1 method st1.receiver.receiverGetCurrent
  | .completed id result =>
    match st.asyncCommandManager.pendingCommands.find? (fun e => e.1 == id) with
    | some e => completePendingCommand st e.2 result
    | none => .ok st
  | .drain => processCompletedCommands st
  | .detach => .ok (detach st)
  | .attach => .ok (attach st)

/-- A sequence of steps, stopping at the first failure. -/
def run : SessionState → List Input → Except SessionError SessionState
  | st, [] => .ok st
  | st, i :: rest =>
    match step st i with
    | .ok st1 => run st1 rest
    | .error e => .error e

/-- The receiver after marking complete, one after the other, the ids of a list. -/
def completeAll (r : ReceiverState) (ids : List Nat) : ReceiverState :=
  ids.foldl ReceiverState.receiverCompleted r

/-- What `completeCommand` sends for the result of the command. -/
def resultEffects (id : Nat) (results : InvokerResult) : List Effect :=
  match results.result with
  | some value => [.executionResult id value]
  | none => []

/-- What `sendAcceptAndCompletion` sends for an accepted set. -/
def acceptEffects (accepted : SequenceSet) : List Effect :=
  if accepted.isEmpty then [] else [.messageAccept accepted]

/-- The accepted set of `completeCommand` once the id of the command is in. -/
def acceptedWith (accepted : SequenceSet) (id : Nat) (requiresAccept : Bool) :
    SequenceSet :=
  if requiresAccept then SequenceSet.add accepted id else accepted

/-- The invariant of the command pipeline of a session whose first command id is
`first`, over the receiver, the queue of deferred execution.sync ids, the
manager of asynchronous commands and the effects sent so far. -/
structure Invariant (first : Nat) (r : ReceiverState) (q : List Nat)
    (m : AsyncCommandManager) (eff : List Effect) : Prop where
  /-- Every id received so far is incomplete or completed. -/
  received : ∀ x, first ≤ x → x < r.expected → x ∈ r.incomplete ∨ x ∈ r.completed
  /-- Every incomplete id has been received. -/
  incomplete_lt : ∀ x ∈ r.incomplete, x < r.expected
  /-- Every completed id has been received. -/
  completed_lt : ∀ x ∈ r.completed, x < r.expected
  /-- No id is both completed and incomplete. -/
  disjoint : ∀ x ∈ r.completed, x ∉ r.incomplete
  /-- The queue is strictly increasing. -/
  queue_sorted : q.Pairwise (fun a b => a < b)
  /-- Every queued id is incomplete. -/
  queue_incomplete : ∀ s ∈ q, s ∈ r.incomplete
  /-- No pending asynchronous command is a queued execution.sync. -/
  pending_ids : ∀ e ∈ m.pendingCommands, e.2.id < r.expected ∧ e.2.id ∉ q
  /-- No completed asynchronous command is a queued execution.sync. -/
  completed_ids : ∀ c ∈ m.completedCommands, c.id < r.expected ∧ c.id ∉ q
  /-- Every session.completion sent carries completed ids only. -/
  announced : ∀ S, Effect.sessionCompletion S ∈ eff → ∀ x ∈ S, x ∈ r.completed

/-- The invariant of the command pipeline, on a session state. -/
def Valid (first : Nat) (st : SessionState) : Prop :=
  Invariant first st.receiver st.pendingExecutionSyncs st.asyncCommandManager st.effects

/-- A command id is reported complete to the peer: it is marked complete in the
receiver set and a session.completion carrying it has been sent. -/
def ReportedComplete (st : SessionState) (c : Nat) : Prop :=
  c ∈ st.receiver.completed ∧ ∃ S, Effect.sessionCompletion S ∈ st.effects ∧ c ∈ S

/-- The execution.sync barrier as the specification words it, for a session whose
first command id is `first`: while an execution.sync `s` is queued, a command
above `s` is reported complete only if every command up to `s` is. -/
def BarrierHoldsBack (first : Nat) (st : SessionState) : Prop :=
  ∀ s ∈ st.pendingExecutionSyncs, ∀ c, s < c → ReportedComplete st c →
    ∀ d, first ≤ d → d ≤ s → ReportedComplete st d

/-- Commands 5 (deferred), 6 (inline), 7 (execution.sync) and 8 (inline, sync bit
set), received in that order. -/
def lateSyncBitCommands : List Input :=
  [.command ⟨false, false, .deferAsync⟩, .command ⟨false, false, .inline none⟩,
   .command ⟨false, false, .executionSync⟩, .command ⟨true, false, .inline none⟩]

/-- The session after `lateSyncBitCommands`. -/
def lateSyncBitState : SessionState :=
  { receiver := ⟨9, [5, 7], [6, 8]⟩,
    handler := true,
    outputEnabled := false,
    currentCommandComplete := true,
    syncCurrentCommand := true,
    acceptRequired := false,
    accepted := [],
    pendingExecutionSyncs := [7],
    asyncCommandManager := ⟨true, true, [(5, ⟨5, false, false⟩)], []⟩,
    effects := [.flush 5, .sessionCompletion [6, 8]] }

/-- Commands 5 (deferred), 6 (inline) and 7 (execution.sync), then the worker
completing command 5. -/
def deferredSyncCommands : List Input :=
  [.command ⟨false, false, .deferAsync⟩, .command ⟨false, false, .inline none⟩,
   .command ⟨false, false, .executionSync⟩, .completed 5 ⟨false, none⟩]

/-- The session after `deferredSyncCommands`. -/
def deferredSyncState : SessionState :=
  { receiver := ⟨8, [5, 7], [6]⟩,
    handler := true,
    outputEnabled := false,
    currentCommandComplete := false,
    syncCurrentCommand := false,
    acceptRequired := false,
    accepted := [],
    pendingExecutionSyncs := [7],
    asyncCommandManager := ⟨true, true, [], [⟨5, ⟨false, none⟩, false, false⟩]⟩,
    effects := [.flush 5, .requestIOProcessing] }

/-- The session after `deferredSyncCommands` and the drain. -/
def drainedSyncState : SessionState :=
  { receiver := ⟨8, [], [5, 6, 7]⟩,
    handler := true,
    outputEnabled := false,
    currentCommandComplete := false,
    syncCurrentCommand := false,
    acceptRequired := false,
    accepted := [],
    pendingExecutionSyncs := [],
    asyncCommandManager := ⟨true, true, [], []⟩,
    effects := [.flush 5, .requestIOProcessing, .sessionCompletion [5, 6, 7]] }

/-- Attach (by `create`), register the asynchronous command 10, detach, complete
command 10 with an empty result, attach again, and let a drain run. -/
def detachedCompletionInputs : List Input :=
  [.command ⟨false, false, .deferAsync⟩, .detach, .completed 10 InvokerResult.empty,
   .attach, .drain]

/-- The session after `detachedCompletionInputs`. -/
def detachedCompletionState : SessionState :=
  { receiver := ⟨11, [10], []⟩,
    handler := true,
    outputEnabled := false,
    currentCommandComplete := false,
    syncCurrentCommand := false,
    acceptRequired := false,
    accepted := [],
    pendingExecutionSyncs := [],
    asyncCommandManager := ⟨true, true, [], []⟩,
    effects := [] }

/-- The session at the arrival of the execution.sync 7: command 5 is pending and
incomplete, command 6 is complete, command 7 has been recorded. -/
def syncArrivalState : SessionState :=
  { receiver := ⟨8, [5, 7], [6]⟩,
    handler := true,
    outputEnabled := false,
    currentCommandComplete := true,
    syncCurrentCommand := false,
    acceptRequired := false,
    accepted := [],
    pendingExecutionSyncs := [],
    asyncCommandManager := ⟨true, true, [(5, ⟨5, false, false⟩)], []⟩,
    effects := [] }

/-- The execution.result frames among some effects, in the order sent. -/
def resultsSent (eff : List Effect) : List (Nat × Bytes) :=
  eff.filterMap (fun e =>
    match e with
    | .executionResult id value => some (id, value)
    | _ => none)

/-- The execution.result frames the entries of a completed list call for, in the
order of the list. -/
def resultsOf (cmds : List CommandInfo) : List (Nat × Bytes) :=
  cmds.filterMap (fun c => c.results.result.map (fun value => (c.id, value)))

/-- What a step may do to the deferred execution.sync ids: when an id leaves the
queue, every command up to it is marked complete, and a session.completion
carrying all of them has been sent. -/
def Released (first : Nat) (st st' : SessionState) : Prop :=
  ∀ s ∈ st.pendingExecutionSyncs, s ∉ st'.pendingExecutionSyncs →
    (∀ c, first ≤ c → c ≤ s → c ∈ st'.receiver.completed) ∧
    ∃ S, Effect.sessionCompletion S ∈ st'.effects ∧ ∀ c, first ≤ c → c ≤ s → c ∈ S

/-- What a call that only completes commands does to the state. -/
structure Completes (first : Nat) (st st' : SessionState) : Prop where
  released : Released first st st'
  completed_subset : ∀ x ∈ st.receiver.completed, x ∈ st'.receiver.completed
  queue_subset : ∀ s ∈ st'.pendingExecutionSyncs, s ∈ st.pendingExecutionSyncs
  effects_subset : ∀ e ∈ st.effects, e ∈ st'.effects
  expected_eq : st'.receiver.expected = st.receiver.expected
  manager_eq : st'.asyncCommandManager = st.asyncCommandManager
  handler_eq : st'.handler = st.handler

/-- The state `completeCommand` returns when its loop returned the receiver `r`, the
queue `q` and the flag `call`. -/
def completedState (st : SessionState) (id : Nat) (results : InvokerResult)
    (requiresAccept syncBitSet : Bool) (r : ReceiverState) (q : List Nat) (call : Bool) :
    SessionState :=
  { st with
    receiver := r,
    pendingExecutionSyncs := q,
    accepted := if syncBitSet then [] else acceptedWith st.accepted id requiresAccept,
    effects := st.effects ++ resultEffects id results ++
      (if syncBitSet then
         acceptEffects (acceptedWith st.accepted id requiresAccept) ++
           [.sessionCompletion r.completed]
       else if call then [.sessionCompletion r.completed]
       else []) }

end SessionState

end Qpid


namespace Qpid

/-- What the session reads of a `framing::AMQFrame`. -/
structure AMQFrame where
  /-- The method body of the frame (`getMethod()`), absent in header and content
  frames. -/
  method : Option AMQMethodBody
  /-- The begin-of-frameset bit (`getBof()`). -/
  bof : Bool
  /-- The end-of-frameset bit (`getEof()`). -/
  eof : Bool
  /-- The begin-of-segment bit (`getBos()`). -/
  bos : Bool
  /-- The end-of-segment bit (`getEos()`). -/
  eos : Bool
  deriving DecidableEq, Repr

/-- Modelled from the spec: `MessageBuilder`, `Message`, `SemanticState::handle` and
the ingress completion are not part of the sources.  What the session reads of
the message the builder holds once the frame is in: the sync bit of its method,
whether it requires accept, and whether its ingress completion is still pending
when `end(xfer)` is called (the transfer is then registered as an asynchronous
command instead of being completed at once). -/
structure IngressMessage where
  isSync : Bool
  requiresAccept : Bool
  pending : Bool
  deriving DecidableEq, Repr

/-- What the session sends on the cluster-order proxy. -/
inductive FlowEffect where
  /-- The call `getClusterOrderProxy().getMessage().stop("")`. -/
  | messageStop
  /-- The call `getClusterOrderProxy().getMessage().flow("", 0, credit)`. -/
  | messageFlow (credit : Nat)
  deriving DecidableEq, Repr

/-- Modelled from the spec: the class `RateFlowcontrol` is not part of the sources.
It is taken as a parameter: a bucket state `β` and the methods the session calls
on it.  `receivedMessage b now msgs` returns the credit to send and the bucket
after the call; `sentCredit b now credit` returns the bucket after the call. -/
structure RateFlowcontrol (β : Type) where
  getRate : β → Nat
  flowStopped : β → Bool
  receivedMessage : β → Nat → Nat → Nat × β
  sentCredit : β → Nat → Nat → β

/-- Modelled from the spec: the constants of `qpid/sys/Time.h` are not part of the
sources.  A `sys::Duration` counts nanoseconds; this is one second. -/
def TIME_SEC : Nat := 1000 * 1000 * 1000

/-- Modelled from the spec: the constants of `qpid/sys/Time.h` are not part of the
sources.  One millisecond, in nanoseconds. -/
def TIME_MSEC : Nat := 1000 * 1000

/-- The duration `std::min(sys::TIME_SEC * 50 / rate, 500 * sys::TIME_MSEC)` of the
scheduled credit task, for a rate of at least one.  The 64-bit arithmetic of the
source does not overflow: the product is 50 * 10^9. -/
def scheduledCreditDuration (rate : Nat) : Nat :=
  min (TIME_SEC * 50 / rate) (500 * TIME_MSEC)

/-- The producer flow control of a session. -/
structure FlowControl (β : Type) where
  /-- The bucket `rateFlowcontrol`, absent when no rate is configured. -/
  rateFlowcontrol : Option β
  /-- The duration of the task `flowControlTimer` points to, if any. -/
  flowControlTimer : Option Nat
  /-- The durations of the tasks given to `timer.add`, oldest first. -/
  timerAdded : List Nat
  /-- Everything sent on the cluster-order proxy, oldest first. -/
  sent : List FlowEffect

namespace SessionState

/-- The method `processSendCredit`, at the time `now`.  The calls on the
cluster-order proxy go through the handler. -/
def processSendCredit {β : Type} (rf : RateFlowcontrol β) (handler : Bool)
    (fc : FlowControl β) (now msgs : Nat) : Except SessionError (FlowControl β × Bool) :=
  match fc.rateFlowcontrol with
  | none => .error .undefinedBehaviour
  | some bucket =>
    if decide (msgs > 0) && rf.flowStopped bucket then
      if handler then .ok ({ fc with sent := fc.sent ++ [.messageStop] }, true)
      else .error .undefinedBehaviour
    else
      let received := rf.receivedMessage bucket now msgs
      let sendCredit := received.1
      if sendCredit > 0 then
        if handler then
          .ok ({ fc with rateFlowcontrol := some (rf.sentCredit received.2 now sendCredit),
                         sent := fc.sent ++ [.messageFlow sendCredit] }, true)
        else .error .undefinedBehaviour
      else
        .ok ({ fc with rateFlowcontrol := some received.2 }, !rf.flowStopped received.2)

/-- The end-of-frameset block of `handleContent`: the flags of the current command
are set from the message, and `end(xfer)` either completes the transfer at once
(`IncompleteIngressMsgXfer::completed(true)`) or registers it as an asynchronous
command (`IncompleteIngressMsgXfer::clone`), flushing the message when its sync
bit is set. -/
def endOfFrameset (st : SessionState) (msg : IngressMessage) (id : Nat) :
    Except SessionError SessionState :=
  if st.handler then
    let st1 := { st with currentCommandComplete := true,
                         syncCurrentCommand := msg.isSync,
                         acceptRequired := msg.requiresAccept }
    if msg.pending then
      match registerAsyncCommand st1 with
      | .ok st2 =>
        if msg.isSync then
          .ok { st2 with effects := st2.effects ++ [.flush st2.receiver.receiverGetCurrent] }
        else .ok st2
      | .error e => .error e
    else completeCommand st1 id InvokerResult.empty msg.requiresAccept msg.isSync
  else .error .undefinedBehaviour

/-- The block "Handle producer session flow control" of `handleContent`: for a frame
that starts a frameset on a session with a configured rate, `processSendCredit(1)`
is called, and when it returns false a `ScheduledCreditTask` is created and given
to the timer. -/
def producerFlowControl {β : Type} (rf : RateFlowcontrol β) (handler : Bool)
    (fc : FlowControl β) (frame : AMQFrame) (now : Nat) :
    Except SessionError (FlowControl β) :=
  match fc.rateFlowcontrol with
  | none => .ok fc
  | some _ =>
    if frame.bof && frame.bos then
      match processSendCredit rf handler fc now 1 with
      | .error e => .error e
      | .ok (fc1, true) => .ok fc1
      | .ok (fc1, false) =>
        match fc1.rateFlowcontrol with
        | none => .error .undefinedBehaviour
        | some bucket =>
          if rf.getRate bucket = 0 then .error .undefinedBehaviour
          else
            let d := scheduledCreditDuration (rf.getRate bucket)
            .ok { fc1 with flowControlTimer := some d,
                           timerAdded := fc1.timerAdded ++ [d] }
    else .ok fc

/-- The method `handleContent`, at the time `now`, for a frame that leaves `msg` in
the message builder. -/
def handleContent {β : Type} (rf : RateFlowcontrol β) (st : SessionState)
    (fc : FlowControl β) (frame : AMQFrame) (msg : IngressMessage) (id now : Nat) :
    Except SessionError (SessionState × FlowControl β) :=
  let ended := if frame.eof && frame.eos then endOfFrameset st msg id else .ok st
  match ended with
  | .error e => .error e
  | .ok st1 =>
    match producerFlowControl rf st1.handler fc frame now with
    | .error e => .error e
    | .ok fc1 => .ok (st1, fc1)

end SessionState

/-- A bucket for the examples: its state is the credit the client has left, it
grants no credit on its own, and its rate is 100 messages per second. -/
def countingBucket : RateFlowcontrol Nat :=
  { getRate := fun _ => 100,
    flowStopped := fun credit => credit == 0,
    receivedMessage := fun credit _ msgs => (0, credit - msgs),
    sentCredit := fun credit _ sent => credit + sent }

/-- A session without configured rate. -/
def noFlowControl : FlowControl Nat := ⟨none, none, [], []⟩

/-- A command frame that begins a frameset without ending it. -/
def openCommandFrame : AMQFrame :=
  ⟨some ⟨false, false, .inline none⟩, true, false, true, true⟩

/-- The first frame of a message.transfer whose header and content follow. -/
def transferFrame : AMQFrame :=
  ⟨some ⟨false, true, .inline none⟩, true, false, true, true⟩

/-- The flow control of a session whose client has one message of credit left. -/
def lastCredit : FlowControl Nat := ⟨some 1, none, [], []⟩

/-- The flow control of a session whose client has used up its credit. -/
def noCredit : FlowControl Nat := ⟨some 0, none, [], []⟩

/-- The pending map is a `std::map`: its keys are strictly increasing, every command
is filed under its own id, and every id has been received. -/
def PendingOrdered (st : SessionState) : Prop :=
  st.asyncCommandManager.pendingCommands.Pairwise (fun a b => a.1 < b.1) ∧
  ∀ e ∈ st.asyncCommandManager.pendingCommands, e.1 = e.2.id ∧ e.1 < st.receiver.expected

/-- An attached session that is handling the transfer 10, which has the sync bit and
requires accept. -/
def transferArrivalState : SessionState :=
  { receiver := ⟨11, [10], []⟩,
    handler := true,
    outputEnabled := true,
    currentCommandComplete := true,
    syncCurrentCommand := true,
    acceptRequired := true,
    accepted := [],
    pendingExecutionSyncs := [],
    asyncCommandManager := ⟨true, true, [], []⟩,
    effects := [] }

/-- The session `transferArrivalState` once the transfer 10 is registered as an
asynchronous command. -/
def transferPendingState : SessionState :=
  { transferArrivalState with
    currentCommandComplete := false,
    asyncCommandManager := ⟨true, true, [(10, ⟨10, true, true⟩)], []⟩ }

/-- The session after attach (by `create`), registering the asynchronous command 10
and detach: command 10 is pending and incomplete, the manager is detached. -/
def detachedPendingState : SessionState :=
  { receiver := ⟨11, [10], []⟩,
    handler := false,
    outputEnabled := false,
    currentCommandComplete := false,
    syncCurrentCommand := false,
    acceptRequired := false,
    accepted := [],
    pendingExecutionSyncs := [],
    asyncCommandManager := ⟨true, false, [(10, ⟨10, false, false⟩)], []⟩,
    effects := [] }

/-- How a call of a session method ends: it returns, or it throws an exception of its
own and leaves the session as it was at the `throw`, or it fails inside a callee
that has no defined behaviour. -/
inductive Ending where
  /-- The method returned, with the session like this. -/
  | returned (st : SessionState)
  /-- The method threw `e`; the session was like this at the `throw`. -/
  | threw (e : SessionError) (st : SessionState)
  /-- A callee failed with `e`. -/
  | failed (e : SessionError)

/-- The result of a call, forgetting the session an exception leaves behind. -/
def Ending.toExcept : Ending → Except SessionError SessionState
  | .returned st => .ok st
  | .threw e _ => .error e
  | .failed e => .error e

namespace SessionState

/-- The method `handleCommand`, statement by statement, keeping the session at the
`throw` of `NotImplementedException`. -/
def handleCommandEnding (st : SessionState) (method : AMQMethodBody) (id : Nat) : Ending :=
  let st1 := { st with currentCommandComplete := true,
                       syncCurrentCommand := method.isSync,
                       acceptRequired := false }
  match invoke st1 method with
  | .error e => .failed e
  | .ok (st2, invocation) =>
    if !invocation.handled then .threw .notImplemented st2
    else if st2.currentCommandComplete then
      match completeCommand st2 id invocation false st2.syncCurrentCommand with
      | .ok st3 => .returned st3
      | .error e => .failed e
    else .returned st2

end SessionState

namespace SessionState

/-- The drain of a session whose back-reference and handler are set, spelled out
around one entry `c` of its completed list: the loop over the entries before
`c`, the call of `completeCommand` with the id, result, acceptRequired and sync
bit of `c`, the loop over the entries after `c`, and the clearing of the list. -/
def drainAround (st : SessionState) (before : List CommandInfo) (c : CommandInfo)
    (after : List CommandInfo) : Except SessionError SessionState :=
  match processLoop st before with
  | .ok s1 =>
    match completeCommand s1 c.id c.results c.requiresAccept c.syncBitSet with
    | .ok s2 =>
      match processLoop s2 after with
      | .ok s3 =>
        .ok { s3 with asyncCommandManager :=
                { s3.asyncCommandManager with completedCommands := [] } }
      | .error e => .error e
    | .error e => .error e
  | .error e => .error e

end SessionState

/-- A fresh session that has registered the transfer 5, which has the sync bit, as
an asynchronous command. -/
def burstRegistered : SessionState :=
  { receiver := ⟨6, [5], []⟩,
    handler := true,
    outputEnabled := false,
    currentCommandComplete := false,
    syncCurrentCommand := true,
    acceptRequired := false,
    accepted := [],
    pendingExecutionSyncs := [],
    asyncCommandManager := ⟨true, true, [(5, ⟨5, false, true⟩)], []⟩,
    effects := [] }

/-- The session `burstRegistered` after command 6 was registered and completed by a
worker: the completed list holds command 6 while command 5 is still pending. -/
def burstOtherCompleted : SessionState :=
  { receiver := ⟨7, [5, 6], []⟩,
    handler := true,
    outputEnabled := false,
    currentCommandComplete := false,
    syncCurrentCommand := false,
    acceptRequired := false,
    accepted := [],
    pendingExecutionSyncs := [],
    asyncCommandManager :=
      ⟨true, true, [(5, ⟨5, false, true⟩)], [⟨6, ⟨false, none⟩, false, false⟩]⟩,
    effects := [.requestIOProcessing] }

/-- The session `burstOtherCompleted` after a worker completed command 5 with a
result. -/
def burstCompleted : SessionState :=
  { burstOtherCompleted with
    asyncCommandManager :=
      ⟨true, true, [],
        [⟨6, ⟨false, none⟩, false, false⟩, ⟨5, ⟨false, some [1]⟩, false, true⟩]⟩ }

/-- The session `burstCompleted` after the inline command 7, before the drain. -/
def burstBeforeDrain : SessionState :=
  { burstCompleted with
    receiver := ⟨8, [5, 6], [7]⟩,
    currentCommandComplete := true }

/-- How a call of `handleIn` ends. -/
inductive HandleInResult (β : Type) where
  /-- The frame went to `handleContent`, which ended this way. -/
  | content (result : Except SessionError (SessionState × FlowControl β))
  /-- The frame went to `handleCommand`, which ended this way. -/
  | command (result : Except SessionError SessionState)
  /-- The method threw `InternalErrorException`, with the session like this. -/
  | internalError (st : SessionState) (fc : FlowControl β)

namespace SessionState

/-- The method `handleIn`, at the time `now`, for a frame that leaves `msg` in the
message builder. -/
def handleIn {β : Type} (rf : RateFlowcontrol β) (st : SessionState) (fc : FlowControl β)
    (frame : AMQFrame) (msg : IngressMessage) (now : Nat) : HandleInResult β :=
  let commandId := st.receiver.receiverGetCurrent
  match frame.method with
  | none => .content (handleContent rf st fc frame msg commandId now)
  | some m =>
    if m.isContentBearing then .content (handleContent rf st fc frame msg commandId now)
    else if frame.bof && frame.eof then .command (handleCommand st m commandId)
    else .internalError st fc

end SessionState

end Qpid

namespace Qpid

/-! ## Sequence sets -/

namespace SequenceSet

theorem mem_add (s : List Nat) (x y : Nat) :
    y ∈ add s x ↔ y ∈ s ∨ y = x := by
  induction s with
  | nil => simp [add]
  | cons a t ih =>
    unfold add
    by_cases h1 : x < a
    · simp only [h1, if_true, List.mem_cons]
      tauto
    · by_cases h2 : x = a
      · subst h2
        simp only [h1, if_false, if_true, List.mem_cons]
        tauto
      · simp only [h1, h2, if_false, List.mem_cons, ih]
        tauto

theorem mem_remove (s : List Nat) (x y : Nat) :
    y ∈ remove s x ↔ y ∈ s ∧ y ≠ x := by
  simp [remove]

theorem front_eq_none (s : List Nat) : front s = none ↔ s = [] := by
  cases s with
  | nil => simp [front]
  | cons a t =>
    simp only [front]
    cases front t <;> simp

theorem front_mem (s : List Nat) (m : Nat) (h : front s = some m) : m ∈ s := by
  induction s generalizing m with
  | nil => simp [front] at h
  | cons a t ih =>
    simp only [front] at h
    cases hf : front t with
    | none =>
      rw [hf] at h
      simp only [Option.some.injEq] at h
      simp [h]
    | some k =>
      rw [hf] at h
      simp only [Option.some.injEq] at h
      have hk := ih k hf
      rcases Nat.le_total a k with hak | hka
      · rw [Nat.min_eq_left hak] at h
        simp [h]
      · rw [Nat.min_eq_right hka] at h
        subst h
        exact List.mem_cons_of_mem _ hk

theorem front_le (s : List Nat) (m : Nat) (h : front s = some m) :
    ∀ y ∈ s, m ≤ y := by
  induction s generalizing m with
  | nil => simp
  | cons a t ih =>
    simp only [front] at h
    intro y hy
    cases hf : front t with
    | none =>
      rw [hf] at h
      simp only [Option.some.injEq] at h
      have ht : t = [] := (front_eq_none t).1 hf
      subst ht
      simp only [List.mem_singleton] at hy
      omega
    | some k =>
      rw [hf] at h
      simp only [Option.some.injEq] at h
      have hk := ih k hf
      rcases List.mem_cons.1 hy with hya | hyt
      · subst hya
        omega
      · have := hk y hyt
        omega

theorem front_of_mem (s : List Nat) (x : Nat) (h : x ∈ s) :
    ∃ m, front s = some m := by
  cases hf : front s with
  | none =>
    rw [(front_eq_none s).1 hf] at h
    simp at h
  | some m => exact ⟨m, rfl⟩

end SequenceSet

end Qpid

namespace Qpid

/-! ## The loop over the deferred execution.sync ids -/

namespace SessionState

theorem completeAll_append (r : ReceiverState) (a b : List Nat) :
    completeAll r (a ++ b) = completeAll (completeAll r a) b := by
  simp [completeAll, List.foldl_append]

theorem completeAll_cons (r : ReceiverState) (a : Nat) (b : List Nat) :
    completeAll r (a :: b) = completeAll (r.receiverCompleted a) b := rfl

theorem mem_incomplete_completeAll (r : ReceiverState) (ids : List Nat) (x : Nat) :
    x ∈ (completeAll r ids).incomplete ↔ x ∈ r.incomplete ∧ x ∉ ids := by
  induction ids generalizing r with
  | nil => simp [completeAll]
  | cons a t ih =>
    rw [completeAll_cons, ih]
    simp only [ReceiverState.receiverCompleted, SequenceSet.mem_remove, List.mem_cons, not_or]
    tauto

theorem mem_completed_completeAll (r : ReceiverState) (ids : List Nat) (x : Nat) :
    x ∈ (completeAll r ids).completed ↔ x ∈ r.completed ∨ x ∈ ids := by
  induction ids generalizing r with
  | nil => simp [completeAll]
  | cons a t ih =>
    rw [completeAll_cons, ih]
    simp only [ReceiverState.receiverCompleted, SequenceSet.mem_add, List.mem_cons]
    tauto

theorem expected_completeAll (r : ReceiverState) (ids : List Nat) :
    (completeAll r ids).expected = r.expected := by
  induction ids generalizing r with
  | nil => rfl
  | cons a t ih =>
    rw [completeAll_cons, ih]
    rfl

/-- When the loop returns, it has popped a front segment of the queue, marked
each popped id complete in turn, each popped id was not above the smallest
incomplete id when it was popped, and the head left (if any) is above the
smallest incomplete id. -/
theorem completePendingSyncs_ok (r : ReceiverState) (q : List Nat) (call : Bool)
    (r' : ReceiverState) (q' : List Nat) (call' : Bool)
    (h : completePendingSyncs r q call = .ok (r', q', call')) :
    ∃ popped, q = popped ++ q' ∧ r' = completeAll r popped ∧
      call' = (call || !popped.isEmpty) ∧
      (∀ pre p post, popped = pre ++ p :: post →
        ∃ f, SequenceSet.front (completeAll r pre).incomplete = some f ∧ p ≤ f) ∧
      (q' = [] ∨ ∃ s f, q'.head? = some s ∧ SequenceSet.front r'.incomplete = some f ∧ f < s) := by
  induction q generalizing r call with
  | nil =>
    simp only [completePendingSyncs, Except.ok.injEq, Prod.mk.injEq] at h
    obtain ⟨h1, h2, h3⟩ := h
    subst h1 h2 h3
    exact ⟨[], rfl, rfl, by simp, by simp, Or.inl rfl⟩
  | cons s rest ih =>
    unfold completePendingSyncs at h
    cases hf : SequenceSet.front r.incomplete with
    | none => simp [hf] at h
    | some f =>
      simp only [hf] at h
      by_cases hle : s ≤ f
      · simp only [hle, if_true] at h
        obtain ⟨popped, hq, hr, hc, hpop, hrest⟩ := ih _ _ h
        refine ⟨s :: popped, by simp [hq], by rw [completeAll_cons, hr], by simp [hc], ?_, hrest⟩
        intro pre p post hsplit
        cases pre with
        | nil =>
          simp only [List.nil_append, List.cons.injEq] at hsplit
          obtain ⟨hsp, _⟩ := hsplit
          subst hsp
          exact ⟨f, hf, hle⟩
        | cons a pre' =>
          simp only [List.cons_append, List.cons.injEq] at hsplit
          obtain ⟨hsa, hsplit'⟩ := hsplit
          subst hsa
          rw [completeAll_cons]
          exact hpop pre' p post hsplit'
      · simp only [hle, if_false, Except.ok.injEq, Prod.mk.injEq] at h
        obtain ⟨h1, h2, h3⟩ := h
        subst h1 h2 h3
        refine ⟨[], rfl, rfl, by simp, by simp, Or.inr ⟨s, f, rfl, hf, ?_⟩⟩
        omega

/-- The loop returns whenever every queued id is in the incomplete set and the
queue holds no id twice. -/
theorem completePendingSyncs_defined (r : ReceiverState) (q : List Nat) (call : Bool)
    (hmem : ∀ s ∈ q, s ∈ r.incomplete) (hnodup : q.Nodup) :
    ∃ res, completePendingSyncs r q call = .ok res := by
  induction q generalizing r call with
  | nil => exact ⟨_, rfl⟩
  | cons s rest ih =>
    unfold completePendingSyncs
    obtain ⟨f, hf⟩ := SequenceSet.front_of_mem r.incomplete s (hmem s (List.mem_cons_self _ _))
    simp only [hf]
    by_cases hle : s ≤ f
    · simp only [hle, if_true]
      rw [List.nodup_cons] at hnodup
      apply ih
      · intro x hx
        simp only [ReceiverState.receiverCompleted, SequenceSet.mem_remove]
        refine ⟨hmem x (List.mem_cons_of_mem _ hx), ?_⟩
        rintro rfl
        exact hnodup.1 hx
      · exact hnodup.2
    · simp only [hle, if_false]
      exact ⟨_, rfl⟩

end SessionState

end Qpid

namespace Qpid

/-! ## The method completeCommand -/

namespace SessionState

/-- Whatever `completeCommand` returns is the state described by `completedState`. -/
theorem completeCommand_ok (st : SessionState) (id : Nat) (results : InvokerResult)
    (ra sb : Bool) (st' : SessionState)
    (h : completeCommand st id results ra sb = .ok st') :
    ∃ r q call,
      completePendingSyncs (st.receiver.receiverCompleted id) st.pendingExecutionSyncs false
        = .ok (r, q, call) ∧
      st' = completedState st id results ra sb r q call := by
  obtain ⟨handled, result⟩ := results
  unfold completeCommand at h
  cases hl : completePendingSyncs (st.receiver.receiverCompleted id)
      st.pendingExecutionSyncs false with
  | error e =>
    cases result <;> cases hh : st.handler <;> cases ra <;>
      simp [emit, hh, hl] at h
  | ok res =>
    obtain ⟨r, q, call⟩ := res
    refine ⟨r, q, call, rfl, ?_⟩
    cases result <;> cases hh : st.handler <;> cases ra <;> cases sb <;> cases call <;>
      simp [emit, hh, hl, sendAcceptAndCompletion, sendCompletion, handlerSendCompletion, completedState,
        resultEffects, acceptEffects, acceptedWith] at h ⊢ <;>
      (try split at h) <;>
      simp_all

/-- With the handler set, `completeCommand` returns as soon as its loop does. -/
theorem completeCommand_of_loop (st : SessionState) (id : Nat) (results : InvokerResult)
    (ra sb : Bool) (r : ReceiverState) (q : List Nat) (call : Bool)
    (hh : st.handler = true)
    (hl : completePendingSyncs (st.receiver.receiverCompleted id) st.pendingExecutionSyncs false
        = .ok (r, q, call)) :
    completeCommand st id results ra sb = .ok (completedState st id results ra sb r q call) := by
  obtain ⟨handled, result⟩ := results
  unfold completeCommand
  cases result <;> cases ra <;> cases sb <;> cases call <;>
    simp [emit, hh, hl, sendAcceptAndCompletion, sendCompletion, handlerSendCompletion, completedState,
      resultEffects, acceptEffects, acceptedWith] <;>
    (try split) <;>
    simp_all

/-- With the handler set, every queued id incomplete, no id queued twice and the
completed id not queued, `completeCommand` returns. -/
theorem completeCommand_defined (st : SessionState) (id : Nat) (results : InvokerResult)
    (ra sb : Bool) (hh : st.handler = true)
    (hmem : ∀ s ∈ st.pendingExecutionSyncs, s ∈ st.receiver.incomplete)
    (hnodup : st.pendingExecutionSyncs.Nodup)
    (hid : id ∉ st.pendingExecutionSyncs) :
    ∃ r q call,
      completePendingSyncs (st.receiver.receiverCompleted id) st.pendingExecutionSyncs false
        = .ok (r, q, call) ∧
      completeCommand st id results ra sb
        = .ok (completedState st id results ra sb r q call) := by
  have hdef := completePendingSyncs_defined (st.receiver.receiverCompleted id)
    st.pendingExecutionSyncs false
    (by
      intro s hs
      simp only [ReceiverState.receiverCompleted, SequenceSet.mem_remove]
      refine ⟨hmem s hs, ?_⟩
      rintro rfl
      exact hid hs)
    hnodup
  obtain ⟨⟨r, q, call⟩, hl⟩ := hdef
  exact ⟨r, q, call, hl, completeCommand_of_loop st id results ra sb r q call hh hl⟩

end SessionState

end Qpid

namespace Qpid

/-! ## The invariant of the command pipeline -/

namespace SessionState

theorem valid_create (first : Nat) : Valid first (create first) := by
  constructor <;> simp [create, attach, AsyncCommandManager.attached]

theorem nodup_of_sorted (q : List Nat) (h : q.Pairwise (fun a b => a < b)) : q.Nodup :=
  h.imp (fun hab => Nat.ne_of_lt hab)

/-- Recording a new command keeps the invariant. -/
theorem invariant_receiverRecord (first : Nat) (r : ReceiverState) (q : List Nat)
    (m : AsyncCommandManager) (eff : List Effect) (h : Invariant first r q m eff) :
    Invariant first r.receiverRecord q m eff := by
  constructor
  · intro x h1 h2
    simp only [ReceiverState.receiverRecord, SequenceSet.mem_add] at h2 ⊢
    by_cases hx : x = r.expected
    · exact Or.inl (Or.inr hx)
    · rcases h.received x h1 (by omega) with h3 | h3
      · exact Or.inl (Or.inl h3)
      · exact Or.inr h3
  · intro x hx
    simp only [ReceiverState.receiverRecord, SequenceSet.mem_add] at hx ⊢
    rcases hx with hx | hx
    · have := h.incomplete_lt x hx
      omega
    · omega
  · intro x hx
    simp only [ReceiverState.receiverRecord] at hx ⊢
    have := h.completed_lt x hx
    omega
  · intro x hx
    simp only [ReceiverState.receiverRecord, SequenceSet.mem_add] at hx ⊢
    rintro (h1 | h1)
    · exact h.disjoint x hx h1
    · have := h.completed_lt x hx
      omega
  · exact h.queue_sorted
  · intro s hs
    simp only [ReceiverState.receiverRecord, SequenceSet.mem_add]
    exact Or.inl (h.queue_incomplete s hs)
  · intro e he
    have := h.pending_ids e he
    simp only [ReceiverState.receiverRecord]
    exact ⟨by omega, this.2⟩
  · intro c hc
    have := h.completed_ids c hc
    simp only [ReceiverState.receiverRecord]
    exact ⟨by omega, this.2⟩
  · exact h.announced

/-- The loop of `completeCommand`, started after an id outside the queue has been
marked complete, keeps the invariant, whatever effects of the call follow. -/
theorem invariant_completed (first : Nat) (r : ReceiverState) (q : List Nat)
    (m : AsyncCommandManager) (eff : List Effect) (h : Invariant first r q m eff)
    (id : Nat) (hid : id < r.expected) (hidq : id ∉ q) (popped q' : List Nat)
    (hq : q = popped ++ q') (new : List Effect)
    (hnew : ∀ S, Effect.sessionCompletion S ∈ new →
      S = (completeAll (r.receiverCompleted id) popped).completed) :
    Invariant first (completeAll (r.receiverCompleted id) popped) q' m (eff ++ new) := by
  subst hq
  have hsorted := h.queue_sorted
  rw [List.pairwise_append] at hsorted
  have hnd := nodup_of_sorted _ h.queue_sorted
  rw [List.nodup_append] at hnd
  constructor
  · intro x h1 h2
    rw [expected_completeAll] at h2
    simp only [mem_incomplete_completeAll, mem_completed_completeAll,
      ReceiverState.receiverCompleted, SequenceSet.mem_add, SequenceSet.mem_remove] at h2 ⊢
    rcases h.received x h1 h2 with h3 | h3
    · by_cases hx : x = id
      · exact Or.inr (Or.inl (Or.inr hx))
      · by_cases hp : x ∈ popped
        · exact Or.inr (Or.inr hp)
        · exact Or.inl ⟨⟨h3, hx⟩, hp⟩
    · exact Or.inr (Or.inl (Or.inl h3))
  · intro x hx
    rw [expected_completeAll]
    simp only [mem_incomplete_completeAll, ReceiverState.receiverCompleted,
      SequenceSet.mem_remove] at hx ⊢
    exact h.incomplete_lt x hx.1.1
  · intro x hx
    rw [expected_completeAll]
    simp only [mem_completed_completeAll, ReceiverState.receiverCompleted,
      SequenceSet.mem_add] at hx ⊢
    rcases hx with (hx | hx) | hx
    · exact h.completed_lt x hx
    · omega
    · exact h.incomplete_lt x (h.queue_incomplete x (List.mem_append_left _ hx))
  · intro x hx
    simp only [mem_incomplete_completeAll, mem_completed_completeAll,
      ReceiverState.receiverCompleted, SequenceSet.mem_add, SequenceSet.mem_remove] at hx ⊢
    rintro ⟨⟨h1, h2⟩, h3⟩
    rcases hx with (hx | hx) | hx
    · exact h.disjoint x hx h1
    · exact h2 hx
    · exact h3 hx
  · exact hsorted.2.1
  · intro s hs
    simp only [mem_incomplete_completeAll, ReceiverState.receiverCompleted,
      SequenceSet.mem_remove]
    refine ⟨⟨h.queue_incomplete s (List.mem_append_right _ hs), ?_⟩, ?_⟩
    · rintro rfl
      exact hidq (List.mem_append_right _ hs)
    · intro hp
      exact hnd.2.2 hp hs
  · intro e he
    have := h.pending_ids e he
    rw [expected_completeAll]
    exact ⟨this.1, fun hc => this.2 (List.mem_append_right _ hc)⟩
  · intro c hc
    have := h.completed_ids c hc
    rw [expected_completeAll]
    exact ⟨this.1, fun hc => this.2 (List.mem_append_right _ hc)⟩
  · intro S hS x hx
    rw [List.mem_append] at hS
    rcases hS with hS | hS
    · simp only [mem_completed_completeAll, ReceiverState.receiverCompleted,
        SequenceSet.mem_add]
      exact Or.inl (Or.inl (h.announced S hS x hx))
    · rw [hnew S hS] at hx
      exact hx

end SessionState

end Qpid

namespace Qpid

namespace SessionState

theorem completes_refl (first : Nat) (st : SessionState) : Completes first st st := by
  constructor
  · intro s hs hn
    exact absurd hs hn
  all_goals simp

theorem completes_trans (first : Nat) (a b c : SessionState)
    (hab : Completes first a b) (hbc : Completes first b c) : Completes first a c := by
  constructor
  · intro s hs hn
    by_cases hb : s ∈ b.pendingExecutionSyncs
    · exact hbc.released s hb hn
    · obtain ⟨h1, S, hS, h2⟩ := hab.released s hs hb
      exact ⟨fun x hx1 hx2 => hbc.completed_subset x (h1 x hx1 hx2),
        S, hbc.effects_subset _ hS, h2⟩
  · exact fun x hx => hbc.completed_subset x (hab.completed_subset x hx)
  · exact fun s hs => hab.queue_subset s (hbc.queue_subset s hs)
  · exact fun e he => hbc.effects_subset e (hab.effects_subset e he)
  · rw [hbc.expected_eq, hab.expected_eq]
  · rw [hbc.manager_eq, hab.manager_eq]
  · rw [hbc.handler_eq, hab.handler_eq]

/-- The effects `completedState` adds announce the completed set of the new
receiver only. -/
theorem completedState_effects (st : SessionState) (id : Nat) (results : InvokerResult)
    (ra sb : Bool) (r : ReceiverState) (q : List Nat) (call : Bool) :
    ∃ new, (completedState st id results ra sb r q call).effects = st.effects ++ new ∧
      (∀ S, Effect.sessionCompletion S ∈ new → S = r.completed) ∧
      ((sb || call) = true → Effect.sessionCompletion r.completed ∈ new) := by
  obtain ⟨handled, result⟩ := results
  refine ⟨resultEffects id ⟨handled, result⟩ ++
      (if sb then
         acceptEffects (acceptedWith st.accepted id ra) ++
           [.sessionCompletion r.completed]
       else if call then [.sessionCompletion r.completed]
       else []), by simp [completedState], ?_, ?_⟩
  · intro S hS
    cases result <;> cases sb <;> cases call <;>
      simp [resultEffects, acceptEffects] at hS <;> simp_all
  · intro h
    cases result <;> cases sb <;> cases call <;>
      simp [resultEffects, acceptEffects] at h ⊢

/-- A returning `completeCommand` on an id that was received and is not queued keeps the
invariant and releases deferred execution.sync ids only behind a completed
prefix. -/
theorem valid_completeCommand (first : Nat) (st : SessionState) (id : Nat)
    (results : InvokerResult) (ra sb : Bool) (st' : SessionState)
    (hv : Valid first st) (hid : id < st.receiver.expected)
    (hidq : id ∉ st.pendingExecutionSyncs)
    (h : completeCommand st id results ra sb = .ok st') :
    Valid first st' ∧ Completes first st st' := by
  obtain ⟨r, q, call, hl, hst⟩ := completeCommand_ok st id results ra sb st' h
  obtain ⟨popped, hq, hr, hcall, hpop, _⟩ := completePendingSyncs_ok _ _ _ _ _ _ hl
  obtain ⟨new, hnew, hnewS, hsent⟩ := completedState_effects st id results ra sb r q call
  have hvalid : Valid first st' := by
    subst hst
    have := invariant_completed first st.receiver st.pendingExecutionSyncs
      st.asyncCommandManager st.effects hv id hid hidq popped q hq new
      (by rw [← hr]; exact hnewS)
    unfold Valid
    rw [hnew, hr]
    exact this
  refine ⟨hvalid, ?_⟩
  have hrec : st'.receiver = r := by subst hst; rfl
  have hqueue : st'.pendingExecutionSyncs = q := by subst hst; rfl
  have heff : st'.effects = st.effects ++ new := by subst hst; exact hnew
  constructor
  · intro s hs hn
    rw [hqueue] at hn
    rw [hq] at hs
    have hsp : s ∈ popped := by
      rcases List.mem_append.1 hs with h1 | h1
      · exact h1
      · exact absurd h1 hn
    obtain ⟨pre, post, hsplit⟩ := List.append_of_mem hsp
    obtain ⟨f, hf, hsf⟩ := hpop pre s post hsplit
    have habove : ∀ x ∈ st'.receiver.incomplete, s < x := by
      intro x hx
      rw [hrec, hr, hsplit, completeAll_append, completeAll_cons] at hx
      rw [mem_incomplete_completeAll] at hx
      simp only [ReceiverState.receiverCompleted, SequenceSet.mem_remove] at hx
      have := SequenceSet.front_le _ f hf x hx.1.1
      have hne := hx.1.2
      omega
    have hall : ∀ c, first ≤ c → c ≤ s → c ∈ st'.receiver.completed := by
      intro c hc1 hc2
      have hsexp : s < st'.receiver.expected := by
        rw [hrec, hr, expected_completeAll]
        exact hv.incomplete_lt s (hv.queue_incomplete s (by rw [hq]; exact hs))
      rcases hvalid.received c hc1 (by omega) with h1 | h1
      · have := habove c h1
        omega
      · exact h1
    refine ⟨hall, st'.receiver.completed, ?_, hall⟩
    rw [heff, hrec]
    apply List.mem_append_right
    apply hsent
    rw [hcall]
    cases popped with
    | nil => simp at hsp
    | cons a t => simp
  · intro x hx
    rw [hrec, hr, mem_completed_completeAll]
    simp only [ReceiverState.receiverCompleted, SequenceSet.mem_add]
    exact Or.inl (Or.inl hx)
  · intro s hs
    rw [hqueue] at hs
    rw [hq]
    exact List.mem_append_right _ hs
  · intro e he
    rw [heff]
    exact List.mem_append_left _ he
  · rw [hrec, hr, expected_completeAll]
    rfl
  · subst hst
    rfl
  · subst hst
    rfl

end SessionState

end Qpid

namespace Qpid

namespace SessionState

/-- The invariant does not grow when the manager holds fewer commands. -/
theorem invariant_manager (first : Nat) (r : ReceiverState) (q : List Nat)
    (m m' : AsyncCommandManager) (eff : List Effect) (h : Invariant first r q m eff)
    (hp : ∀ e ∈ m'.pendingCommands, e.2.id < r.expected ∧ e.2.id ∉ q)
    (hc : ∀ c ∈ m'.completedCommands, c.id < r.expected ∧ c.id ∉ q) :
    Invariant first r q m' eff :=
  ⟨h.received, h.incomplete_lt, h.completed_lt, h.disjoint, h.queue_sorted,
    h.queue_incomplete, hp, hc, h.announced⟩

/-- Effects other than a session.completion do not touch the invariant. -/
theorem invariant_effects (first : Nat) (r : ReceiverState) (q : List Nat)
    (m : AsyncCommandManager) (eff new : List Effect) (h : Invariant first r q m eff)
    (hnew : ∀ S, Effect.sessionCompletion S ∉ new) :
    Invariant first r q m (eff ++ new) :=
  ⟨h.received, h.incomplete_lt, h.completed_lt, h.disjoint, h.queue_sorted,
    h.queue_incomplete, h.pending_ids, h.completed_ids, by
      intro S hS
      rcases List.mem_append.1 hS with h1 | h1
      · exact h.announced S h1
      · exact absurd h1 (hnew S)⟩

theorem valid_processLoop (first : Nat) (cmds : List CommandInfo) (st st' : SessionState)
    (hv : Valid first st)
    (hc : ∀ c ∈ cmds, c.id < st.receiver.expected ∧ c.id ∉ st.pendingExecutionSyncs)
    (h : processLoop st cmds = .ok st') :
    Valid first st' ∧ Completes first st st' := by
  induction cmds generalizing st with
  | nil =>
    simp only [processLoop, Except.ok.injEq] at h
    subst h
    exact ⟨hv, completes_refl first st⟩
  | cons c rest ih =>
    unfold processLoop at h
    cases hcc : completeCommand st c.id c.results c.requiresAccept c.syncBitSet with
    | error e => simp [hcc] at h
    | ok st1 =>
      simp only [hcc] at h
      have hc0 := hc c (List.mem_cons_self _ _)
      obtain ⟨hv1, hcomp1⟩ := valid_completeCommand first st c.id c.results c.requiresAccept
        c.syncBitSet st1 hv hc0.1 hc0.2 hcc
      have hrest : ∀ d ∈ rest,
          d.id < st1.receiver.expected ∧ d.id ∉ st1.pendingExecutionSyncs := by
        intro d hd
        have := hc d (List.mem_cons_of_mem _ hd)
        rw [hcomp1.expected_eq]
        exact ⟨this.1, fun hq => this.2 (hcomp1.queue_subset _ hq)⟩
      obtain ⟨hv2, hcomp2⟩ := ih st1 hv1 hrest h
      exact ⟨hv2, completes_trans first st st1 st' hcomp1 hcomp2⟩

theorem valid_processCompletedCommands (first : Nat) (st st' : SessionState)
    (hv : Valid first st) (h : processCompletedCommands st = .ok st') :
    Valid first st' ∧ Released first st st' := by
  unfold processCompletedCommands at h
  by_cases hg : (st.asyncCommandManager.session && st.isAttached) = true
  · simp only [hg, if_true] at h
    cases hl : processLoop st st.asyncCommandManager.completedCommands with
    | error e => simp [hl] at h
    | ok st1 =>
      simp only [hl, Except.ok.injEq] at h
      obtain ⟨hv1, hcomp⟩ := valid_processLoop first _ st st1 hv hv.completed_ids hl
      subst h
      refine ⟨?_, hcomp.released⟩
      exact invariant_manager first _ _ _ _ _ hv1 hv1.pending_ids (by simp)
  · rw [if_neg hg] at h
    simp only [Except.ok.injEq] at h
    subst h
    refine ⟨invariant_manager first _ _ _ _ _ hv hv.pending_ids (by simp), ?_⟩
    intro s hs hn
    exact absurd hs hn

theorem mem_insertPending (p : List (Nat × AsyncCommandContext)) (c : AsyncCommandContext)
    (p' : List (Nat × AsyncCommandContext))
    (h : AsyncCommandManager.insertPending p c = some p') :
    ∀ e, e ∈ p' ↔ e ∈ p ∨ e = (c.id, c) := by
  induction p generalizing p' with
  | nil =>
    simp only [AsyncCommandManager.insertPending, Option.some.injEq] at h
    subst h
    simp
  | cons a t ih =>
    unfold AsyncCommandManager.insertPending at h
    by_cases h1 : c.id < a.1
    · simp only [h1, if_true, Option.some.injEq] at h
      subst h
      intro e
      simp only [List.mem_cons]
      tauto
    · by_cases h2 : c.id = a.1
      · simp [h1, h2] at h
      · simp only [h1, h2, if_false, Option.map_eq_some'] at h
        obtain ⟨r, hr, hp⟩ := h
        subst hp
        intro e
        simp only [List.mem_cons, ih r hr]
        tauto

theorem mem_erasePending (p : List (Nat × AsyncCommandContext)) (id : Nat)
    (e : Nat × AsyncCommandContext) :
    e ∈ AsyncCommandManager.erasePending p id ↔ e ∈ p ∧ e.1 ≠ id := by
  simp [AsyncCommandManager.erasePending]

end SessionState

end Qpid

namespace Qpid

namespace SessionState

/-- Handling a freshly recorded command keeps the invariant. -/
theorem valid_handleCommand (first : Nat) (st st' : SessionState) (method : AMQMethodBody)
    (hv : Valid first st)
    (h : handleCommand { st with receiver := st.receiver.receiverRecord } method
      st.receiver.expected = .ok st') :
    Valid first st' ∧ Released first st st' := by
  have hrec := invariant_receiverRecord first _ _ _ _ hv
  have hfresh : st.receiver.expected ∉ st.pendingExecutionSyncs := by
    intro hq
    have := hv.incomplete_lt _ (hv.queue_incomplete _ hq)
    omega
  have hlt : st.receiver.expected < st.receiver.receiverRecord.expected := by
    simp [ReceiverState.receiverRecord]
  -- the two ways the command is completed inline
  have hinline : ∀ (results : InvokerResult),
      completeCommand { st with receiver := st.receiver.receiverRecord,
                                currentCommandComplete := true,
                                syncCurrentCommand := method.isSync,
                                acceptRequired := false }
        st.receiver.expected results false method.isSync = .ok st' →
      Valid first st' ∧ Released first st st' := by
    intro results hc
    obtain ⟨hv', hcomp⟩ := valid_completeCommand first
      { st with receiver := st.receiver.receiverRecord,
                currentCommandComplete := true,
                syncCurrentCommand := method.isSync,
                acceptRequired := false }
      st.receiver.expected results false method.isSync st' hrec hlt hfresh hc
    exact ⟨hv', hcomp.released⟩
  obtain ⟨isSync, isContentBearing, dispatch⟩ := method
  cases dispatch with
  | unhandled => simp [handleCommand, invoke] at h
  | inline result =>
    simp only [handleCommand, invoke, Bool.not_true, Bool.false_eq_true, if_false,
      if_true] at h
    exact hinline _ h
  | executionSync =>
    simp only [handleCommand, invoke, addPendingExecutionSync] at h
    cases hf : SequenceSet.front st.receiver.receiverRecord.incomplete with
    | none => simp [hf] at h
    | some f =>
      simp only [hf] at h
      by_cases hlow : f < st.receiver.receiverRecord.receiverGetCurrent
      · simp only [hlow, if_true, flushPendingCommands, Bool.not_true, Bool.false_eq_true,
          if_false, Except.ok.injEq] at h
        subst h
        have hcur : st.receiver.receiverRecord.receiverGetCurrent = st.receiver.expected := by
          simp [ReceiverState.receiverRecord, ReceiverState.receiverGetCurrent]
        rw [hcur]
        refine ⟨?_, ?_⟩
        · apply invariant_effects
          · refine ⟨hrec.received, hrec.incomplete_lt, hrec.completed_lt, hrec.disjoint, ?_, ?_,
              ?_, ?_, hrec.announced⟩
            · rw [List.pairwise_append]
              refine ⟨hv.queue_sorted, by simp, ?_⟩
              intro a ha b hb
              simp only [List.mem_singleton] at hb
              subst hb
              exact hv.incomplete_lt a (hv.queue_incomplete a ha)
            · intro s hs
              rcases List.mem_append.1 hs with h1 | h1
              · exact hrec.queue_incomplete s h1
              · simp only [List.mem_singleton] at h1
                subst h1
                simp [ReceiverState.receiverRecord, SequenceSet.mem_add]
            · intro e he
              have := hv.pending_ids e he
              refine ⟨by simp only [ReceiverState.receiverRecord]; omega, ?_⟩
              intro hq
              rcases List.mem_append.1 hq with h1 | h1
              · exact this.2 h1
              · simp only [List.mem_singleton] at h1
                omega
            · intro c hc
              have := hv.completed_ids c hc
              refine ⟨by simp only [ReceiverState.receiverRecord]; omega, ?_⟩
              intro hq
              rcases List.mem_append.1 hq with h1 | h1
              · exact this.2 h1
              · simp only [List.mem_singleton] at h1
                omega
          · intro S hS
            simp at hS
        · intro s hs hn
          exact absurd (List.mem_append_left _ hs) hn
      · simp only [hlow, if_false, Bool.not_true, Bool.false_eq_true, if_true] at h
        exact hinline _ h
  | deferAsync =>
    simp only [handleCommand, invoke, registerAsyncCommand,
      AsyncCommandManager.addPendingCommand] at h
    cases hi : AsyncCommandManager.insertPending st.asyncCommandManager.pendingCommands
        ⟨st.receiver.receiverRecord.receiverGetCurrent, false, isSync⟩ with
    | none => simp [hi] at h
    | some p =>
      simp only [hi, Bool.not_true, Bool.false_eq_true, if_false, Except.ok.injEq] at h
      subst h
      have hmem := mem_insertPending _ _ _ hi
      refine ⟨?_, ?_⟩
      · apply invariant_manager first _ _ _ _ _ hrec
        · intro e he
          rcases (hmem e).1 he with h1 | h1
          · exact hrec.pending_ids e h1
          · subst h1
            simp only [ReceiverState.receiverRecord, ReceiverState.receiverGetCurrent]
            refine ⟨by omega, ?_⟩
            simpa using hfresh
        · exact hrec.completed_ids
      · intro s hs hn
        exact absurd hs hn

/-- Every step keeps the invariant and releases deferred execution.sync ids only
behind a completed prefix. -/
theorem valid_step (first : Nat) (st st' : SessionState) (i : Input)
    (hv : Valid first st) (h : step st i = .ok st') :
    Valid first st' ∧ Released first st st' := by
  have hsame : ∀ s ∈ st.pendingExecutionSyncs, s ∉ st.pendingExecutionSyncs →
      (∀ c, first ≤ c → c ≤ s → c ∈ st'.receiver.completed) ∧
      ∃ S, Effect.sessionCompletion S ∈ st'.effects ∧ ∀ c, first ≤ c → c ≤ s → c ∈ S :=
    fun s hs hn => absurd hs hn
  cases i with
  | command method =>
    simp only [step] at h
    have hcur : st.receiver.receiverRecord.receiverGetCurrent = st.receiver.expected := by
      simp [ReceiverState.receiverRecord, ReceiverState.receiverGetCurrent]
    rw [hcur] at h
    exact valid_handleCommand first st st' method hv h
  | completed id result =>
    simp only [step] at h
    cases hfind : st.asyncCommandManager.pendingCommands.find? (fun e => e.1 == id) with
    | none =>
      simp only [hfind, Except.ok.injEq] at h
      subst h
      exact ⟨hv, hsame⟩
    | some e =>
      simp only [hfind] at h
      have he : e ∈ st.asyncCommandManager.pendingCommands := List.mem_of_find?_eq_some hfind
      have hpe := hv.pending_ids e he
      have hp : ∀ x ∈ AsyncCommandManager.erasePending st.asyncCommandManager.pendingCommands
          e.2.id, x.2.id < st.receiver.expected ∧ x.2.id ∉ st.pendingExecutionSyncs :=
        fun x hx => hv.pending_ids x ((mem_erasePending _ _ _).1 hx).1
      unfold completePendingCommand AsyncCommandManager.completePendingCommand emit at h
      by_cases hg : (st.asyncCommandManager.session && st.asyncCommandManager.isAttached) = true
      · simp only [hg, if_true] at h
        have hv1 : Invariant first st.receiver st.pendingExecutionSyncs
            { st.asyncCommandManager with
              completedCommands := st.asyncCommandManager.completedCommands ++
                [⟨e.2.id, result, e.2.requiresAccept, e.2.syncBitSet⟩],
              pendingCommands := AsyncCommandManager.erasePending
                st.asyncCommandManager.pendingCommands e.2.id } st.effects := by
          apply invariant_manager first _ _ _ _ _ hv hp
          intro c hc
          rcases List.mem_append.1 hc with h1 | h1
          · exact hv.completed_ids c h1
          · simp only [List.mem_singleton] at h1
            subst h1
            exact hpe
        split at h
        · split at h
          · simp only [Except.ok.injEq] at h
            subst h
            exact ⟨invariant_effects first _ _ _ _ _ hv1 (by simp), hsame⟩
          · simp at h
        · simp only [Except.ok.injEq] at h
          subst h
          exact ⟨hv1, hsame⟩
      · rw [if_neg hg] at h
        simp only [Bool.false_eq_true, if_false, Except.ok.injEq] at h
        subst h
        exact ⟨invariant_manager first _ _ _ _ _ hv hp hv.completed_ids, hsame⟩
  | drain =>
    simp only [step] at h
    exact valid_processCompletedCommands first st st' hv h
  | detach =>
    simp only [step, Except.ok.injEq] at h
    subst h
    exact ⟨invariant_manager first _ _ _ _ _ hv hv.pending_ids hv.completed_ids, hsame⟩
  | attach =>
    simp only [step, Except.ok.injEq] at h
    subst h
    exact ⟨invariant_manager first _ _ _ _ _ hv hv.pending_ids hv.completed_ids, hsame⟩

/-- Every state reached from a fresh session satisfies the invariant. -/
theorem valid_run (first : Nat) (inputs : List Input) (st st' : SessionState)
    (hv : Valid first st) (h : run st inputs = .ok st') : Valid first st' := by
  induction inputs generalizing st with
  | nil =>
    simp only [run, Except.ok.injEq] at h
    subst h
    exact hv
  | cons i rest ih =>
    unfold run at h
    cases hs : step st i with
    | error e => simp [hs] at h
    | ok st1 =>
      simp only [hs] at h
      exact ih st1 (valid_step first st st1 i hv hs).1 h

end SessionState

end Qpid

namespace Qpid

/-! ## The execution.sync barrier -/

namespace SessionState

theorem run_lateSyncBitCommands : run (create 5) lateSyncBitCommands = .ok lateSyncBitState := by
  rfl

theorem run_deferredSyncCommands :
    run (create 5) deferredSyncCommands = .ok deferredSyncState := by
  rfl

theorem step_drain_deferredSyncState : step deferredSyncState .drain = .ok drainedSyncState := by
  rfl

/-- C1, as stated, fails: after commands 5 (deferred), 6 (inline), 7 (execution.sync,
queued) and 8 (inline with the sync bit), command 8 is marked complete and carried
by a session.completion while 5 and 7 are still incomplete. -/
theorem barrier_does_not_hold_back_later_commands :
    ¬ ∀ (first : Nat) (inputs : List Input) (st : SessionState),
        run (create first) inputs = .ok st → BarrierHoldsBack first st := by
  intro h
  have hb := h 5 lateSyncBitCommands lateSyncBitState run_lateSyncBitCommands
  have h5 := hb 7 (by decide) 8 (by decide)
    ⟨by decide, [6, 8], by decide, by decide⟩ 5 (by decide) (by decide)
  exact absurd h5.1 (by decide)

/-- C1, amended: in every state reached by a sequence of steps from a fresh session,
a queued execution.sync `s` is itself not reported complete (it is incomplete,
not marked complete, and carried by no session.completion sent so far), and a
step that takes `s` off the queue leaves every command with id up to `s`
reported complete. -/
theorem executionSync_waits_for_earlier_commands (first : Nat) (inputs : List Input)
    (st : SessionState) (hrun : run (create first) inputs = .ok st)
    (s : Nat) (hs : s ∈ st.pendingExecutionSyncs) :
    (s ∈ st.receiver.incomplete ∧ s ∉ st.receiver.completed ∧
      ∀ S, Effect.sessionCompletion S ∈ st.effects → s ∉ S) ∧
    ∀ (i : Input) (st' : SessionState), step st i = .ok st' →
      s ∉ st'.pendingExecutionSyncs →
      ∀ c, first ≤ c → c ≤ s → ReportedComplete st' c := by
  have hv : Valid first st := valid_run first inputs (create first) st (valid_create first) hrun
  have hinc := hv.queue_incomplete s hs
  have hnc : s ∉ st.receiver.completed := fun hc => hv.disjoint s hc hinc
  refine ⟨⟨hinc, hnc, fun S hS hsS => hnc (hv.announced S hS s hsS)⟩, ?_⟩
  intro i st' hstep hgone c hc1 hc2
  obtain ⟨hall, S, hS, hSall⟩ := (valid_step first st st' i hv hstep).2 s hs hgone
  exact ⟨hall c hc1 hc2, S, hS, hSall c hc1 hc2⟩

/-- The amended barrier at commands 5 (deferred), 6 (inline), 7 (execution.sync): 7 is
not marked complete while queued, and the drain that takes it off the queue
leaves 5 reported complete. -/
theorem executionSync_waits_for_earlier_commands_witness :
    7 ∈ deferredSyncState.pendingExecutionSyncs ∧
    7 ∉ deferredSyncState.receiver.completed ∧
    ReportedComplete drainedSyncState 5 :=
  ⟨by decide,
   (executionSync_waits_for_earlier_commands 5 deferredSyncCommands deferredSyncState
      run_deferredSyncCommands 7 (by decide)).1.2.1,
   (executionSync_waits_for_earlier_commands 5 deferredSyncCommands deferredSyncState
      run_deferredSyncCommands 7 (by decide)).2 .drain drainedSyncState
      step_drain_deferredSyncState (by decide) 5 (by decide) (by decide)⟩

end SessionState

end Qpid

namespace Qpid

/-! ## Completion while detached -/

namespace AsyncCommandManager

/-- C2, as stated, fails: completing command 10 on a detached manager leaves the
completed list empty, so it holds no entry for the command. -/
theorem completePendingCommand_detached_drops :
    (completePendingCommand detachedManager ⟨10, false, false⟩ InvokerResult.empty).1.completedCommands
        = [] ∧
    (⟨10, InvokerResult.empty, false, false⟩ : CommandInfo) ∉
      (completePendingCommand detachedManager ⟨10, false, false⟩
        InvokerResult.empty).1.completedCommands ∧
    (⟨10, InvokerResult.empty, false, false⟩ : CommandInfo) ∉
      (attached (completePendingCommand detachedManager ⟨10, false, false⟩
        InvokerResult.empty).1).completedCommands := by
  decide

/-- C2, amended: `completePendingCommand` on a detached manager records nothing.  The
completed list is left as it was, no I/O scheduling is requested, the id of the
command is erased from the pending map, and the next `attached()` finds the
completed list as it was before the call. -/
theorem completePendingCommand_detached (m : AsyncCommandManager) (cmd : AsyncCommandContext)
    (result : InvokerResult) (hdetached : m.isAttached = false) :
    (completePendingCommand m cmd result).1.completedCommands = m.completedCommands ∧
    (completePendingCommand m cmd result).2 = false ∧
    (completePendingCommand m cmd result).1.pendingCommands
      = erasePending m.pendingCommands cmd.id ∧
    (∀ e ∈ (completePendingCommand m cmd result).1.pendingCommands, e.1 ≠ cmd.id) ∧
    (attached (completePendingCommand m cmd result).1).completedCommands
      = m.completedCommands := by
  simp [completePendingCommand, hdetached, attached, erasePending]

/-- The amended C2 on the detached manager with command 10 pending. -/
theorem completePendingCommand_detached_witness :
    detachedManager.isAttached = false ∧
    (completePendingCommand detachedManager ⟨10, false, false⟩
      InvokerResult.empty).1.pendingCommands = [] ∧
    (completePendingCommand detachedManager ⟨10, false, false⟩ InvokerResult.empty).2 = false :=
  ⟨rfl,
   (completePendingCommand_detached detachedManager ⟨10, false, false⟩ InvokerResult.empty
      rfl).2.2.1.trans rfl,
   (completePendingCommand_detached detachedManager ⟨10, false, false⟩ InvokerResult.empty
      rfl).2.1⟩

end AsyncCommandManager

namespace SessionState

theorem run_detachedCompletionInputs :
    run (create 10) detachedCompletionInputs = .ok detachedCompletionState := by
  rfl

/-- C3, as stated, fails: after attach, registering command 10, detach, completing
command 10, attach and a drain, no drain was ever requested and command 10 is
still incomplete. -/
theorem reattach_does_not_complete :
    run (create 10) detachedCompletionInputs = .ok detachedCompletionState ∧
    Effect.requestIOProcessing ∉ detachedCompletionState.effects ∧
    10 ∈ detachedCompletionState.receiver.incomplete ∧
    10 ∉ detachedCompletionState.receiver.completed :=
  ⟨run_detachedCompletionInputs, by decide, by decide, by decide⟩

/-- C3, amended: an asynchronous command completed while the manager is detached
(with nothing else waiting in the completed list) is dropped.  The call returns
without an effect, the re-attach requests no drain, and a drain run after the
re-attach returns with the receiver sets and the effects as they were and with
the command no longer pending. -/
theorem completion_while_detached_is_dropped (st : SessionState) (cmd : AsyncCommandContext)
    (result : InvokerResult) (hdetached : st.asyncCommandManager.isAttached = false)
    (hempty : st.asyncCommandManager.completedCommands = []) :
    ∃ st1 st2,
      completePendingCommand st cmd result = .ok st1 ∧
      st1.effects = st.effects ∧
      (attach st1).effects = st.effects ∧
      processCompletedCommands (attach st1) = .ok st2 ∧
      st2.receiver = st.receiver ∧
      st2.effects = st.effects ∧
      st2.asyncCommandManager.completedCommands = [] ∧
      ∀ e ∈ st2.asyncCommandManager.pendingCommands, e.1 ≠ cmd.id := by
  refine ⟨{ st with asyncCommandManager :=
      { st.asyncCommandManager with
        pendingCommands := AsyncCommandManager.erasePending
          st.asyncCommandManager.pendingCommands cmd.id } }, ?_⟩
  simp [completePendingCommand, AsyncCommandManager.completePendingCommand, hdetached,
    attach, AsyncCommandManager.attached, processCompletedCommands, hempty, processLoop,
    AsyncCommandManager.erasePending]

end SessionState

end Qpid

namespace Qpid

namespace SessionState

theorem run_register_detach :
    run (create 10) [.command ⟨false, false, .deferAsync⟩, .detach]
      = .ok detachedPendingState := by
  rfl

/-- The amended C3 on the session that has registered the asynchronous command 10
and then detached: command 10 is pending and incomplete there; its completion
returns without an effect, and after the re-attach and a drain command 10 is
still incomplete, not completed, and no longer pending. -/
theorem completion_while_detached_is_dropped_witness :
    run (create 10) [.command ⟨false, false, .deferAsync⟩, .detach]
      = .ok detachedPendingState ∧
    detachedPendingState.asyncCommandManager.isAttached = false ∧
    detachedPendingState.asyncCommandManager.completedCommands = [] ∧
    (10, (⟨10, false, false⟩ : AsyncCommandContext))
      ∈ detachedPendingState.asyncCommandManager.pendingCommands ∧
    10 ∈ detachedPendingState.receiver.incomplete ∧
    ∃ st1 st2,
      completePendingCommand detachedPendingState ⟨10, false, false⟩ InvokerResult.empty
        = .ok st1 ∧
      st1.effects = [] ∧
      (attach st1).effects = [] ∧
      processCompletedCommands (attach st1) = .ok st2 ∧
      10 ∈ st2.receiver.incomplete ∧
      10 ∉ st2.receiver.completed ∧
      st2.effects = [] ∧
      st2.asyncCommandManager.completedCommands = [] ∧
      ∀ e ∈ st2.asyncCommandManager.pendingCommands, e.1 ≠ 10 := by
  obtain ⟨st1, st2, h1, h2, h3, h4, h5, h6, h7, h8⟩ :=
    completion_while_detached_is_dropped detachedPendingState ⟨10, false, false⟩
      InvokerResult.empty rfl rfl
  refine ⟨run_register_detach, rfl, rfl, by decide, by decide, st1, st2, h1, h2, h3, h4,
    ?_, ?_, h6, h7, h8⟩
  · rw [h5]
    decide
  · rw [h5]
    decide

/-! ## Deferring an execution.sync -/

theorem handleCommand_executionSync (st : SessionState) (method : AMQMethodBody) (id : Nat)
    (hd : method.dispatch = .executionSync) :
    handleCommand st method id =
      match addPendingExecutionSync { st with currentCommandComplete := true,
                                              syncCurrentCommand := method.isSync,
                                              acceptRequired := false } with
      | .error e => .error e
      | .ok st2 =>
        if st2.currentCommandComplete then
          completeCommand st2 id ⟨true, none⟩ false st2.syncCurrentCommand
        else .ok st2 := by
  simp only [handleCommand, invoke, hd]
  cases addPendingExecutionSync { st with currentCommandComplete := true,
                                          syncCurrentCommand := method.isSync,
                                          acceptRequired := false } <;> simp

/-- C4: `addPendingExecutionSync`, called for the current command id `s` with `s`
incomplete.  If the smallest incomplete id is below `s`, it clears
`currentCommandComplete`, appends `s` to the queue and flushes the pending
commands, and `handleCommand` returns with `s` not marked complete.  Otherwise
it changes nothing, and `handleCommand` (on a session with its handler set
whose queued ids are incomplete, distinct and other than `s`) marks `s`
complete before it returns. -/
theorem addPendingExecutionSync_defers_or_completes (st : SessionState)
    (method : AMQMethodBody) (s : Nat)
    (hd : method.dispatch = .executionSync)
    (hcur : st.receiver.receiverGetCurrent = s) (hs : s ∈ st.receiver.incomplete) :
    ∃ f, SequenceSet.front st.receiver.incomplete = some f ∧
      (f < s →
        addPendingExecutionSync st = .ok (flushPendingCommands
          { st with currentCommandComplete := false,
                    pendingExecutionSyncs := st.pendingExecutionSyncs ++ [s] }) ∧
        ∃ st', handleCommand st method s = .ok st' ∧
          st'.currentCommandComplete = false ∧
          st'.pendingExecutionSyncs = st.pendingExecutionSyncs ++ [s] ∧
          st'.effects = st.effects ++
            st.asyncCommandManager.pendingCommands.map (fun e => Effect.flush e.1) ∧
          st'.receiver = st.receiver ∧ s ∈ st'.receiver.incomplete) ∧
      (¬ f < s →
        addPendingExecutionSync st = .ok st ∧
        (st.handler = true →
          (∀ q ∈ st.pendingExecutionSyncs, q ∈ st.receiver.incomplete ∧ q ≠ s) →
          st.pendingExecutionSyncs.Nodup →
          ∃ st', handleCommand st method s = .ok st' ∧
            s ∈ st'.receiver.completed ∧ s ∉ st'.receiver.incomplete)) := by
  obtain ⟨f, hf⟩ := SequenceSet.front_of_mem _ s hs
  refine ⟨f, hf, ?_, ?_⟩
  · intro hlt
    refine ⟨by simp [addPendingExecutionSync, hf, hcur, hlt], ?_⟩
    rw [handleCommand_executionSync st method s hd]
    simp [addPendingExecutionSync, hf, hcur, hlt, flushPendingCommands, hs]
  · intro hge
    refine ⟨by simp [addPendingExecutionSync, hf, hcur, hge], ?_⟩
    intro hh hq hnodup
    rw [handleCommand_executionSync st method s hd]
    simp only [addPendingExecutionSync, hf, hcur, hge, if_false, if_true]
    obtain ⟨r, q, call, hl, hc⟩ := completeCommand_defined
      { st with currentCommandComplete := true,
                syncCurrentCommand := method.isSync,
                acceptRequired := false }
      s ⟨true, none⟩ false method.isSync hh (fun x hx => (hq x hx).1) hnodup
      (fun hx => (hq s hx).2 rfl)
    obtain ⟨popped, _, hr, _⟩ := completePendingSyncs_ok _ _ _ _ _ _ hl
    refine ⟨_, hc, ?_, ?_⟩
    · show s ∈ r.completed
      rw [hr, mem_completed_completeAll]
      simp [ReceiverState.receiverCompleted, SequenceSet.mem_add]
    · show s ∉ r.incomplete
      rw [hr, mem_incomplete_completeAll]
      simp [ReceiverState.receiverCompleted, SequenceSet.mem_remove]

end SessionState

end Qpid

namespace Qpid

namespace SessionState

/-- C4 at the arrival of the execution.sync 7 while command 5 is incomplete: the
sync is queued and the pending command 5 is flushed. -/
theorem addPendingExecutionSync_defers_or_completes_witness :
    syncArrivalState.receiver.receiverGetCurrent = 7 ∧
    7 ∈ syncArrivalState.receiver.incomplete ∧
    addPendingExecutionSync syncArrivalState = .ok (flushPendingCommands
      { syncArrivalState with currentCommandComplete := false,
                              pendingExecutionSyncs := [7] }) := by
  obtain ⟨f, hf, hlow, _⟩ := addPendingExecutionSync_defers_or_completes syncArrivalState
    ⟨false, false, .executionSync⟩ 7 rfl rfl (by decide)
  have hf5 : f = 5 := by
    have h5 : SequenceSet.front syncArrivalState.receiver.incomplete = some 5 := rfl
    rw [h5] at hf
    exact (Option.some.inj hf).symm
  subst hf5
  exact ⟨rfl, by decide, (hlow (by decide)).1⟩

/-! ## What completeCommand drains -/

/-- C5: `completeCommand` on a session with its handler set whose queued ids are
incomplete, distinct and other than `id`.  After `id` is marked complete, a front
segment `popped` of the queue is popped in order and each popped id is marked
complete; each was popped while not above the smallest incomplete id; on return
the queue is empty or its head is above the smallest incomplete id; and the ids
newly marked complete are exactly `id` and the popped ones. -/
theorem completeCommand_drains_pending_syncs (st : SessionState) (id : Nat)
    (results : InvokerResult) (ra sb : Bool) (hh : st.handler = true)
    (hmem : ∀ s ∈ st.pendingExecutionSyncs, s ∈ st.receiver.incomplete)
    (hnodup : st.pendingExecutionSyncs.Nodup)
    (hid : id ∉ st.pendingExecutionSyncs) :
    ∃ st' popped,
      completeCommand st id results ra sb = .ok st' ∧
      st.pendingExecutionSyncs = popped ++ st'.pendingExecutionSyncs ∧
      st'.receiver = completeAll (st.receiver.receiverCompleted id) popped ∧
      (∀ pre p post, popped = pre ++ p :: post →
        ∃ f, SequenceSet.front
            (completeAll (st.receiver.receiverCompleted id) pre).incomplete = some f ∧
          p ≤ f) ∧
      (st'.pendingExecutionSyncs = [] ∨
        ∃ s f, st'.pendingExecutionSyncs.head? = some s ∧
          SequenceSet.front st'.receiver.incomplete = some f ∧ f < s) ∧
      (∀ x, x ∈ st'.receiver.completed ↔ x ∈ st.receiver.completed ∨ x = id ∨ x ∈ popped) ∧
      (∀ x, x ∈ st'.receiver.incomplete ↔
        x ∈ st.receiver.incomplete ∧ x ≠ id ∧ x ∉ popped) := by
  obtain ⟨r, q, call, hl, hc⟩ := completeCommand_defined st id results ra sb hh hmem hnodup hid
  obtain ⟨popped, hq, hr, _, hpop, hrest⟩ := completePendingSyncs_ok _ _ _ _ _ _ hl
  refine ⟨_, popped, hc, hq, hr, hpop, hrest, ?_, ?_⟩
  · intro x
    show x ∈ r.completed ↔ _
    rw [hr, mem_completed_completeAll]
    simp only [ReceiverState.receiverCompleted, SequenceSet.mem_add]
    tauto
  · intro x
    show x ∈ r.incomplete ↔ _
    rw [hr, mem_incomplete_completeAll]
    simp only [ReceiverState.receiverCompleted, SequenceSet.mem_remove]
    tauto

/-- C5 at the completion of command 5 while the execution.sync 7 is queued: the call
returns with the queue empty and 5, 6, 7 complete. -/
theorem completeCommand_drains_pending_syncs_witness :
    deferredSyncState.handler = true ∧
    5 ∉ deferredSyncState.pendingExecutionSyncs ∧
    ∃ st', completeCommand deferredSyncState 5 InvokerResult.empty false false = .ok st' ∧
      st'.pendingExecutionSyncs = [] ∧ st'.receiver.completed = [5, 6, 7] := by
  obtain ⟨st', popped, hc, _⟩ := completeCommand_drains_pending_syncs deferredSyncState 5
    InvokerResult.empty false false rfl (by decide) (by decide) (by decide)
  have hex : completeCommand deferredSyncState 5 InvokerResult.empty false false
      = .ok { drainedSyncState with
              asyncCommandManager := deferredSyncState.asyncCommandManager } := rfl
  rw [hex] at hc
  cases hc
  exact ⟨rfl, by decide, _, hex, rfl, rfl⟩

end SessionState

end Qpid

namespace Qpid

namespace SessionState

/-- When `c` is the only incomplete id below the queued execution.sync `s`, the
sync is the head of the queue. -/
theorem queued_sync_is_head (st : SessionState) (c s : Nat)
    (hsorted : st.pendingExecutionSyncs.Pairwise (fun a b => a < b))
    (hmem : ∀ q ∈ st.pendingExecutionSyncs, q ∈ st.receiver.incomplete)
    (hs : s ∈ st.pendingExecutionSyncs) (hcq : c ∉ st.pendingExecutionSyncs)
    (honly : ∀ x ∈ st.receiver.incomplete, x < s → x = c) :
    ∃ t, st.pendingExecutionSyncs = s :: t := by
  cases hq : st.pendingExecutionSyncs with
  | nil => simp [hq] at hs
  | cons h t =>
    rw [hq] at hs hsorted hmem hcq
    rcases List.mem_cons.1 hs with h1 | h1
    · exact ⟨t, by rw [h1]⟩
    · have hlt : h < s := (List.pairwise_cons.1 hsorted).1 s h1
      have hc := honly h (hmem h (List.mem_cons_self _ _)) hlt
      exact absurd (by rw [← hc]; exact List.mem_cons_self _ _) hcq

/-- C6: commands 5 (deferred), 6 (inline) and 7 (execution.sync), each with any
sync bit, received in that order.  After 6 the completed set is exactly {6};
after 7 the sync sits in the queue, incomplete; when the completion of 5 (any
result) is drained, 5 and 7 are marked complete, an execution.result for 5 is
sent exactly when the result carries a value, and a session.completion is sent
whatever the sync bit of 5.  In general, on a session with its handler set and
an increasing queue of incomplete ids, when `c` is the only incomplete id below
a queued execution.sync `s`, `completeCommand` on `c` returns with `s` marked
complete and off the queue, and the last thing it sends is a session.completion
carrying `c` and `s`. -/
theorem completing_last_earlier_command_completes_sync :
    (∀ (b5 b6 b7 : Bool) (res : InvokerResult),
      ∃ st5 st6 st7 st',
        run (create 5) [.command ⟨b5, false, .deferAsync⟩] = .ok st5 ∧
        st5.receiver.completed = [] ∧
        run st5 [.command ⟨b6, false, .inline none⟩] = .ok st6 ∧
        st6.receiver.completed = [6] ∧ st6.receiver.incomplete = [5] ∧
        run st6 [.command ⟨b7, false, .executionSync⟩] = .ok st7 ∧
        st7.pendingExecutionSyncs = [7] ∧ st7.receiver.completed = [6] ∧
        st7.receiver.incomplete = [5, 7] ∧ st7.effects = st6.effects ++ [.flush 5] ∧
        run st7 [.completed 5 res, .drain] = .ok st' ∧
        st'.receiver.completed = [5, 6, 7] ∧ st'.receiver.incomplete = [] ∧
        st'.pendingExecutionSyncs = [] ∧
        st'.effects = st7.effects ++ [.requestIOProcessing] ++
          (match res.result with
           | some value => [.executionResult 5 value]
           | none => []) ++
          [.sessionCompletion [5, 6, 7]]) ∧
    (∀ (st : SessionState) (c s : Nat) (results : InvokerResult) (ra sb : Bool),
      st.handler = true →
      st.pendingExecutionSyncs.Pairwise (fun a b => a < b) →
      (∀ q ∈ st.pendingExecutionSyncs, q ∈ st.receiver.incomplete) →
      s ∈ st.pendingExecutionSyncs → c ∉ st.pendingExecutionSyncs →
      c < s → (∀ x ∈ st.receiver.incomplete, x < s → x = c) →
      ∃ st' sent,
        completeCommand st c results ra sb = .ok st' ∧
        s ∈ st'.receiver.completed ∧ s ∉ st'.receiver.incomplete ∧
        s ∉ st'.pendingExecutionSyncs ∧
        c ∈ st'.receiver.completed ∧
        st'.effects = sent ++ [.sessionCompletion st'.receiver.completed]) := by
  constructor
  · intro b5 b6 b7 res
    obtain ⟨handled, result⟩ := res
    cases b5 <;> cases b6 <;> cases b7 <;> cases handled <;> cases result <;>
      exact ⟨_, _, _, _, rfl, rfl, rfl, rfl, rfl, rfl, rfl, rfl, rfl, rfl, rfl, rfl, rfl, rfl,
        rfl⟩
  · intro st c s results ra sb hh hsorted hmem hs hcq hcs honly
    obtain ⟨t, hq⟩ := queued_sync_is_head st c s hsorted hmem hs hcq honly
    have hnodup := nodup_of_sorted _ hsorted
    obtain ⟨r, q, call, hl, hc⟩ := completeCommand_defined st c results ra sb hh hmem hnodup hcq
    -- the first iteration of the loop pops `s`
    have hsin : s ∈ (st.receiver.receiverCompleted c).incomplete := by
      simp only [ReceiverState.receiverCompleted, SequenceSet.mem_remove]
      exact ⟨hmem s hs, by omega⟩
    obtain ⟨f, hf⟩ := SequenceSet.front_of_mem _ s hsin
    have hfs : s ≤ f := by
      have hfm := SequenceSet.front_mem _ f hf
      simp only [ReceiverState.receiverCompleted, SequenceSet.mem_remove] at hfm
      by_contra hlt
      exact hfm.2 (honly f hfm.1 (by omega))
    rw [hq] at hl
    unfold completePendingSyncs at hl
    simp only [hf, hfs, if_true] at hl
    obtain ⟨popped, ht, hr, hcall, _, _⟩ := completePendingSyncs_ok _ _ _ _ _ _ hl
    have hst : ¬ s ∈ t := by
      rw [hq] at hnodup
      exact (List.nodup_cons.1 hnodup).1
    have hsr : s ∈ r.completed := by
      rw [hr, mem_completed_completeAll]
      simp [ReceiverState.receiverCompleted, SequenceSet.mem_add]
    have hcr : c ∈ r.completed := by
      rw [hr, mem_completed_completeAll]
      simp [ReceiverState.receiverCompleted, SequenceSet.mem_add]
    have hcall' : call = true := by simp [hcall]
    subst hcall'
    refine ⟨_, st.effects ++ resultEffects c results ++
        (if sb then acceptEffects (acceptedWith st.accepted c ra) else []),
      hc, hsr, ?_, ?_, hcr, ?_⟩
    · show s ∉ r.incomplete
      rw [hr, mem_incomplete_completeAll]
      simp [ReceiverState.receiverCompleted, SequenceSet.mem_remove]
    · show s ∉ q
      intro hsq
      exact hst (by rw [ht]; exact List.mem_append_right _ hsq)
    · cases sb <;> simp [completedState]

/-- The general form of C6 at the completion of command 5 while the execution.sync 7
is queued. -/
theorem completing_last_earlier_command_completes_sync_witness :
    deferredSyncState.handler = true ∧
    7 ∈ deferredSyncState.pendingExecutionSyncs ∧
    ∃ st' sent,
      completeCommand deferredSyncState 5 InvokerResult.empty false false = .ok st' ∧
      7 ∈ st'.receiver.completed ∧ 7 ∉ st'.receiver.incomplete ∧
      7 ∉ st'.pendingExecutionSyncs ∧
      5 ∈ st'.receiver.completed ∧
      st'.effects = sent ++ [.sessionCompletion st'.receiver.completed] :=
  ⟨rfl, by decide,
   completing_last_earlier_command_completes_sync.2 deferredSyncState 5 7
     InvokerResult.empty false false rfl (by decide) (by decide) (by decide) (by decide)
     (by decide) (by decide)⟩

end SessionState

end Qpid

namespace Qpid

namespace SessionState

/-! ## What completeCommand transmits -/

/-- C7: `completeCommand` on a session with its handler set whose queued ids are
incomplete, distinct and other than `id`; `popped` is the list of deferred
execution.sync ids drained by the call.  With the sync bit set, after any
execution.result the accepted set (with `id` in it when accept is required) goes
out in a message.accept when it is not empty, then a session.completion, and the
accepted set is empty afterwards.  With the sync bit unset and some sync
drained, a session.completion alone follows and the accepted set is kept.
Otherwise neither a message.accept nor a session.completion is sent. -/
theorem completeCommand_transmits (st : SessionState) (id : Nat)
    (results : InvokerResult) (ra sb : Bool) (hh : st.handler = true)
    (hmem : ∀ s ∈ st.pendingExecutionSyncs, s ∈ st.receiver.incomplete)
    (hnodup : st.pendingExecutionSyncs.Nodup)
    (hid : id ∉ st.pendingExecutionSyncs) :
    ∃ st' popped,
      completeCommand st id results ra sb = .ok st' ∧
      st.pendingExecutionSyncs = popped ++ st'.pendingExecutionSyncs ∧
      (sb = true →
        st'.effects = st.effects ++ resultEffects id results ++
          (if (acceptedWith st.accepted id ra).isEmpty then []
           else [.messageAccept (acceptedWith st.accepted id ra)]) ++
          [.sessionCompletion st'.receiver.completed] ∧
        st'.accepted = []) ∧
      (sb = false → popped ≠ [] →
        st'.effects = st.effects ++ resultEffects id results ++
          [.sessionCompletion st'.receiver.completed] ∧
        st'.accepted = acceptedWith st.accepted id ra) ∧
      (sb = false → popped = [] →
        st'.effects = st.effects ++ resultEffects id results ∧
        st'.accepted = acceptedWith st.accepted id ra) := by
  obtain ⟨r, q, call, hl, hc⟩ := completeCommand_defined st id results ra sb hh hmem hnodup hid
  obtain ⟨popped, hq, _, hcall, _, _⟩ := completePendingSyncs_ok _ _ _ _ _ _ hl
  refine ⟨_, popped, hc, hq, ?_, ?_, ?_⟩
  · intro hsb
    subst hsb
    simp [completedState, acceptEffects]
  · intro hsb hne
    subst hsb
    have : call = true := by
      cases popped with
      | nil => exact absurd rfl hne
      | cons a t => simp [hcall]
    subst this
    simp [completedState]
  · intro hsb he
    subst hsb he
    have : call = false := by simp [hcall]
    subst this
    simp [completedState]

/-- C7 at a command with the sync bit set that requires accept, and at the completion
of command 5 (sync bit unset) that drains the execution.sync 7. -/
theorem completeCommand_transmits_witness :
    syncArrivalState.handler = true ∧
    7 ∉ syncArrivalState.pendingExecutionSyncs ∧
    ∃ st' popped,
      completeCommand syncArrivalState 7 InvokerResult.empty true true = .ok st' ∧
      syncArrivalState.pendingExecutionSyncs = popped ++ st'.pendingExecutionSyncs ∧
      st'.effects = [.messageAccept [7], .sessionCompletion [6, 7]] ∧
      st'.accepted = [] := by
  obtain ⟨st', popped, hc, hq, hsync, _, _⟩ := completeCommand_transmits syncArrivalState 7
    InvokerResult.empty true true rfl (by decide) (by decide) (by decide)
  have hex : completeCommand syncArrivalState 7 InvokerResult.empty true true
      = .ok { syncArrivalState with
              receiver := ⟨8, [5], [6, 7]⟩,
              effects := [.messageAccept [7], .sessionCompletion [6, 7]] } := rfl
  rw [hex] at hc
  cases hc
  exact ⟨rfl, by decide, _, popped, hex, hq, rfl, rfl⟩

end SessionState

/-! ## Scheduling the drain -/

namespace AsyncCommandManager

theorem completeBurst_nonempty (m : AsyncCommandManager)
    (burst : List (AsyncCommandContext × InvokerResult))
    (hne : m.completedCommands ≠ []) : (completeBurst m burst).2 = 0 := by
  induction burst generalizing m with
  | nil => rfl
  | cons a rest ih =>
    obtain ⟨cmd, result⟩ := a
    unfold completeBurst
    by_cases hg : (m.session && m.isAttached) = true
    · have h2 : (completePendingCommand m cmd result).2 = false := by
        cases hcc : m.completedCommands with
        | nil => exact absurd hcc hne
        | cons c cs => simp [completePendingCommand, hg, hcc]
      have h1 : (completePendingCommand m cmd result).1.completedCommands ≠ [] := by
        simp [completePendingCommand, hg]
      simp [h2, ih _ h1]
    · have h2 : (completePendingCommand m cmd result).2 = false := by
        simp [completePendingCommand, hg]
      have h1 : (completePendingCommand m cmd result).1.completedCommands ≠ [] := by
        simp [completePendingCommand, hg, hne]
      simp [h2, ih _ h1]

/-- C8: `completePendingCommand` requests a drain exactly when the session
back-reference is set, the manager is attached and the completed list was empty
before the call; the list then has one entry; the session sends the request as
one `requestIOProcessing`; and a burst of completions on an attached manager with
an empty completed list requests exactly one drain. -/
theorem completePendingCommand_requests_drain_on_first (m : AsyncCommandManager)
    (cmd : AsyncCommandContext) (result : InvokerResult) :
    ((completePendingCommand m cmd result).2 = true ↔
      m.session = true ∧ m.isAttached = true ∧ m.completedCommands = []) ∧
    ((completePendingCommand m cmd result).2 = true →
      (completePendingCommand m cmd result).1.completedCommands.length = 1) ∧
    (∀ st : SessionState, st.asyncCommandManager = m → st.handler = true →
      ∃ st', SessionState.completePendingCommand st cmd result = .ok st' ∧
        st'.asyncCommandManager = (completePendingCommand m cmd result).1 ∧
        st'.effects = st.effects ++
          (if m.session = true ∧ m.isAttached = true ∧ m.completedCommands = []
           then [.requestIOProcessing] else [])) ∧
    (∀ burst : List (AsyncCommandContext × InvokerResult),
      m.session = true → m.isAttached = true → m.completedCommands = [] → burst ≠ [] →
      (completeBurst m burst).2 = 1) := by
  have hiff : (completePendingCommand m cmd result).2 = true ↔
      m.session = true ∧ m.isAttached = true ∧ m.completedCommands = [] := by
    by_cases hg : (m.session && m.isAttached) = true
    · have hg' := hg
      simp only [Bool.and_eq_true] at hg'
      cases hcc : m.completedCommands with
      | nil => simp [completePendingCommand, hg, hcc, hg'.1, hg'.2]
      | cons c cs => simp [completePendingCommand, hg, hcc]
    · have hg' := hg
      simp only [Bool.and_eq_true, not_and] at hg'
      simp only [completePendingCommand, hg, if_false]
      constructor
      · intro h
        simp at h
      · rintro ⟨h1, h2, _⟩
        exact absurd h2 (hg' h1)
  refine ⟨hiff, ?_, ?_, ?_⟩
  · intro h
    obtain ⟨h1, h2, h3⟩ := hiff.1 h
    simp [completePendingCommand, h1, h2, h3]
  · intro st hst hh
    subst hst
    by_cases hc : (completePendingCommand st.asyncCommandManager cmd result).2 = true
    · have hcond := hiff.1 hc
      simp [SessionState.completePendingCommand, hc, SessionState.emit, hh, hcond]
    · have hcond : ¬ (st.asyncCommandManager.session = true ∧
          st.asyncCommandManager.isAttached = true ∧
          st.asyncCommandManager.completedCommands = []) := fun h => hc (hiff.2 h)
      simp [SessionState.completePendingCommand, hc, hcond]
  · intro burst h1 h2 h3 hne
    cases burst with
    | nil => exact absurd rfl hne
    | cons a rest =>
      obtain ⟨cmd0, result0⟩ := a
      unfold completeBurst
      have hfirst : (completePendingCommand m cmd0 result0).2 = true := by
        simp [completePendingCommand, h1, h2, h3]
      have hfull : (completePendingCommand m cmd0 result0).1.completedCommands ≠ [] := by
        simp [completePendingCommand, h1, h2]
      simp [hfirst, completeBurst_nonempty _ rest hfull]

/-- C8 at a burst of two completions on an attached manager with an empty completed
list: one drain is requested. -/
theorem completePendingCommand_requests_drain_on_first_witness :
    (attached detachedManager).session = true ∧
    (attached detachedManager).isAttached = true ∧
    (attached detachedManager).completedCommands = [] ∧
    (completeBurst (attached detachedManager)
      [(⟨10, false, false⟩, InvokerResult.empty), (⟨11, false, true⟩, InvokerResult.empty)]).2
        = 1 :=
  ⟨rfl, rfl, rfl,
   (completePendingCommand_requests_drain_on_first (attached detachedManager)
      ⟨10, false, false⟩ InvokerResult.empty).2.2.2
      [(⟨10, false, false⟩, InvokerResult.empty), (⟨11, false, true⟩, InvokerResult.empty)]
      rfl rfl rfl (by simp)⟩

end AsyncCommandManager

end Qpid

namespace Qpid

namespace SessionState

/-! ## The drain -/

theorem processLoop_eq_foldlM (st : SessionState) (cmds : List CommandInfo) :
    processLoop st cmds =
      List.foldlM (fun s c => completeCommand s c.id c.results c.requiresAccept c.syncBitSet)
        st cmds := by
  induction cmds generalizing st with
  | nil => rfl
  | cons c rest ih =>
    rw [List.foldlM_cons]
    unfold processLoop
    cases hcc : completeCommand st c.id c.results c.requiresAccept c.syncBitSet with
    | error e => rfl
    | ok st1 => exact ih st1

theorem resultsSent_completedState (st : SessionState) (id : Nat) (results : InvokerResult)
    (ra sb : Bool) (r : ReceiverState) (q : List Nat) (call : Bool) :
    resultsSent (completedState st id results ra sb r q call).effects =
      resultsSent st.effects ++ resultsOf [⟨id, results, ra, sb⟩] := by
  obtain ⟨handled, result⟩ := results
  cases result <;> cases sb <;> cases call <;>
    simp [completedState, resultsSent, resultsOf, resultEffects, acceptEffects,
      List.filterMap_append]

/-- On a valid session with its handler set, the loop of the drain returns, having
completed every entry. -/
theorem processLoop_defined (first : Nat) (cmds : List CommandInfo) (st : SessionState)
    (hv : Valid first st) (hh : st.handler = true)
    (hc : ∀ c ∈ cmds, c.id < st.receiver.expected ∧ c.id ∉ st.pendingExecutionSyncs) :
    ∃ st', processLoop st cmds = .ok st' ∧ Valid first st' ∧ Completes first st st' ∧
      resultsSent st'.effects = resultsSent st.effects ++ resultsOf cmds ∧
      ∀ c ∈ cmds, c.id ∈ st'.receiver.completed := by
  induction cmds generalizing st with
  | nil => exact ⟨st, rfl, hv, completes_refl first st, by simp [resultsOf], by simp⟩
  | cons c rest ih =>
    have hc0 := hc c (List.mem_cons_self _ _)
    obtain ⟨r, q, call, hl, hcc⟩ := completeCommand_defined st c.id c.results c.requiresAccept
      c.syncBitSet hh hv.queue_incomplete (nodup_of_sorted _ hv.queue_sorted) hc0.2
    obtain ⟨hv1, hcomp1⟩ := valid_completeCommand first st c.id c.results c.requiresAccept
      c.syncBitSet _ hv hc0.1 hc0.2 hcc
    obtain ⟨popped, _, hr, _⟩ := completePendingSyncs_ok _ _ _ _ _ _ hl
    have hrest : ∀ d ∈ rest,
        d.id < (completedState st c.id c.results c.requiresAccept c.syncBitSet r q
          call).receiver.expected ∧
        d.id ∉ (completedState st c.id c.results c.requiresAccept c.syncBitSet r q
          call).pendingExecutionSyncs := by
      intro d hd
      have := hc d (List.mem_cons_of_mem _ hd)
      rw [hcomp1.expected_eq]
      exact ⟨this.1, fun hq => this.2 (hcomp1.queue_subset _ hq)⟩
    obtain ⟨st', hloop, hv', hcomp', hres, hdone⟩ := ih _ hv1 (by rw [hcomp1.handler_eq]; exact hh)
      hrest
    refine ⟨st', ?_, hv', completes_trans first _ _ _ hcomp1 hcomp', ?_, ?_⟩
    · unfold processLoop
      simp only [hcc]
      exact hloop
    · rw [hres, resultsSent_completedState, List.append_assoc]
      congr 1
      cases hres0 : c.results.result <;> simp [resultsOf, List.filterMap_cons, hres0]
    · intro d hd
      rcases List.mem_cons.1 hd with h1 | h1
      · subst h1
        apply hcomp'.completed_subset
        show d.id ∈ r.completed
        rw [hr, mem_completed_completeAll]
        simp [ReceiverState.receiverCompleted, SequenceSet.mem_add]
      · exact hdone d h1

/-- C9: the drain.  On a session whose back-reference and handler are set (in a state
satisfying the invariant of the pipeline), `processCompletedCommands` returns
the state reached by calling `completeCommand` on the entries of the completed
list one after the other, in list order, each with the id, result,
acceptRequired and sync bit of the entry, with the completed list cleared; the
execution.result frames go out in list order and every entry is marked
complete.  When the back-reference or the handler is not set, nothing but the
completed list changes.  The completed list is empty on return either way. -/
theorem processCompletedCommands_completes_each_in_order (first : Nat) (st : SessionState) :
    (st.asyncCommandManager.session = true → st.handler = true → Valid first st →
      ∃ st1 st',
        List.foldlM
          (fun s c => completeCommand s c.id c.results c.requiresAccept c.syncBitSet)
          st st.asyncCommandManager.completedCommands = .ok st1 ∧
        processCompletedCommands st = .ok st' ∧
        st' = { st1 with asyncCommandManager :=
                  { st1.asyncCommandManager with completedCommands := [] } } ∧
        resultsSent st'.effects =
          resultsSent st.effects ++ resultsOf st.asyncCommandManager.completedCommands ∧
        (∀ c ∈ st.asyncCommandManager.completedCommands,
          c.id ∈ st'.receiver.completed ∧ c.id ∉ st'.receiver.incomplete) ∧
        st'.asyncCommandManager.completedCommands = []) ∧
    (¬ (st.asyncCommandManager.session = true ∧ st.handler = true) →
      processCompletedCommands st =
        .ok { st with asyncCommandManager :=
                { st.asyncCommandManager with completedCommands := [] } }) := by
  constructor
  · intro hs hh hv
    obtain ⟨st1, hloop, hv1, _, hres, hdone⟩ := processLoop_defined first
      st.asyncCommandManager.completedCommands st hv hh hv.completed_ids
    refine ⟨st1, _, ?_, ?_, rfl, hres, ?_, rfl⟩
    · rw [← processLoop_eq_foldlM]
      exact hloop
    · simp [processCompletedCommands, isAttached, hs, hh, hloop]
    · intro c hc
      exact ⟨hdone c hc, fun hi => hv1.disjoint _ (hdone c hc) hi⟩
  · intro hn
    have hg : ¬ (st.asyncCommandManager.session && st.isAttached) = true := by
      simpa [isAttached] using hn
    unfold processCompletedCommands
    rw [if_neg hg]

/-- C9 at the drain of the completed command 5 while the execution.sync 7 is queued. -/
theorem processCompletedCommands_completes_each_in_order_witness :
    deferredSyncState.asyncCommandManager.session = true ∧
    deferredSyncState.handler = true ∧
    processCompletedCommands deferredSyncState = .ok drainedSyncState ∧
    5 ∈ drainedSyncState.receiver.completed := by
  obtain ⟨st1, st', _, hp, _, _, hdone, _⟩ :=
    (processCompletedCommands_completes_each_in_order 5 deferredSyncState).1 rfl rfl
      (valid_run 5 deferredSyncCommands (create 5) deferredSyncState (valid_create 5)
        run_deferredSyncCommands)
  have hex : processCompletedCommands deferredSyncState = .ok drainedSyncState := rfl
  rw [hex] at hp
  cases hp
  exact ⟨rfl, rfl, hex, (hdone ⟨5, ⟨false, none⟩, false, false⟩ (by decide)).1⟩

/-! ## Detach -/

/-- C10: `detach` keeps the pending-command map, the completed list, the queue of
deferred execution.sync ids, the accepted set and the receiver sets; it clears
the handler reference, the `isAttached` flag of the manager and the output
enabling, and changes nothing else. -/
theorem detach_retains_state (st : SessionState) :
    (detach st).asyncCommandManager.pendingCommands = st.asyncCommandManager.pendingCommands ∧
    (detach st).asyncCommandManager.completedCommands
      = st.asyncCommandManager.completedCommands ∧
    (detach st).pendingExecutionSyncs = st.pendingExecutionSyncs ∧
    (detach st).accepted = st.accepted ∧
    (detach st).receiver = st.receiver ∧
    (detach st).handler = false ∧
    (detach st).asyncCommandManager.isAttached = false ∧
    (detach st).outputEnabled = false ∧
    (detach st).asyncCommandManager.session = st.asyncCommandManager.session ∧
    (detach st).currentCommandComplete = st.currentCommandComplete ∧
    (detach st).syncCurrentCommand = st.syncCurrentCommand ∧
    (detach st).acceptRequired = st.acceptRequired ∧
    (detach st).effects = st.effects :=
  ⟨rfl, rfl, rfl, rfl, rfl, rfl, rfl, rfl, rfl, rfl, rfl, rfl, rfl⟩

end SessionState

end Qpid

namespace Qpid

namespace SessionState

/-! ## After cancel -/

theorem completeCommand_manager (st : SessionState) (id : Nat) (results : InvokerResult)
    (ra sb : Bool) (st' : SessionState)
    (h : completeCommand st id results ra sb = .ok st') :
    st'.asyncCommandManager = st.asyncCommandManager := by
  obtain ⟨r, q, call, _, hst⟩ := completeCommand_ok st id results ra sb st' h
  subst hst
  rfl

theorem processLoop_manager (cmds : List CommandInfo) (st st' : SessionState)
    (h : processLoop st cmds = .ok st') :
    st'.asyncCommandManager = st.asyncCommandManager := by
  induction cmds generalizing st with
  | nil =>
    simp only [processLoop, Except.ok.injEq] at h
    subst h
    rfl
  | cons c rest ih =>
    unfold processLoop at h
    cases hcc : completeCommand st c.id c.results c.requiresAccept c.syncBitSet with
    | error e => simp [hcc] at h
    | ok st1 =>
      simp only [hcc] at h
      rw [ih st1 h, completeCommand_manager _ _ _ _ _ _ hcc]

/-- No step sets the back-reference of the manager. -/
theorem step_session (st st' : SessionState) (i : Input) (h : step st i = .ok st') :
    st'.asyncCommandManager.session = st.asyncCommandManager.session := by
  cases i with
  | command method =>
    obtain ⟨isSync, isContentBearing, dispatch⟩ := method
    simp only [step] at h
    cases dispatch with
    | unhandled => simp [handleCommand, invoke] at h
    | inline result =>
      simp only [handleCommand, invoke, Bool.not_true, Bool.false_eq_true, if_false,
        if_true] at h
      rw [completeCommand_manager _ _ _ _ _ _ h]
    | executionSync =>
      simp only [handleCommand, invoke, addPendingExecutionSync] at h
      cases hf : SequenceSet.front st.receiver.receiverRecord.incomplete with
      | none => simp [hf] at h
      | some f =>
        simp only [hf] at h
        by_cases hlow : f < st.receiver.receiverRecord.receiverGetCurrent
        · simp only [hlow, if_true, flushPendingCommands, Bool.not_true, Bool.false_eq_true,
            if_false, Except.ok.injEq] at h
          subst h
          rfl
        · simp only [hlow, if_false, Bool.not_true, Bool.false_eq_true, if_true] at h
          rw [completeCommand_manager _ _ _ _ _ _ h]
    | deferAsync =>
      simp only [handleCommand, invoke, registerAsyncCommand,
        AsyncCommandManager.addPendingCommand] at h
      cases hi : AsyncCommandManager.insertPending st.asyncCommandManager.pendingCommands
          ⟨st.receiver.receiverRecord.receiverGetCurrent, false, isSync⟩ with
      | none => simp [hi] at h
      | some p =>
        simp only [hi, Bool.not_true, Bool.false_eq_true, if_false, Except.ok.injEq] at h
        subst h
        rfl
  | completed id result =>
    simp only [step] at h
    cases hfind : st.asyncCommandManager.pendingCommands.find? (fun e => e.1 == id) with
    | none =>
      simp only [hfind, Except.ok.injEq] at h
      subst h
      rfl
    | some e =>
      simp only [hfind] at h
      unfold completePendingCommand AsyncCommandManager.completePendingCommand emit at h
      by_cases hg : (st.asyncCommandManager.session && st.asyncCommandManager.isAttached) = true
      · simp only [hg, if_true] at h
        split at h
        · split at h
          · simp only [Except.ok.injEq] at h
            subst h
            rfl
          · simp at h
        · simp only [Except.ok.injEq] at h
          subst h
          rfl
      · rw [if_neg hg] at h
        simp only [Bool.false_eq_true, if_false, Except.ok.injEq] at h
        subst h
        rfl
  | drain =>
    simp only [step, processCompletedCommands] at h
    by_cases hg : (st.asyncCommandManager.session && st.isAttached) = true
    · simp only [hg, if_true] at h
      cases hl : processLoop st st.asyncCommandManager.completedCommands with
      | error e => simp [hl] at h
      | ok st1 =>
        simp only [hl, Except.ok.injEq] at h
        subst h
        simp [processLoop_manager _ _ _ hl]
    · rw [if_neg hg] at h
      simp only [Except.ok.injEq] at h
      subst h
      rfl
  | detach =>
    simp only [step, Except.ok.injEq] at h
    subst h
    rfl
  | attach =>
    simp only [step, Except.ok.injEq] at h
    subst h
    rfl

theorem run_session (inputs : List Input) (st st' : SessionState)
    (h : run st inputs = .ok st') :
    st'.asyncCommandManager.session = st.asyncCommandManager.session := by
  induction inputs generalizing st with
  | nil =>
    simp only [run, Except.ok.injEq] at h
    subst h
    rfl
  | cons i rest ih =>
    unfold run at h
    cases hs : step st i with
    | error e => simp [hs] at h
    | ok st1 =>
      simp only [hs] at h
      rw [ih st1 h, step_session st st1 i hs]

/-- C11: after `cancel()` has nulled the back-reference, whatever steps follow, the
back-reference stays null; a `completePendingCommand` then requests no drain,
appends nothing to the completed list and erases the id of the command from the
pending map, and it returns even on a session without handler (the session is
not dereferenced); and `processCompletedCommands` only clears the completed
list, leaving the receiver, the queue, the accepted set and the effects as they
were, so `completeCommand` is not called. -/
theorem cancel_drops_late_completions (st : SessionState) (inputs : List Input)
    (st' : SessionState)
    (hrun : run { st with asyncCommandManager := st.asyncCommandManager.cancel } inputs
      = .ok st')
    (cmd : AsyncCommandContext) (result : InvokerResult) :
    st'.asyncCommandManager.session = false ∧
    (st'.asyncCommandManager.completePendingCommand cmd result).2 = false ∧
    (st'.asyncCommandManager.completePendingCommand cmd result).1.completedCommands
      = st'.asyncCommandManager.completedCommands ∧
    (st'.asyncCommandManager.completePendingCommand cmd result).1.pendingCommands
      = AsyncCommandManager.erasePending st'.asyncCommandManager.pendingCommands cmd.id ∧
    (∀ e ∈ (st'.asyncCommandManager.completePendingCommand cmd result).1.pendingCommands,
      e.1 ≠ cmd.id) ∧
    completePendingCommand st' cmd result
      = .ok { st' with asyncCommandManager :=
                (st'.asyncCommandManager.completePendingCommand cmd result).1 } ∧
    processCompletedCommands st'
      = .ok { st' with asyncCommandManager :=
                { st'.asyncCommandManager with completedCommands := [] } } := by
  have hs : st'.asyncCommandManager.session = false := by
    rw [run_session inputs _ st' hrun]
    rfl
  refine ⟨hs, ?_, ?_, ?_, ?_, ?_, ?_⟩
  · simp [AsyncCommandManager.completePendingCommand, hs]
  · simp [AsyncCommandManager.completePendingCommand, hs]
  · simp [AsyncCommandManager.completePendingCommand, hs]
  · simp [AsyncCommandManager.completePendingCommand, hs, AsyncCommandManager.erasePending]
  · simp [completePendingCommand, AsyncCommandManager.completePendingCommand, hs]
  · simp [processCompletedCommands, hs]

/-- C11 on the session with command 10 pending: cancel, then a detach, then the late
completion of command 10. -/
theorem cancel_drops_late_completions_witness :
    (AsyncCommandManager.completePendingCommand
      ⟨false, false, [(10, ⟨10, false, false⟩)], []⟩ ⟨10, false, false⟩
      InvokerResult.empty).2 = false ∧
    (AsyncCommandManager.completePendingCommand
      ⟨false, false, [(10, ⟨10, false, false⟩)], []⟩ ⟨10, false, false⟩
      InvokerResult.empty).1.completedCommands = [] :=
  have h := cancel_drops_late_completions
    { create 10 with asyncCommandManager := ⟨true, true, [(10, ⟨10, false, false⟩)], []⟩ }
    [.detach]
    { detach (create 10) with
      asyncCommandManager := ⟨false, false, [(10, ⟨10, false, false⟩)], []⟩ }
    rfl ⟨10, false, false⟩ InvokerResult.empty
  ⟨h.2.1, h.2.2.1⟩

end SessionState

end Qpid

namespace Qpid

namespace SessionState

/-! ## Classifying a frame -/

/-- C12: `handleIn` sorts every frame into one of three classes.  A frame without
method body or with a content-bearing method goes to `handleContent`; a frame
with a method that bears no content and with both the begin-of-frameset and the
end-of-frameset bit goes to `handleCommand`, under the current command id; every
other frame raises `InternalErrorException`, with the session as it was: the
receiver sets, the accepted set, the queue of deferred execution.sync ids and
the effects are unchanged. -/
theorem handleIn_classifies {β : Type} (rf : RateFlowcontrol β) (st : SessionState)
    (fc : FlowControl β) (frame : AMQFrame) (msg : IngressMessage) (now : Nat) :
    ((frame.method = none ∨ ∃ m, frame.method = some m ∧ m.isContentBearing = true) →
      handleIn rf st fc frame msg now =
        .content (handleContent rf st fc frame msg st.receiver.receiverGetCurrent now)) ∧
    (∀ m, frame.method = some m → m.isContentBearing = false →
      frame.bof = true → frame.eof = true →
      handleIn rf st fc frame msg now =
        .command (handleCommand st m st.receiver.receiverGetCurrent)) ∧
    (∀ m, frame.method = some m → m.isContentBearing = false →
      ¬ (frame.bof = true ∧ frame.eof = true) →
      ∃ st', handleIn rf st fc frame msg now = .internalError st' fc ∧
        st'.receiver = st.receiver ∧ st'.accepted = st.accepted ∧
        st'.pendingExecutionSyncs = st.pendingExecutionSyncs ∧
        st'.effects = st.effects ∧ st' = st) ∧
    ((frame.method = none ∨ ∃ m, frame.method = some m ∧ m.isContentBearing = true) ∨
      (∃ m, frame.method = some m ∧ m.isContentBearing = false ∧
        frame.bof = true ∧ frame.eof = true) ∨
      (∃ m, frame.method = some m ∧ m.isContentBearing = false ∧
        ¬ (frame.bof = true ∧ frame.eof = true))) := by
  refine ⟨?_, ?_, ?_, ?_⟩
  · rintro (h | ⟨m, hm, hc⟩)
    · simp [handleIn, h]
    · simp [handleIn, hm, hc]
  · intro m hm hc hb he
    simp [handleIn, hm, hc, hb, he]
  · intro m hm hc hn
    refine ⟨st, ?_, rfl, rfl, rfl, rfl, rfl⟩
    have hbe : (frame.bof && frame.eof) = false := by
      cases hb : frame.bof <;> cases he : frame.eof <;> simp_all
    simp [handleIn, hm, hc, hbe]
  · cases hm : frame.method with
    | none => exact Or.inl (Or.inl rfl)
    | some m =>
      cases hc : m.isContentBearing with
      | true => exact Or.inl (Or.inr ⟨m, rfl, hc⟩)
      | false =>
        by_cases hbe : frame.bof = true ∧ frame.eof = true
        · exact Or.inr (Or.inl ⟨m, rfl, hc, hbe.1, hbe.2⟩)
        · exact Or.inr (Or.inr ⟨m, rfl, hc, hbe⟩)

/-- C12 at a command frame that begins a frameset without ending it. -/
theorem handleIn_classifies_witness :
    ∃ st', handleIn countingBucket (create 5) noFlowControl openCommandFrame
        ⟨false, false, false⟩ 0 = .internalError st' noFlowControl ∧
      st'.receiver = (create 5).receiver :=
  have h := (handleIn_classifies countingBucket (create 5) noFlowControl openCommandFrame
    ⟨false, false, false⟩ 0).2.2.1 ⟨false, false, .inline none⟩ rfl rfl (by decide)
  h.elim fun st' hst => ⟨st', hst.1, hst.2.1⟩

end SessionState

end Qpid

namespace Qpid

namespace SessionState

/-! ## Unhandled commands -/

theorem completePendingSyncs_error (r : ReceiverState) (q : List Nat) (call : Bool)
    (e : SessionError) (h : completePendingSyncs r q call = .error e) :
    e = .undefinedBehaviour := by
  induction q generalizing r call with
  | nil => simp [completePendingSyncs] at h
  | cons s rest ih =>
    unfold completePendingSyncs at h
    cases hf : SequenceSet.front r.incomplete with
    | none =>
      simp only [hf, Except.error.injEq] at h
      exact h.symm
    | some f =>
      simp only [hf] at h
      by_cases hle : s ≤ f
      · simp only [hle, if_true] at h
        exact ih _ _ h
      · simp [hle] at h

/-- The method `completeCommand` throws no exception of its own. -/
theorem completeCommand_error (st : SessionState) (id : Nat) (results : InvokerResult)
    (ra sb : Bool) (e : SessionError) (h : completeCommand st id results ra sb = .error e) :
    e = .undefinedBehaviour := by
  obtain ⟨handled, result⟩ := results
  unfold completeCommand at h
  cases hl : completePendingSyncs (st.receiver.receiverCompleted id)
      st.pendingExecutionSyncs false with
  | error e' =>
    have he' := completePendingSyncs_error _ _ _ _ hl
    subst he'
    cases result <;> cases hh : st.handler <;> cases ra <;>
      simp [emit, hh, hl] at h <;> exact h.symm
  | ok res =>
    obtain ⟨r, q, call⟩ := res
    cases result <;> cases hh : st.handler <;> cases ra <;> cases sb <;> cases call <;>
      simp [emit, hh, hl, sendAcceptAndCompletion, sendCompletion, handlerSendCompletion]
        at h <;>
      (try split at h) <;>
      simp_all

end SessionState

end Qpid

namespace Qpid

namespace SessionState

/-- The two embeddings of `handleCommand` agree on the result. -/
theorem handleCommand_eq_ending (st : SessionState) (method : AMQMethodBody) (id : Nat) :
    handleCommand st method id = (handleCommandEnding st method id).toExcept := by
  unfold handleCommand handleCommandEnding
  cases hinv : invoke { st with currentCommandComplete := true,
                                syncCurrentCommand := method.isSync,
                                acceptRequired := false } method with
  | error e => simp [hinv, Ending.toExcept]
  | ok res =>
    obtain ⟨st2, invocation⟩ := res
    cases hh : invocation.handled with
    | false => simp [hinv, hh, Ending.toExcept]
    | true =>
      cases hc : st2.currentCommandComplete with
      | false => simp [hinv, hh, hc, Ending.toExcept]
      | true =>
        cases hcc : completeCommand st2 id invocation false st2.syncCurrentCommand <;>
          simp [hinv, hh, hc, hcc, Ending.toExcept]

/-- C13: `handleCommand` raises `NotImplementedException` exactly when the invoker
reports the method as not handled, and it raises no other exception of its own.
When it raises, the session at the `throw` is the session before the call with
only the three flags of the current command set: the receiver sets, the
accepted set, the queue of deferred execution.sync ids, the manager and the
effects are those before the call, so `completeCommand` has not run, the
command is not marked complete and nothing has been sent for it. -/
theorem handleCommand_raises_iff_unhandled (st : SessionState) (method : AMQMethodBody)
    (id : Nat) :
    (handleCommand st method id = .error .notImplemented ↔
      ∃ st2 invocation,
        invoke { st with currentCommandComplete := true,
                         syncCurrentCommand := method.isSync,
                         acceptRequired := false } method = .ok (st2, invocation) ∧
        invocation.handled = false) ∧
    (∀ st2 invocation,
      invoke { st with currentCommandComplete := true,
                       syncCurrentCommand := method.isSync,
                       acceptRequired := false } method = .ok (st2, invocation) →
      invocation.handled = false →
      handleCommand st method id = .error .notImplemented ∧
      st2.receiver = st.receiver ∧ st2.accepted = st.accepted ∧
      st2.pendingExecutionSyncs = st.pendingExecutionSyncs ∧
      st2.asyncCommandManager = st.asyncCommandManager ∧
      st2.effects = st.effects) ∧
    handleCommand st method id = (handleCommandEnding st method id).toExcept ∧
    ((∃ st', handleCommandEnding st method id = .threw .notImplemented st') ↔
      ∃ st2 invocation,
        invoke { st with currentCommandComplete := true,
                         syncCurrentCommand := method.isSync,
                         acceptRequired := false } method = .ok (st2, invocation) ∧
        invocation.handled = false) ∧
    (∀ e st', handleCommandEnding st method id = .threw e st' →
      e = .notImplemented ∧
      st' = { st with currentCommandComplete := true,
                      syncCurrentCommand := method.isSync,
                      acceptRequired := false } ∧
      st'.receiver = st.receiver ∧ st'.accepted = st.accepted ∧
      st'.pendingExecutionSyncs = st.pendingExecutionSyncs ∧
      st'.asyncCommandManager = st.asyncCommandManager ∧
      st'.effects = st.effects ∧
      (id ∈ st'.receiver.completed ↔ id ∈ st.receiver.completed) ∧
      (id ∈ st'.receiver.incomplete ↔ id ∈ st.receiver.incomplete)) := by
  have hold : (handleCommand st method id = .error .notImplemented ↔
      ∃ st2 invocation,
        invoke { st with currentCommandComplete := true,
                         syncCurrentCommand := method.isSync,
                         acceptRequired := false } method = .ok (st2, invocation) ∧
        invocation.handled = false) ∧
    (∀ st2 invocation,
      invoke { st with currentCommandComplete := true,
                       syncCurrentCommand := method.isSync,
                       acceptRequired := false } method = .ok (st2, invocation) →
      invocation.handled = false →
      handleCommand st method id = .error .notImplemented ∧
      st2.receiver = st.receiver ∧ st2.accepted = st.accepted ∧
      st2.pendingExecutionSyncs = st.pendingExecutionSyncs ∧
      st2.asyncCommandManager = st.asyncCommandManager ∧
      st2.effects = st.effects) := by
    obtain ⟨isSync, isContentBearing, dispatch⟩ := method
    have hback : ∀ st2 invocation,
        invoke { st with currentCommandComplete := true,
                         syncCurrentCommand := isSync,
                         acceptRequired := false } ⟨isSync, isContentBearing, dispatch⟩
          = .ok (st2, invocation) →
        invocation.handled = false →
        handleCommand st ⟨isSync, isContentBearing, dispatch⟩ id = .error .notImplemented ∧
        st2.receiver = st.receiver ∧ st2.accepted = st.accepted ∧
        st2.pendingExecutionSyncs = st.pendingExecutionSyncs ∧
        st2.asyncCommandManager = st.asyncCommandManager ∧
        st2.effects = st.effects := by
      intro st2 invocation hinv hh
      cases dispatch with
      | unhandled =>
        simp only [invoke, Except.ok.injEq, Prod.mk.injEq] at hinv
        obtain ⟨h1, _⟩ := hinv
        subst h1
        simp [handleCommand, invoke]
      | inline result =>
        simp only [invoke, Except.ok.injEq, Prod.mk.injEq] at hinv
        obtain ⟨_, h2⟩ := hinv
        subst h2
        simp at hh
      | executionSync =>
        simp only [invoke] at hinv
        split at hinv
        · simp only [Except.ok.injEq, Prod.mk.injEq] at hinv
          obtain ⟨_, h2⟩ := hinv
          subst h2
          simp at hh
        · simp at hinv
      | deferAsync =>
        simp only [invoke] at hinv
        split at hinv
        · simp only [Except.ok.injEq, Prod.mk.injEq] at hinv
          obtain ⟨_, h2⟩ := hinv
          subst h2
          simp at hh
        · simp at hinv
    refine ⟨⟨?_, ?_⟩, hback⟩
    · intro h
      cases dispatch with
      | unhandled => exact ⟨_, ⟨false, none⟩, rfl, rfl⟩
      | inline result =>
        simp only [handleCommand, invoke, Bool.not_true, Bool.false_eq_true, if_false,
          if_true] at h
        exact absurd (completeCommand_error _ _ _ _ _ _ h) (by decide)
      | executionSync =>
        rw [handleCommand_executionSync st _ id rfl] at h
        simp only [addPendingExecutionSync] at h
        cases hf : SequenceSet.front st.receiver.incomplete with
        | none => simp [hf] at h
        | some f =>
          simp only [hf] at h
          by_cases hlow : f < st.receiver.receiverGetCurrent
          · simp [hlow, flushPendingCommands] at h
          · simp only [hlow, if_false, if_true] at h
            exact absurd (completeCommand_error _ _ _ _ _ _ h) (by decide)
      | deferAsync =>
        simp only [handleCommand, invoke, registerAsyncCommand,
          AsyncCommandManager.addPendingCommand] at h
        cases hi : AsyncCommandManager.insertPending st.asyncCommandManager.pendingCommands
            ⟨st.receiver.receiverGetCurrent, false, isSync⟩ with
        | none => simp [hi] at h
        | some p => simp [hi] at h
    · rintro ⟨st2, invocation, hinv, hh⟩
      exact (hback st2 invocation hinv hh).1
  have hthrew : ∀ e st', handleCommandEnding st method id = .threw e st' →
      e = .notImplemented ∧
      ∃ invocation,
        invoke { st with currentCommandComplete := true,
                         syncCurrentCommand := method.isSync,
                         acceptRequired := false } method = .ok (st', invocation) ∧
        invocation.handled = false := by
    intro e st' h
    unfold handleCommandEnding at h
    cases hinv : invoke { st with currentCommandComplete := true,
                                  syncCurrentCommand := method.isSync,
                                  acceptRequired := false } method with
    | error e' => simp [hinv] at h
    | ok res =>
      obtain ⟨st2, invocation⟩ := res
      simp only [hinv] at h
      cases hh : invocation.handled with
      | false =>
        simp only [hh, Bool.not_false, if_true, Ending.threw.injEq] at h
        obtain ⟨h1, h2⟩ := h
        subst h1 h2
        exact ⟨rfl, invocation, rfl, hh⟩
      | true =>
        simp only [hh, Bool.not_true, Bool.false_eq_true, if_false] at h
        cases hc : st2.currentCommandComplete with
        | false => simp [hc] at h
        | true =>
          simp only [hc, if_true] at h
          cases hcc : completeCommand st2 id invocation false st2.syncCurrentCommand <;>
            simp [hcc] at h
  have hflags : ∀ st2 invocation,
      invoke { st with currentCommandComplete := true,
                       syncCurrentCommand := method.isSync,
                       acceptRequired := false } method = .ok (st2, invocation) →
      invocation.handled = false →
      st2 = { st with currentCommandComplete := true,
                      syncCurrentCommand := method.isSync,
                      acceptRequired := false } := by
    intro st2 invocation hinv hh
    obtain ⟨isSync, isContentBearing, dispatch⟩ := method
    cases dispatch with
    | unhandled =>
      simp only [invoke, Except.ok.injEq, Prod.mk.injEq] at hinv
      exact hinv.1.symm
    | inline result =>
      simp only [invoke, Except.ok.injEq, Prod.mk.injEq] at hinv
      obtain ⟨_, h2⟩ := hinv
      subst h2
      simp at hh
    | executionSync =>
      simp only [invoke] at hinv
      split at hinv
      · simp only [Except.ok.injEq, Prod.mk.injEq] at hinv
        obtain ⟨_, h2⟩ := hinv
        subst h2
        simp at hh
      · simp at hinv
    | deferAsync =>
      simp only [invoke] at hinv
      split at hinv
      · simp only [Except.ok.injEq, Prod.mk.injEq] at hinv
        obtain ⟨_, h2⟩ := hinv
        subst h2
        simp at hh
      · simp at hinv
  refine ⟨hold.1, hold.2, handleCommand_eq_ending st method id, ⟨?_, ?_⟩, ?_⟩
  · rintro ⟨st', h⟩
    obtain ⟨_, invocation, hinv, hh⟩ := hthrew _ st' h
    exact ⟨st', invocation, hinv, hh⟩
  · rintro ⟨st2, invocation, hinv, hh⟩
    refine ⟨st2, ?_⟩
    unfold handleCommandEnding
    simp [hinv, hh]
  · intro e st' h
    obtain ⟨he, invocation, hinv, hh⟩ := hthrew e st' h
    have hst := hflags st' invocation hinv hh
    refine ⟨he, hst, ?_, ?_, ?_, ?_, ?_, ?_, ?_⟩ <;> rw [hst]

/-- C13 at the unhandled command 5, recorded on a fresh session: the call raises
`NotImplementedException`, and at the `throw` command 5 is still incomplete and
nothing has been sent. -/
theorem handleCommand_raises_iff_unhandled_witness :
    handleCommand { create 5 with receiver := ⟨6, [5], []⟩ } ⟨true, false, .unhandled⟩ 5
      = .error .notImplemented ∧
    handleCommandEnding { create 5 with receiver := ⟨6, [5], []⟩ } ⟨true, false, .unhandled⟩ 5
      = .threw .notImplemented
          { create 5 with receiver := ⟨6, [5], []⟩,
                          currentCommandComplete := true,
                          syncCurrentCommand := true } ∧
    ({ create 5 with receiver := ⟨6, [5], []⟩,
                     currentCommandComplete := true,
                     syncCurrentCommand := true } : SessionState).receiver
      = ⟨6, [5], []⟩ ∧
    ({ create 5 with receiver := ⟨6, [5], []⟩,
                     currentCommandComplete := true,
                     syncCurrentCommand := true } : SessionState).effects = [] :=
  have h := (handleCommand_raises_iff_unhandled { create 5 with receiver := ⟨6, [5], []⟩ }
    ⟨true, false, .unhandled⟩ 5).2.2.2.2 .notImplemented
    { create 5 with receiver := ⟨6, [5], []⟩,
                    currentCommandComplete := true,
                    syncCurrentCommand := true } rfl
  ⟨((handleCommand_raises_iff_unhandled { create 5 with receiver := ⟨6, [5], []⟩ }
      ⟨true, false, .unhandled⟩ 5).2.1 _ ⟨false, none⟩ rfl rfl).1,
   rfl, h.2.2.1, h.2.2.2.2.2.2.1⟩

end SessionState

end Qpid

namespace Qpid

namespace SessionState

/-! ## Completion on return -/

/-- When the invoker returns with `currentCommandComplete` still set, the handler has
changed nothing in the session. -/
theorem invoke_complete (st : SessionState) (method : AMQMethodBody) (st2 : SessionState)
    (invocation : InvokerResult)
    (hinv : invoke st method = .ok (st2, invocation))
    (h2 : st2.currentCommandComplete = true) : st2 = st := by
  obtain ⟨isSync, isContentBearing, dispatch⟩ := method
  cases dispatch with
  | unhandled =>
    simp only [invoke, Except.ok.injEq, Prod.mk.injEq] at hinv
    exact hinv.1.symm
  | inline result =>
    simp only [invoke, Except.ok.injEq, Prod.mk.injEq] at hinv
    exact hinv.1.symm
  | executionSync =>
    simp only [invoke, addPendingExecutionSync] at hinv
    cases hf : SequenceSet.front st.receiver.incomplete with
    | none => simp [hf] at hinv
    | some f =>
      simp only [hf] at hinv
      by_cases hlow : f < st.receiver.receiverGetCurrent
      · simp only [hlow, if_true, flushPendingCommands, Except.ok.injEq, Prod.mk.injEq] at hinv
        obtain ⟨h1, _⟩ := hinv
        subst h1
        simp at h2
      · simp only [hlow, if_false, Except.ok.injEq, Prod.mk.injEq] at hinv
        exact hinv.1.symm
  | deferAsync =>
    simp only [invoke, registerAsyncCommand] at hinv
    split at hinv
    · rename_i st1 heq
      split at heq
      · simp only [Except.ok.injEq] at heq
        simp only [Except.ok.injEq, Prod.mk.injEq] at hinv
        obtain ⟨h1, _⟩ := hinv
        subst h1
        subst heq
        simp at h2
      · simp at heq
    · simp at hinv

/-- C14: a handled command whose handler leaves `currentCommandComplete` set (it
neither registered an asynchronous command nor deferred an execution.sync) is
completed by `handleCommand` itself: the call is `completeCommand` on the id,
with the sync flag of the method; on a session with its handler set whose
queued ids are incomplete, distinct and other than the id, `handleCommand`
returns, and the id is then marked complete in the receiver set. -/
theorem handled_command_completes_on_return (st : SessionState) (method : AMQMethodBody)
    (id : Nat) (st2 : SessionState) (invocation : InvokerResult)
    (hinv : invoke { st with currentCommandComplete := true,
                             syncCurrentCommand := method.isSync,
                             acceptRequired := false } method = .ok (st2, invocation))
    (hhandled : invocation.handled = true)
    (hcomplete : st2.currentCommandComplete = true) :
    handleCommand st method id
      = completeCommand { st with currentCommandComplete := true,
                                  syncCurrentCommand := method.isSync,
                                  acceptRequired := false }
          id invocation false method.isSync ∧
    (∀ st', handleCommand st method id = .ok st' →
      id ∈ st'.receiver.completed ∧ id ∉ st'.receiver.incomplete) ∧
    (st.handler = true →
      (∀ s ∈ st.pendingExecutionSyncs, s ∈ st.receiver.incomplete) →
      st.pendingExecutionSyncs.Nodup → id ∉ st.pendingExecutionSyncs →
      ∃ st', handleCommand st method id = .ok st' ∧
        id ∈ st'.receiver.completed ∧ id ∉ st'.receiver.incomplete) := by
  have hst2 := invoke_complete _ method st2 invocation hinv hcomplete
  subst hst2
  have heq : handleCommand st method id
      = completeCommand { st with currentCommandComplete := true,
                                  syncCurrentCommand := method.isSync,
                                  acceptRequired := false }
          id invocation false method.isSync := by
    simp [handleCommand, hinv, hhandled]
  have hmarked : ∀ st', handleCommand st method id = .ok st' →
      id ∈ st'.receiver.completed ∧ id ∉ st'.receiver.incomplete := by
    intro st' h
    rw [heq] at h
    obtain ⟨r, q, call, hl, hst⟩ := completeCommand_ok _ _ _ _ _ _ h
    obtain ⟨popped, _, hr, _⟩ := completePendingSyncs_ok _ _ _ _ _ _ hl
    subst hst
    constructor
    · show id ∈ r.completed
      rw [hr, mem_completed_completeAll]
      simp [ReceiverState.receiverCompleted, SequenceSet.mem_add]
    · show id ∉ r.incomplete
      rw [hr, mem_incomplete_completeAll]
      simp [ReceiverState.receiverCompleted, SequenceSet.mem_remove]
  refine ⟨heq, hmarked, ?_⟩
  intro hh hmem hnodup hid
  obtain ⟨r, q, call, _, hc⟩ := completeCommand_defined
    { st with currentCommandComplete := true,
              syncCurrentCommand := method.isSync,
              acceptRequired := false }
    id invocation false method.isSync hh hmem hnodup hid
  have hok : handleCommand st method id = .ok _ := heq.trans hc
  exact ⟨_, hok, hmarked _ hok⟩

/-- C14 at an inline command with the sync bit on a fresh session that has recorded
it. -/
theorem handled_command_completes_on_return_witness :
    ∃ st', handleCommand { create 5 with receiver := ⟨6, [5], []⟩ }
        ⟨true, false, .inline none⟩ 5 = .ok st' ∧
      5 ∈ st'.receiver.completed ∧ 5 ∉ st'.receiver.incomplete :=
  (handled_command_completes_on_return { create 5 with receiver := ⟨6, [5], []⟩ }
    ⟨true, false, .inline none⟩ 5 _ ⟨true, none⟩ rfl rfl rfl).2.2 rfl (by decide) (by decide)
    (by decide)

end SessionState

end Qpid

namespace Qpid

namespace SessionState

/-! ## The accepted set -/

/-- C15: `completeCommand` with the sync bit unset, on a session with its handler set
whose queued ids are incomplete, distinct and other than `id`.  The accepted set
afterwards is the old set with `id` added when accept is required and the old
set otherwise; no message.accept is sent by the call.  A later
`completeCommand` with the sync bit set then sends the accumulated set, with its
own id added when it requires accept, in one message.accept ahead of the
session.completion, and leaves the accepted set empty. -/
theorem completeCommand_accepts_when_required (st : SessionState) (id : Nat)
    (results : InvokerResult) (ra : Bool) (hh : st.handler = true)
    (hmem : ∀ s ∈ st.pendingExecutionSyncs, s ∈ st.receiver.incomplete)
    (hnodup : st.pendingExecutionSyncs.Nodup)
    (hid : id ∉ st.pendingExecutionSyncs) :
    ∃ st1,
      completeCommand st id results ra false = .ok st1 ∧
      st1.accepted = (if ra then SequenceSet.add st.accepted id else st.accepted) ∧
      (∀ x, x ∈ st1.accepted ↔ x ∈ st.accepted ∨ (ra = true ∧ x = id)) ∧
      (id ∈ st1.accepted ↔ ra = true ∨ id ∈ st.accepted) ∧
      (∀ S, Effect.messageAccept S ∈ st1.effects → Effect.messageAccept S ∈ st.effects) ∧
      (∀ (id2 : Nat) (results2 : InvokerResult) (ra2 : Bool) (st2 : SessionState),
        completeCommand st1 id2 results2 ra2 true = .ok st2 →
        st2.accepted = [] ∧
        st2.effects = st1.effects ++ resultEffects id2 results2 ++
          (if (acceptedWith st1.accepted id2 ra2).isEmpty then []
           else [.messageAccept (acceptedWith st1.accepted id2 ra2)]) ++
          [.sessionCompletion st2.receiver.completed] ∧
        (∀ x, x ∈ acceptedWith st1.accepted id2 ra2 ↔
          x ∈ st.accepted ∨ (ra = true ∧ x = id) ∨ (ra2 = true ∧ x = id2))) := by
  obtain ⟨r, q, call, _, hc⟩ := completeCommand_defined st id results ra false hh hmem hnodup hid
  have hacc : ∀ x, x ∈ acceptedWith st.accepted id ra ↔ x ∈ st.accepted ∨ (ra = true ∧ x = id) := by
    intro x
    cases ra <;> simp [acceptedWith, SequenceSet.mem_add]
  refine ⟨_, hc, ?_, ?_, ?_, ?_, ?_⟩
  · simp [completedState, acceptedWith]
  · intro x
    simpa [completedState] using hacc x
  · have := hacc id
    simp only [completedState, Bool.false_eq_true, if_false]
    rw [this]
    tauto
  · intro S hS
    obtain ⟨handled, result⟩ := results
    cases result <;> cases call <;>
      simpa [completedState, resultEffects] using hS
  · intro id2 results2 ra2 st2 h2
    obtain ⟨r2, q2, call2, _, hst2⟩ := completeCommand_ok _ _ _ _ _ _ h2
    subst hst2
    refine ⟨by simp [completedState], by simp [completedState, acceptEffects], ?_⟩
    intro x
    have h1 : (completedState st id results ra false r q call).accepted
        = acceptedWith st.accepted id ra := by simp [completedState]
    rw [h1]
    cases ra2
    · simp only [acceptedWith, Bool.false_eq_true, if_false, false_and, or_false]
      exact hacc x
    · simp only [acceptedWith, if_true, SequenceSet.mem_add, true_and]
      have := hacc x
      simp only [acceptedWith] at this
      rw [this]
      tauto

/-- C15 at two transfers, 5 then 6, both requiring accept, the second with the sync
bit: the message.accept carries both. -/
theorem completeCommand_accepts_when_required_witness :
    ∃ st1,
      completeCommand { create 5 with receiver := ⟨7, [5, 6], []⟩ } 5 InvokerResult.empty
        true false = .ok st1 ∧
      st1.accepted = [5] ∧
      ∃ st2, completeCommand st1 6 InvokerResult.empty true true = .ok st2 ∧
        st2.accepted = [] ∧
        st2.effects = [.messageAccept [5, 6], .sessionCompletion [5, 6]] := by
  obtain ⟨st1, h1, hacc, _⟩ := completeCommand_accepts_when_required
    { create 5 with receiver := ⟨7, [5, 6], []⟩ } 5 InvokerResult.empty true rfl
    (by decide) (by decide) (by decide)
  have hex : completeCommand { create 5 with receiver := ⟨7, [5, 6], []⟩ } 5
      InvokerResult.empty true false
      = .ok { create 5 with receiver := ⟨7, [6], [5]⟩, accepted := [5] } := rfl
  rw [hex] at h1
  cases h1
  exact ⟨_, hex, rfl, _, rfl, rfl, rfl⟩

end SessionState

end Qpid

namespace Qpid

namespace SessionState

/-! ## The flow-control timer -/

theorem scheduledCreditDuration_le (rate : Nat) :
    scheduledCreditDuration rate ≤ 500 * TIME_MSEC :=
  Nat.min_le_right _ _

theorem scheduledCreditDuration_low (rate : Nat) (h1 : 1 ≤ rate) (h2 : rate ≤ 100) :
    scheduledCreditDuration rate = 500 * TIME_MSEC := by
  unfold scheduledCreditDuration
  apply Nat.min_eq_right
  rw [Nat.le_div_iff_mul_le (by omega)]
  simp only [TIME_SEC, TIME_MSEC]
  omega

theorem scheduledCreditDuration_high (rate : Nat) (h : 100 ≤ rate) :
    scheduledCreditDuration rate = 50 * 10 ^ 9 / rate := by
  unfold scheduledCreditDuration
  have hle : TIME_SEC * 50 / rate ≤ 500 * TIME_MSEC := by
    apply Nat.div_le_of_le_mul
    simp only [TIME_SEC, TIME_MSEC]
    omega
  rw [Nat.min_eq_left hle]
  simp [TIME_SEC]

/-- The method `processSendCredit` does not touch the timer. -/
theorem processSendCredit_timer {β : Type} (rf : RateFlowcontrol β) (handler : Bool)
    (fc : FlowControl β) (now msgs : Nat) (fc' : FlowControl β) (granted : Bool)
    (h : processSendCredit rf handler fc now msgs = .ok (fc', granted)) :
    fc'.timerAdded = fc.timerAdded ∧ fc'.flowControlTimer = fc.flowControlTimer := by
  unfold processSendCredit at h
  cases hb : fc.rateFlowcontrol with
  | none => simp [hb] at h
  | some bucket =>
    simp only [hb] at h
    split at h
    · split at h
      · simp only [Except.ok.injEq, Prod.mk.injEq] at h
        obtain ⟨h1, _⟩ := h
        subst h1
        exact ⟨rfl, rfl⟩
      · simp at h
    · split at h
      · split at h
        · simp only [Except.ok.injEq, Prod.mk.injEq] at h
          obtain ⟨h1, _⟩ := h
          subst h1
          exact ⟨rfl, rfl⟩
        · simp at h
      · simp only [Except.ok.injEq, Prod.mk.injEq] at h
        obtain ⟨h1, _⟩ := h
        subst h1
        exact ⟨rfl, rfl⟩

/-- What the flow-control block of `handleContent` does when it returns: either it
leaves the timer alone, or the frame starts a frameset, a rate is configured,
`processSendCredit(1)` returned false and one task of the scheduled duration was
given to the timer. -/
theorem producerFlowControl_ok {β : Type} (rf : RateFlowcontrol β) (handler : Bool)
    (fc : FlowControl β) (frame : AMQFrame) (now : Nat) (fc' : FlowControl β)
    (h : producerFlowControl rf handler fc frame now = .ok fc') :
    (fc'.timerAdded = fc.timerAdded ∧ fc'.flowControlTimer = fc.flowControlTimer ∧
      (fc.rateFlowcontrol = none ∨ frame.bof = false ∨ frame.bos = false ∨
        processSendCredit rf handler fc now 1 = .ok (fc', true))) ∨
    (frame.bof = true ∧ frame.bos = true ∧
      ∃ bucket fc1 b1, fc.rateFlowcontrol = some bucket ∧
        processSendCredit rf handler fc now 1 = .ok (fc1, false) ∧
        fc1.rateFlowcontrol = some b1 ∧ 1 ≤ rf.getRate b1 ∧
        fc'.timerAdded = fc.timerAdded ++ [scheduledCreditDuration (rf.getRate b1)] ∧
        fc'.flowControlTimer = some (scheduledCreditDuration (rf.getRate b1))) := by
  unfold producerFlowControl at h
  cases hb : fc.rateFlowcontrol with
  | none =>
    simp only [hb, Except.ok.injEq] at h
    subst h
    exact Or.inl ⟨rfl, rfl, Or.inl rfl⟩
  | some bucket =>
    simp only [hb] at h
    cases hbof : frame.bof with
    | false =>
      simp only [hbof, Bool.false_and, Bool.false_eq_true, if_false, Except.ok.injEq] at h
      subst h
      exact Or.inl ⟨rfl, rfl, Or.inr (Or.inl rfl)⟩
    | true =>
      cases hbos : frame.bos with
      | false =>
        simp only [hbof, hbos, Bool.and_false, Bool.false_eq_true, if_false,
          Except.ok.injEq] at h
        subst h
        exact Or.inl ⟨rfl, rfl, Or.inr (Or.inr (Or.inl rfl))⟩
      | true =>
        simp only [hbof, hbos, Bool.and_self, if_true] at h
        cases hp : processSendCredit rf handler fc now 1 with
        | error e => simp [hp] at h
        | ok res =>
          obtain ⟨fc1, granted⟩ := res
          have ht := processSendCredit_timer rf handler fc now 1 fc1 granted hp
          cases granted with
          | true =>
            simp only [hp, Except.ok.injEq] at h
            subst h
            exact Or.inl ⟨ht.1, ht.2, Or.inr (Or.inr (Or.inr rfl))⟩
          | false =>
            simp only [hp] at h
            cases hb1 : fc1.rateFlowcontrol with
            | none => simp [hb1] at h
            | some b1 =>
              simp only [hb1] at h
              by_cases hrate : rf.getRate b1 = 0
              · simp [hrate] at h
              · simp only [hrate, if_false, Except.ok.injEq] at h
                subst h
                refine Or.inr ⟨rfl, rfl, bucket, fc1, b1, rfl, rfl, hb1, by omega, ?_, rfl⟩
                simp [ht.1]

end SessionState

end Qpid

namespace Qpid

namespace SessionState

/-- C16: the duration of the scheduled credit task is min(50 s / rate, 500 ms) in
nanoseconds: at most 500 ms for every rate of at least one, 500 ms for every rate
up to 100, and the floor of 50 * 10^9 / rate for every rate from 100 on.  When
`handleContent` returns, either the timer is as it was, or the frame starts a
frameset (begin-of-frameset and begin-of-segment set), a rate is configured,
`processSendCredit(1)` returned false and exactly one task of that duration was
given to the timer; and under these conditions the task is armed. -/
theorem flow_control_timer_duration {β : Type} (rf : RateFlowcontrol β) (st : SessionState)
    (fc : FlowControl β) (frame : AMQFrame) (msg : IngressMessage) (id now : Nat) :
    (∀ rate, 1 ≤ rate →
      scheduledCreditDuration rate = min (50 * 10 ^ 9 / rate) (500 * 10 ^ 6) ∧
      scheduledCreditDuration rate ≤ 500 * 10 ^ 6) ∧
    (∀ rate, 1 ≤ rate → rate ≤ 100 → scheduledCreditDuration rate = 500 * 10 ^ 6) ∧
    (∀ rate, 100 ≤ rate → scheduledCreditDuration rate = 50 * 10 ^ 9 / rate) ∧
    (∀ st' fc', handleContent rf st fc frame msg id now = .ok (st', fc') →
      (fc'.timerAdded = fc.timerAdded ∧ fc'.flowControlTimer = fc.flowControlTimer) ∨
      (frame.bof = true ∧ frame.bos = true ∧
        ∃ bucket fc1 b1, fc.rateFlowcontrol = some bucket ∧
          processSendCredit rf st'.handler fc now 1 = .ok (fc1, false) ∧
          fc1.rateFlowcontrol = some b1 ∧ 1 ≤ rf.getRate b1 ∧
          fc'.timerAdded = fc.timerAdded ++ [scheduledCreditDuration (rf.getRate b1)] ∧
          fc'.flowControlTimer = some (scheduledCreditDuration (rf.getRate b1)))) ∧
    (∀ st1 bucket fc1 b1,
      (if frame.eof && frame.eos then endOfFrameset st msg id else .ok st) = .ok st1 →
      frame.bof = true → frame.bos = true → fc.rateFlowcontrol = some bucket →
      processSendCredit rf st1.handler fc now 1 = .ok (fc1, false) →
      fc1.rateFlowcontrol = some b1 → 1 ≤ rf.getRate b1 →
      handleContent rf st fc frame msg id now =
        .ok (st1, { fc1 with
                    flowControlTimer := some (scheduledCreditDuration (rf.getRate b1)),
                    timerAdded := fc.timerAdded ++
                      [scheduledCreditDuration (rf.getRate b1)] })) := by
  have hms : 500 * TIME_MSEC = 500 * 10 ^ 6 := by simp [TIME_MSEC]
  refine ⟨?_, ?_, ?_, ?_, ?_⟩
  · intro rate _
    refine ⟨?_, ?_⟩
    · simp [scheduledCreditDuration, TIME_SEC, TIME_MSEC]
    · rw [← hms]
      exact scheduledCreditDuration_le rate
  · intro rate h1 h2
    rw [← hms]
    exact scheduledCreditDuration_low rate h1 h2
  · exact scheduledCreditDuration_high
  · intro st' fc' h
    unfold handleContent at h
    cases hended : (if frame.eof && frame.eos then endOfFrameset st msg id else .ok st) with
    | error e =>
      rw [hended] at h
      simp at h
    | ok st1 =>
      rw [hended] at h
      simp only at h
      cases hp : producerFlowControl rf st1.handler fc frame now with
      | error e => simp [hp] at h
      | ok fc1 =>
        simp only [hp, Except.ok.injEq, Prod.mk.injEq] at h
        obtain ⟨h1, h2⟩ := h
        subst h1 h2
        rcases producerFlowControl_ok rf _ fc frame now _ hp with hsame | harmed
        · exact Or.inl ⟨hsame.1, hsame.2.1⟩
        · exact Or.inr harmed
  · intro st1 bucket fc1 b1 hended hbof hbos hb hp hb1 hrate
    have ht := processSendCredit_timer rf _ fc now 1 fc1 false hp
    have hne : rf.getRate b1 ≠ 0 := by omega
    unfold handleContent
    rw [hended]
    simp [producerFlowControl, hb, hbof, hbos, hp, hb1, hne, ht.1]

/-- C16 at the first frame of a transfer that uses up the last credit at a rate of
100 messages per second: a task of 500 ms is armed. -/
theorem flow_control_timer_duration_witness :
    handleContent countingBucket (create 5) lastCredit transferFrame ⟨false, false, false⟩ 5 0
      = .ok (create 5, ⟨some 0, some 500000000, [500000000], []⟩) :=
  (flow_control_timer_duration countingBucket (create 5) lastCredit transferFrame
    ⟨false, false, false⟩ 5 0).2.2.2.2 (create 5) 1 ⟨some 0, none, [], []⟩ 0
    rfl rfl rfl rfl rfl rfl (by decide)

end SessionState

end Qpid

namespace Qpid

namespace SessionState

/-! ## Sending producer credit -/

/-- C17: `processSendCredit` on a session with a configured bucket.  With `msgs > 0`
while the bucket reports `flowStopped`, it sends message.stop on the
cluster-order proxy and returns true, with the bucket as it was (neither
`receivedMessage` nor `sentCredit` is called) and no message.flow sent.  With
`msgs = 0` that branch is not taken: the bucket receives the call
`receivedMessage(now, 0)`, no message.stop is sent, and the result is false
exactly when the credit to send is 0 and the bucket then reports `flowStopped`.
In general the result is false exactly when the violation branch is not taken,
the credit to send is 0 and the bucket then reports `flowStopped`. -/
theorem processSendCredit_stops_on_violation {β : Type} (rf : RateFlowcontrol β)
    (handler : Bool) (fc : FlowControl β) (now msgs : Nat) (bucket : β)
    (hb : fc.rateFlowcontrol = some bucket) :
    (0 < msgs → rf.flowStopped bucket = true → handler = true →
      processSendCredit rf handler fc now msgs
        = .ok ({ fc with sent := fc.sent ++ [.messageStop] }, true)) ∧
    ((rf.receivedMessage bucket now 0).1 = 0 →
      processSendCredit rf handler fc now 0
        = .ok ({ fc with rateFlowcontrol := some (rf.receivedMessage bucket now 0).2 },
               !rf.flowStopped (rf.receivedMessage bucket now 0).2)) ∧
    (0 < (rf.receivedMessage bucket now 0).1 → handler = true →
      processSendCredit rf handler fc now 0
        = .ok ({ fc with
                 rateFlowcontrol := some (rf.sentCredit (rf.receivedMessage bucket now 0).2 now
                   (rf.receivedMessage bucket now 0).1),
                 sent := fc.sent ++ [.messageFlow (rf.receivedMessage bucket now 0).1] },
               true)) ∧
    (∀ fc' granted, processSendCredit rf handler fc now 0 = .ok (fc', granted) →
      (granted = false ↔
        (rf.receivedMessage bucket now 0).1 = 0 ∧
        rf.flowStopped (rf.receivedMessage bucket now 0).2 = true) ∧
      FlowEffect.messageStop ∉ fc'.sent.drop fc.sent.length) ∧
    (∀ fc' granted, processSendCredit rf handler fc now msgs = .ok (fc', granted) →
      (granted = false ↔
        ¬ (0 < msgs ∧ rf.flowStopped bucket = true) ∧
        (rf.receivedMessage bucket now msgs).1 = 0 ∧
        rf.flowStopped (rf.receivedMessage bucket now msgs).2 = true)) := by
  have hgen : ∀ (n : Nat) fc' granted,
      processSendCredit rf handler fc now n = .ok (fc', granted) →
      (granted = false ↔
        ¬ (0 < n ∧ rf.flowStopped bucket = true) ∧
        (rf.receivedMessage bucket now n).1 = 0 ∧
        rf.flowStopped (rf.receivedMessage bucket now n).2 = true) ∧
      (n = 0 → FlowEffect.messageStop ∉ fc'.sent.drop fc.sent.length) := by
    intro n fc' granted h
    unfold processSendCredit at h
    simp only [hb] at h
    by_cases hv : (decide (n > 0) && rf.flowStopped bucket) = true
    · have hv' : 0 < n ∧ rf.flowStopped bucket = true := by simpa using hv
      simp only [hv, if_true] at h
      cases handler with
      | false => simp at h
      | true =>
        simp only [if_true, Except.ok.injEq, Prod.mk.injEq] at h
        obtain ⟨_, h2⟩ := h
        subst h2
        refine ⟨⟨fun hf => by simp at hf, fun hf => absurd hv' hf.1⟩, fun hn => ?_⟩
        omega
    · have hv' : ¬ (0 < n ∧ rf.flowStopped bucket = true) := by simpa using hv
      rw [if_neg hv] at h
      by_cases hc : (rf.receivedMessage bucket now n).1 > 0
      · simp only [hc, if_true] at h
        cases handler with
        | false => simp at h
        | true =>
          simp only [if_true, Except.ok.injEq, Prod.mk.injEq] at h
          obtain ⟨h1, h2⟩ := h
          subst h1 h2
          refine ⟨⟨fun hf => by simp at hf, fun hf => by omega⟩, fun _ => ?_⟩
          simp
      · rw [if_neg hc] at h
        simp only [Except.ok.injEq, Prod.mk.injEq] at h
        obtain ⟨h1, h2⟩ := h
        subst h1 h2
        refine ⟨⟨fun hf => ⟨hv', by omega, by simpa using hf⟩, fun hf => by simp [hf.2.2]⟩,
          fun _ => ?_⟩
        simp
  refine ⟨?_, ?_, ?_, ?_, ?_⟩
  · intro hm hs hh
    simp [processSendCredit, hb, hm, hs, hh]
  · intro hz
    simp [processSendCredit, hb, hz]
  · intro hpos hh
    simp [processSendCredit, hb, hpos, hh]
  · intro fc' granted h
    obtain ⟨h1, h2⟩ := hgen 0 fc' granted h
    refine ⟨?_, h2 rfl⟩
    rw [h1]
    simp
  · intro fc' granted h
    exact (hgen msgs fc' granted h).1

/-- C17 at a publish while the client has no credit left: message.stop goes out, the
result is true and the bucket is as it was. -/
theorem processSendCredit_stops_on_violation_witness :
    processSendCredit countingBucket true noCredit 0 1
      = .ok (⟨some 0, none, [], [.messageStop]⟩, true) :=
  (processSendCredit_stops_on_violation countingBucket true noCredit 0 1 0 rfl).1
    (by decide) rfl rfl

end SessionState

end Qpid

namespace Qpid

namespace SessionState

/-! ## The queue of deferred execution.sync ids -/

/-- On a valid session that has recorded the next command, the loop of
`completeCommand` on that command returns. -/
theorem completePendingSyncs_current_defined (first : Nat) (st : SessionState)
    (hv : Valid first st) :
    ∃ res, completePendingSyncs
      (st.receiver.receiverRecord.receiverCompleted st.receiver.expected)
      st.pendingExecutionSyncs false = .ok res := by
  apply completePendingSyncs_defined
  · intro s hs
    have hlt := hv.incomplete_lt s (hv.queue_incomplete s hs)
    simp only [ReceiverState.receiverCompleted, ReceiverState.receiverRecord,
      SequenceSet.mem_remove, SequenceSet.mem_add]
    exact ⟨Or.inl (hv.queue_incomplete s hs), by omega⟩
  · exact nodup_of_sorted _ hv.queue_sorted

/-- C18: in every state reached by a sequence of steps from a fresh session, every
queued execution.sync id is in the incomplete set of the receiver and the queue
is strictly increasing, so it holds no id twice.  Consequently every evaluation
of `front()` on the incomplete set is defined: `addPendingExecutionSync` on the
next recorded command returns, the loop of `completeCommand` on the next
recorded command returns, the drain returns, and on a session with its handler
set every inline command and every execution.sync is handled without
failure. -/
theorem pending_syncs_incomplete_and_increasing (first : Nat) (inputs : List Input)
    (st : SessionState) (hrun : run (create first) inputs = .ok st) :
    (∀ s ∈ st.pendingExecutionSyncs, s ∈ st.receiver.incomplete) ∧
    st.pendingExecutionSyncs.Pairwise (fun a b => a < b) ∧
    st.pendingExecutionSyncs.Nodup ∧
    (st.pendingExecutionSyncs ≠ [] → st.receiver.incomplete ≠ []) ∧
    (∃ st', addPendingExecutionSync { st with receiver := st.receiver.receiverRecord }
      = .ok st') ∧
    (∃ res, completePendingSyncs
      (st.receiver.receiverRecord.receiverCompleted st.receiver.expected)
      st.pendingExecutionSyncs false = .ok res) ∧
    (∃ st', step st .drain = .ok st') ∧
    (∀ method : AMQMethodBody, st.handler = true →
      (method.dispatch = .executionSync ∨ ∃ result, method.dispatch = .inline result) →
      ∃ st', step st (.command method) = .ok st') := by
  have hv : Valid first st := valid_run first inputs (create first) st (valid_create first) hrun
  have hnodup := nodup_of_sorted _ hv.queue_sorted
  have hrec := invariant_receiverRecord first _ _ _ _ hv
  have hcurmem : st.receiver.expected ∈ st.receiver.receiverRecord.incomplete := by
    simp [ReceiverState.receiverRecord, SequenceSet.mem_add]
  have hfresh : st.receiver.expected ∉ st.pendingExecutionSyncs := by
    intro hq
    have := hv.incomplete_lt _ (hv.queue_incomplete _ hq)
    omega
  have hcur : st.receiver.receiverRecord.receiverGetCurrent = st.receiver.expected := by
    simp [ReceiverState.receiverRecord, ReceiverState.receiverGetCurrent]
  obtain ⟨f, hf⟩ := SequenceSet.front_of_mem _ _ hcurmem
  have hinline : ∀ (isSync : Bool) (results : InvokerResult), st.handler = true →
      ∃ st', completeCommand { st with receiver := st.receiver.receiverRecord,
                                       currentCommandComplete := true,
                                       syncCurrentCommand := isSync,
                                       acceptRequired := false }
        st.receiver.expected results false isSync = .ok st' := by
    intro isSync results hh
    obtain ⟨r, q, call, _, hc⟩ := completeCommand_defined
      { st with receiver := st.receiver.receiverRecord,
                currentCommandComplete := true,
                syncCurrentCommand := isSync,
                acceptRequired := false }
      st.receiver.expected results false isSync hh hrec.queue_incomplete hnodup hfresh
    exact ⟨_, hc⟩
  refine ⟨hv.queue_incomplete, hv.queue_sorted, hnodup, ?_, ?_,
    completePendingSyncs_current_defined first st hv, ?_, ?_⟩
  · intro hne hemp
    cases hq : st.pendingExecutionSyncs with
    | nil => exact hne hq
    | cons s rest =>
      have := hv.queue_incomplete s (by rw [hq]; exact List.mem_cons_self _ _)
      rw [hemp] at this
      simp at this
  · simp only [addPendingExecutionSync, hf]
    split
    · exact ⟨_, rfl⟩
    · exact ⟨_, rfl⟩
  · simp only [step, processCompletedCommands]
    by_cases hg : (st.asyncCommandManager.session && st.isAttached) = true
    · have hh : st.handler = true := by
        simp only [Bool.and_eq_true, isAttached] at hg
        exact hg.2
      obtain ⟨st1, hloop, _⟩ := processLoop_defined first
        st.asyncCommandManager.completedCommands st hv hh hv.completed_ids
      simp only [hg, if_true, hloop]
      exact ⟨_, rfl⟩
    · rw [if_neg hg]
      exact ⟨_, rfl⟩
  · intro method hh hd
    obtain ⟨isSync, isContentBearing, dispatch⟩ := method
    simp only [step, hcur]
    rcases hd with hd | ⟨result, hd⟩
    · simp only at hd
      subst hd
      rw [handleCommand_executionSync _ _ _ rfl]
      simp only [addPendingExecutionSync, hf, hcur]
      by_cases hlow : f < st.receiver.expected
      · simp only [hlow, if_true, flushPendingCommands, Bool.false_eq_true, if_false]
        exact ⟨_, rfl⟩
      · simp only [hlow, if_false, if_true]
        exact hinline isSync ⟨true, none⟩ hh
    · simp only at hd
      subst hd
      simp only [handleCommand, invoke, Bool.not_true, Bool.false_eq_true, if_false, if_true]
      exact hinline isSync ⟨true, result⟩ hh

/-- C18 after commands 5 (deferred), 6 (inline) and 7 (execution.sync) and the
completion of 5: the queued 7 is incomplete and the drain returns. -/
theorem pending_syncs_incomplete_and_increasing_witness :
    7 ∈ deferredSyncState.receiver.incomplete ∧
    ∃ st', step deferredSyncState .drain = .ok st' :=
  have h := pending_syncs_incomplete_and_increasing 5 deferredSyncCommands deferredSyncState
    run_deferredSyncCommands
  ⟨h.1 7 (by decide), h.2.2.2.2.2.2.1⟩

end SessionState

end Qpid

namespace Qpid

namespace SessionState

/-! ## Asynchronous completion -/

theorem completeCommand_expected (st : SessionState) (id : Nat) (results : InvokerResult)
    (ra sb : Bool) (st' : SessionState)
    (h : completeCommand st id results ra sb = .ok st') :
    st'.receiver.expected = st.receiver.expected := by
  obtain ⟨r, q, call, hl, hst⟩ := completeCommand_ok st id results ra sb st' h
  obtain ⟨popped, _, hr, _⟩ := completePendingSyncs_ok _ _ _ _ _ _ hl
  subst hst
  show r.expected = _
  rw [hr, expected_completeAll]
  rfl

theorem processLoop_expected (cmds : List CommandInfo) (st st' : SessionState)
    (h : processLoop st cmds = .ok st') :
    st'.receiver.expected = st.receiver.expected := by
  induction cmds generalizing st with
  | nil =>
    simp only [processLoop, Except.ok.injEq] at h
    subst h
    rfl
  | cons c rest ih =>
    unfold processLoop at h
    cases hcc : completeCommand st c.id c.results c.requiresAccept c.syncBitSet with
    | error e => simp [hcc] at h
    | ok st1 =>
      simp only [hcc] at h
      rw [ih st1 h, completeCommand_expected _ _ _ _ _ _ hcc]

/-- What a step does to the pending map: it leaves it alone, erases one id, or files
the command just received under its id with the flags of that command. -/
theorem step_pending (st st' : SessionState) (i : Input) (h : step st i = .ok st') :
    st.receiver.expected ≤ st'.receiver.expected ∧
    (st'.asyncCommandManager.pendingCommands = st.asyncCommandManager.pendingCommands ∨
     (∃ id, st'.asyncCommandManager.pendingCommands
        = AsyncCommandManager.erasePending st.asyncCommandManager.pendingCommands id) ∨
     (∃ method, i = .command method ∧ method.dispatch = .deferAsync ∧
        AsyncCommandManager.insertPending st.asyncCommandManager.pendingCommands
          ⟨st.receiver.expected, false, method.isSync⟩
          = some st'.asyncCommandManager.pendingCommands ∧
        st'.receiver.expected = st.receiver.expected + 1)) := by
  have hcur : st.receiver.receiverRecord.receiverGetCurrent = st.receiver.expected := by
    simp [ReceiverState.receiverRecord, ReceiverState.receiverGetCurrent]
  cases i with
  | command method =>
    obtain ⟨isSync, isContentBearing, dispatch⟩ := method
    simp only [step] at h
    cases dispatch with
    | unhandled => simp [handleCommand, invoke] at h
    | inline result =>
      simp only [handleCommand, invoke, Bool.not_true, Bool.false_eq_true, if_false,
        if_true] at h
      rw [completeCommand_manager _ _ _ _ _ _ h, completeCommand_expected _ _ _ _ _ _ h]
      exact ⟨by simp [ReceiverState.receiverRecord], Or.inl rfl⟩
    | executionSync =>
      simp only [handleCommand, invoke, addPendingExecutionSync] at h
      cases hf : SequenceSet.front st.receiver.receiverRecord.incomplete with
      | none => simp [hf] at h
      | some f =>
        simp only [hf] at h
        by_cases hlow : f < st.receiver.receiverRecord.receiverGetCurrent
        · simp only [hlow, if_true, flushPendingCommands, Bool.not_true, Bool.false_eq_true,
            if_false, Except.ok.injEq] at h
          subst h
          exact ⟨by simp [ReceiverState.receiverRecord], Or.inl rfl⟩
        · simp only [hlow, if_false, Bool.not_true, Bool.false_eq_true, if_true] at h
          rw [completeCommand_manager _ _ _ _ _ _ h, completeCommand_expected _ _ _ _ _ _ h]
          exact ⟨by simp [ReceiverState.receiverRecord], Or.inl rfl⟩
    | deferAsync =>
      simp only [handleCommand, invoke, registerAsyncCommand,
        AsyncCommandManager.addPendingCommand, hcur] at h
      cases hi : AsyncCommandManager.insertPending st.asyncCommandManager.pendingCommands
          ⟨st.receiver.expected, false, isSync⟩ with
      | none => simp [hi] at h
      | some p =>
        simp only [hi, Bool.not_true, Bool.false_eq_true, if_false, Except.ok.injEq] at h
        subst h
        exact ⟨by simp [ReceiverState.receiverRecord],
          Or.inr (Or.inr ⟨_, rfl, rfl, hi, by simp [ReceiverState.receiverRecord]⟩)⟩
  | completed id result =>
    simp only [step] at h
    cases hfind : st.asyncCommandManager.pendingCommands.find? (fun e => e.1 == id) with
    | none =>
      simp only [hfind, Except.ok.injEq] at h
      subst h
      exact ⟨Nat.le_refl _, Or.inl rfl⟩
    | some e =>
      simp only [hfind] at h
      unfold completePendingCommand AsyncCommandManager.completePendingCommand emit at h
      by_cases hg : (st.asyncCommandManager.session && st.asyncCommandManager.isAttached) = true
      · simp only [hg, if_true] at h
        split at h
        · split at h
          · simp only [Except.ok.injEq] at h
            subst h
            exact ⟨Nat.le_refl _, Or.inr (Or.inl ⟨_, rfl⟩)⟩
          · simp at h
        · simp only [Except.ok.injEq] at h
          subst h
          exact ⟨Nat.le_refl _, Or.inr (Or.inl ⟨_, rfl⟩)⟩
      · rw [if_neg hg] at h
        simp only [Bool.false_eq_true, if_false, Except.ok.injEq] at h
        subst h
        exact ⟨Nat.le_refl _, Or.inr (Or.inl ⟨_, rfl⟩)⟩
  | drain =>
    simp only [step, processCompletedCommands] at h
    by_cases hg : (st.asyncCommandManager.session && st.isAttached) = true
    · simp only [hg, if_true] at h
      cases hl : processLoop st st.asyncCommandManager.completedCommands with
      | error e => simp [hl] at h
      | ok st1 =>
        simp only [hl, Except.ok.injEq] at h
        subst h
        simp [processLoop_manager _ _ _ hl, processLoop_expected _ _ _ hl]
    · rw [if_neg hg] at h
      simp only [Except.ok.injEq] at h
      subst h
      exact ⟨Nat.le_refl _, Or.inl rfl⟩
  | detach =>
    simp only [step, Except.ok.injEq] at h
    subst h
    exact ⟨Nat.le_refl _, Or.inl rfl⟩
  | attach =>
    simp only [step, Except.ok.injEq] at h
    subst h
    exact ⟨Nat.le_refl _, Or.inl rfl⟩

/-- Inserting into a pending map with increasing keys keeps the keys increasing. -/
theorem insertPending_sorted (p : List (Nat × AsyncCommandContext)) (c : AsyncCommandContext)
    (p' : List (Nat × AsyncCommandContext))
    (hs : p.Pairwise (fun a b => a.1 < b.1))
    (h : AsyncCommandManager.insertPending p c = some p') :
    p'.Pairwise (fun a b => a.1 < b.1) := by
  induction p generalizing p' with
  | nil =>
    simp only [AsyncCommandManager.insertPending, Option.some.injEq] at h
    subst h
    simp
  | cons a t ih =>
    unfold AsyncCommandManager.insertPending at h
    rw [List.pairwise_cons] at hs
    by_cases h1 : c.id < a.1
    · simp only [h1, if_true, Option.some.injEq] at h
      subst h
      rw [List.pairwise_cons]
      refine ⟨?_, List.pairwise_cons.2 hs⟩
      intro b hb
      rcases List.mem_cons.1 hb with hb | hb
      · subst hb
        exact h1
      · have := hs.1 b hb
        show c.id < b.1
        omega
    · by_cases h2 : c.id = a.1
      · simp [h1, h2] at h
      · simp only [h1, h2, if_false, Option.map_eq_some'] at h
        obtain ⟨r, hr, hp⟩ := h
        subst hp
        rw [List.pairwise_cons]
        refine ⟨?_, ih r hs.2 hr⟩
        intro b hb
        rcases (mem_insertPending t c r hr b).1 hb with hb | hb
        · exact hs.1 b hb
        · subst hb
          show a.1 < c.id
          omega

/-- Every step keeps the pending map ordered. -/
theorem pendingOrdered_step (st st' : SessionState) (i : Input)
    (ho : PendingOrdered st) (h : step st i = .ok st') : PendingOrdered st' := by
  obtain ⟨hexp, hcases⟩ := step_pending st st' i h
  rcases hcases with hsame | ⟨id, herase⟩ | ⟨method, _, _, hins, hexp'⟩
  · rw [PendingOrdered, hsame]
    exact ⟨ho.1, fun e he => ⟨(ho.2 e he).1, by have := (ho.2 e he).2; omega⟩⟩
  · rw [PendingOrdered, herase]
    refine ⟨List.Pairwise.filter _ ho.1, fun e he => ?_⟩
    have hm := ((mem_erasePending _ _ _).1 he).1
    exact ⟨(ho.2 e hm).1, by have := (ho.2 e hm).2; omega⟩
  · refine ⟨insertPending_sorted _ _ _ ho.1 hins, fun e he => ?_⟩
    rcases (mem_insertPending _ _ _ hins e).1 he with hm | hm
    · exact ⟨(ho.2 e hm).1, by have := (ho.2 e hm).2; omega⟩
    · subst hm
      exact ⟨rfl, by simp only; omega⟩

theorem pendingOrdered_run (inputs : List Input) (st st' : SessionState)
    (ho : PendingOrdered st) (h : run st inputs = .ok st') : PendingOrdered st' := by
  induction inputs generalizing st with
  | nil =>
    simp only [run, Except.ok.injEq] at h
    subst h
    exact ho
  | cons i rest ih =>
    unfold run at h
    cases hs : step st i with
    | error e => simp [hs] at h
    | ok st1 =>
      simp only [hs] at h
      exact ih st1 (pendingOrdered_step st st1 i ho hs) h

theorem pendingOrdered_create (first : Nat) : PendingOrdered (create first) := by
  simp [PendingOrdered, create, attach, AsyncCommandManager.attached]

end SessionState

end Qpid

namespace Qpid

namespace SessionState

/-- In a pending map with increasing keys, looking an entry up by its key finds
it. -/
theorem find_pending (p : List (Nat × AsyncCommandContext)) (e : Nat × AsyncCommandContext)
    (hs : p.Pairwise (fun a b => a.1 < b.1)) (he : e ∈ p) :
    p.find? (fun x => x.1 == e.1) = some e := by
  induction p with
  | nil => simp at he
  | cons a t ih =>
    rw [List.pairwise_cons] at hs
    rcases List.mem_cons.1 he with h1 | h1
    · subst h1
      simp [List.find?]
    · have hlt := hs.1 e h1
      have hne : (a.1 == e.1) = false := by
        simp only [beq_eq_false_iff_ne, ne_eq]
        omega
      simp only [List.find?, hne]
      exact ih hs.2 h1

/-- Filing a command under a key the pending map does not hold succeeds. -/
theorem insertPending_some (p : List (Nat × AsyncCommandContext)) (c : AsyncCommandContext)
    (h : ∀ e ∈ p, e.1 ≠ c.id) : ∃ p', AsyncCommandManager.insertPending p c = some p' := by
  induction p with
  | nil => exact ⟨_, rfl⟩
  | cons a t ih =>
    unfold AsyncCommandManager.insertPending
    by_cases h1 : c.id < a.1
    · simp only [h1, if_true]
      exact ⟨_, rfl⟩
    · have h2 : c.id ≠ a.1 := fun heq => h a (List.mem_cons_self _ _) heq.symm
      obtain ⟨r, hr⟩ := ih (fun e he => h e (List.mem_cons_of_mem _ he))
      simp only [h1, h2, if_false, hr]
      exact ⟨_, rfl⟩

/-- Whether attached or not, `completePendingCommand` erases the id of the command
from the pending map. -/
theorem completePendingCommand_pending (m : AsyncCommandManager) (cmd : AsyncCommandContext)
    (result : InvokerResult) :
    (m.completePendingCommand cmd result).1.pendingCommands
      = AsyncCommandManager.erasePending m.pendingCommands cmd.id := by
  unfold AsyncCommandManager.completePendingCommand
  split <;> rfl

/-- On an attached manager of a live session, `completePendingCommand` appends the
entry of the command to the completed list, whatever the list holds. -/
theorem completePendingCommand_appends (m : AsyncCommandManager) (cmd : AsyncCommandContext)
    (result : InvokerResult) (hs : m.session = true) (ha : m.isAttached = true) :
    (m.completePendingCommand cmd result).1.completedCommands
      = m.completedCommands ++ [⟨cmd.id, result, cmd.requiresAccept, cmd.syncBitSet⟩] := by
  simp [AsyncCommandManager.completePendingCommand, hs, ha]

/-- What `completePendingCommand` on the session leaves of the session: only the
manager and the effects change. -/
theorem completePendingCommand_ok (st st' : SessionState) (cmd : AsyncCommandContext)
    (result : InvokerResult) (h : completePendingCommand st cmd result = .ok st') :
    st'.asyncCommandManager = (st.asyncCommandManager.completePendingCommand cmd result).1 ∧
    st'.receiver = st.receiver ∧ st'.handler = st.handler := by
  simp only [completePendingCommand, emit] at h
  cases hr : (st.asyncCommandManager.completePendingCommand cmd result).2 with
  | false =>
    simp only [hr, Bool.false_eq_true, if_false, Except.ok.injEq] at h
    subst h
    exact ⟨rfl, rfl, rfl⟩
  | true =>
    simp only [hr, if_true] at h
    cases hh : st.handler with
    | false => simp [hh] at h
    | true =>
      simp only [hh, if_true, Except.ok.injEq] at h
      subst h
      exact ⟨rfl, rfl, rfl⟩

/-- What each kind of step does to the manager. -/
theorem step_manager (st st' : SessionState) (i : Input) (h : step st i = .ok st') :
    match i with
    | .command method =>
      st'.asyncCommandManager.completedCommands = st.asyncCommandManager.completedCommands ∧
      st'.asyncCommandManager.isAttached = st.asyncCommandManager.isAttached ∧
      (st'.asyncCommandManager.pendingCommands = st.asyncCommandManager.pendingCommands ∨
        (method.dispatch = .deferAsync ∧
          AsyncCommandManager.insertPending st.asyncCommandManager.pendingCommands
            ⟨st.receiver.expected, false, method.isSync⟩
            = some st'.asyncCommandManager.pendingCommands))
    | .completed id result =>
      (st.asyncCommandManager.pendingCommands.find? (fun e => e.1 == id) = none ∧
        st'.asyncCommandManager = st.asyncCommandManager) ∨
      ∃ e, st.asyncCommandManager.pendingCommands.find? (fun e => e.1 == id) = some e ∧
        st'.asyncCommandManager = (st.asyncCommandManager.completePendingCommand e.2 result).1
    | .drain =>
      st'.asyncCommandManager.pendingCommands = st.asyncCommandManager.pendingCommands ∧
      st'.asyncCommandManager.completedCommands = []
    | .detach =>
      st'.asyncCommandManager.pendingCommands = st.asyncCommandManager.pendingCommands ∧
      st'.asyncCommandManager.completedCommands = st.asyncCommandManager.completedCommands
    | .attach =>
      st'.asyncCommandManager.pendingCommands = st.asyncCommandManager.pendingCommands ∧
      st'.asyncCommandManager.completedCommands
        = st.asyncCommandManager.completedCommands := by
  have hcur : st.receiver.receiverRecord.receiverGetCurrent = st.receiver.expected := by
    simp [ReceiverState.receiverRecord, ReceiverState.receiverGetCurrent]
  cases i with
  | command method =>
    obtain ⟨isSync, isContentBearing, dispatch⟩ := method
    simp only [step] at h
    cases dispatch with
    | unhandled => simp [handleCommand, invoke] at h
    | inline result =>
      simp only [handleCommand, invoke, Bool.not_true, Bool.false_eq_true, if_false,
        if_true] at h
      simp only
      rw [completeCommand_manager _ _ _ _ _ _ h]
      exact ⟨rfl, rfl, Or.inl rfl⟩
    | executionSync =>
      simp only [handleCommand, invoke, addPendingExecutionSync] at h
      cases hf : SequenceSet.front st.receiver.receiverRecord.incomplete with
      | none => simp [hf] at h
      | some f =>
        simp only [hf] at h
        by_cases hlow : f < st.receiver.receiverRecord.receiverGetCurrent
        · simp only [hlow, if_true, flushPendingCommands, Bool.not_true, Bool.false_eq_true,
            if_false, Except.ok.injEq] at h
          subst h
          exact ⟨rfl, rfl, Or.inl rfl⟩
        · simp only [hlow, if_false, Bool.not_true, Bool.false_eq_true, if_true] at h
          simp only
          rw [completeCommand_manager _ _ _ _ _ _ h]
          exact ⟨rfl, rfl, Or.inl rfl⟩
    | deferAsync =>
      simp only [handleCommand, invoke, registerAsyncCommand,
        AsyncCommandManager.addPendingCommand, hcur] at h
      cases hi : AsyncCommandManager.insertPending st.asyncCommandManager.pendingCommands
          ⟨st.receiver.expected, false, isSync⟩ with
      | none => simp [hi] at h
      | some p =>
        simp only [hi, Bool.not_true, Bool.false_eq_true, if_false, Except.ok.injEq] at h
        subst h
        exact ⟨rfl, rfl, Or.inr ⟨rfl, hi⟩⟩
  | completed id result =>
    simp only [step] at h
    simp only
    cases hfind : st.asyncCommandManager.pendingCommands.find? (fun e => e.1 == id) with
    | none =>
      simp only [hfind, Except.ok.injEq] at h
      subst h
      exact Or.inl ⟨rfl, rfl⟩
    | some e =>
      simp only [hfind] at h
      exact Or.inr ⟨e, rfl, (completePendingCommand_ok st st' e.2 result h).1⟩
  | drain =>
    simp only [step, processCompletedCommands] at h
    by_cases hg : (st.asyncCommandManager.session && st.isAttached) = true
    · simp only [hg, if_true] at h
      cases hl : processLoop st st.asyncCommandManager.completedCommands with
      | error e => simp [hl] at h
      | ok st1 =>
        simp only [hl, Except.ok.injEq] at h
        subst h
        simp [processLoop_manager _ _ _ hl]
    · rw [if_neg hg] at h
      simp only [Except.ok.injEq] at h
      subst h
      exact ⟨rfl, rfl⟩
  | detach =>
    simp only [step, Except.ok.injEq] at h
    subst h
    exact ⟨rfl, rfl⟩
  | attach =>
    simp only [step, Except.ok.injEq] at h
    subst h
    exact ⟨rfl, rfl⟩

/-- A pending command stays in the pending map, unchanged, over every step that is
not its own completion. -/
theorem step_keeps_pending (st st' : SessionState) (i : Input)
    (ho : PendingOrdered st) (h : step st i = .ok st')
    (e : Nat × AsyncCommandContext) (he : e ∈ st.asyncCommandManager.pendingCommands)
    (hi : ∀ result, i ≠ .completed e.1 result) :
    e ∈ st'.asyncCommandManager.pendingCommands := by
  have hm := step_manager st st' i h
  cases i with
  | command method =>
    simp only at hm
    rcases hm.2.2 with hsame | ⟨_, hins⟩
    · rw [hsame]
      exact he
    · exact (mem_insertPending _ _ _ hins e).2 (Or.inl he)
  | completed id result =>
    simp only at hm
    rcases hm with ⟨_, hsame⟩ | ⟨e', hfind, hman⟩
    · rw [hsame]
      exact he
    · rw [hman, completePendingCommand_pending, mem_erasePending]
      refine ⟨he, ?_⟩
      have hkey : e'.1 = id := by
        have := List.find?_some hfind
        simpa using this
      have hid := (ho.2 e' (List.mem_of_find?_eq_some hfind)).1
      intro heq
      apply hi result
      rw [heq, ← hid, hkey]
  | drain =>
    simp only at hm
    rw [hm.1]
    exact he
  | detach =>
    simp only at hm
    rw [hm.1]
    exact he
  | attach =>
    simp only at hm
    rw [hm.1]
    exact he

theorem run_keeps_pending (inputs : List Input) (st st' : SessionState)
    (ho : PendingOrdered st) (h : run st inputs = .ok st')
    (e : Nat × AsyncCommandContext) (he : e ∈ st.asyncCommandManager.pendingCommands)
    (hi : ∀ result, Input.completed e.1 result ∉ inputs) :
    e ∈ st'.asyncCommandManager.pendingCommands := by
  induction inputs generalizing st with
  | nil =>
    simp only [run, Except.ok.injEq] at h
    subst h
    exact he
  | cons i rest ih =>
    unfold run at h
    cases hs : step st i with
    | error err => simp [hs] at h
    | ok st1 =>
      simp only [hs] at h
      refine ih st1 (pendingOrdered_step st st1 i ho hs) h ?_ ?_
      · apply step_keeps_pending st st1 i ho hs e he
        intro result heq
        exact hi result (by rw [heq]; exact List.mem_cons_self _ _)
      · intro result hmem
        exact hi result (List.mem_cons_of_mem _ hmem)

/-- Until a drain runs, the completed list only grows at its end. -/
theorem run_keeps_completed (inputs : List Input) (st st' : SessionState)
    (h : run st inputs = .ok st') (hd : Input.drain ∉ inputs) :
    ∃ added, st'.asyncCommandManager.completedCommands
      = st.asyncCommandManager.completedCommands ++ added := by
  induction inputs generalizing st with
  | nil =>
    simp only [run, Except.ok.injEq] at h
    subst h
    exact ⟨[], by simp⟩
  | cons i rest ih =>
    unfold run at h
    cases hs : step st i with
    | error err => simp [hs] at h
    | ok st1 =>
      simp only [hs] at h
      obtain ⟨added, hadd⟩ := ih st1 h (fun hmem => hd (List.mem_cons_of_mem _ hmem))
      have hm := step_manager st st1 i hs
      have hstep : ∃ a, st1.asyncCommandManager.completedCommands
          = st.asyncCommandManager.completedCommands ++ a := by
        cases i with
        | command method =>
          simp only at hm
          exact ⟨[], by rw [hm.1]; simp⟩
        | completed id result =>
          simp only at hm
          rcases hm with ⟨_, hsame⟩ | ⟨e', _, hman⟩
          · exact ⟨[], by rw [hsame]; simp⟩
          · rw [hman]
            unfold AsyncCommandManager.completePendingCommand
            split
            · exact ⟨_, rfl⟩
            · exact ⟨[], by simp⟩
        | drain => exact absurd (List.mem_cons_self _ _) hd
        | detach =>
          simp only at hm
          exact ⟨[], by rw [hm.2]; simp⟩
        | attach =>
          simp only at hm
          exact ⟨[], by rw [hm.2]; simp⟩
      obtain ⟨a, ha⟩ := hstep
      exact ⟨a ++ added, by rw [hadd, ha, List.append_assoc]⟩

/-- The loop of the drain over a list is the loop over its front part, then the call
of `completeCommand` on the entry that follows, then the loop over the rest. -/
theorem processLoop_split (st : SessionState) (before : List CommandInfo) (c : CommandInfo)
    (after : List CommandInfo) :
    processLoop st (before ++ c :: after) =
      match processLoop st before with
      | .ok s1 =>
        match completeCommand s1 c.id c.results c.requiresAccept c.syncBitSet with
        | .ok s2 => processLoop s2 after
        | .error e => .error e
      | .error e => .error e := by
  induction before generalizing st with
  | nil => simp [processLoop]
  | cons b rest ih =>
    simp only [List.cons_append, processLoop]
    cases completeCommand st b.id b.results b.requiresAccept b.syncBitSet with
    | error e => rfl
    | ok s0 => exact ih s0

/-- Handling a deferred command whose id the pending map does not hold files it. -/
theorem step_deferAsync (st : SessionState) (method : AMQMethodBody)
    (p : List (Nat × AsyncCommandContext)) (hd : method.dispatch = .deferAsync)
    (hins : AsyncCommandManager.insertPending st.asyncCommandManager.pendingCommands
      ⟨st.receiver.expected, false, method.isSync⟩ = some p) :
    step st (.command method) =
      .ok { st with receiver := st.receiver.receiverRecord,
                    currentCommandComplete := false,
                    syncCurrentCommand := method.isSync,
                    acceptRequired := false,
                    asyncCommandManager :=
                      { st.asyncCommandManager with pendingCommands := p } } := by
  have hcur : st.receiver.receiverRecord.receiverGetCurrent = st.receiver.expected := by
    simp [ReceiverState.receiverRecord, ReceiverState.receiverGetCurrent]
  simp [step, handleCommand, invoke, hd, registerAsyncCommand,
    AsyncCommandManager.addPendingCommand, hcur, hins]

theorem processCompletedCommands_around (st : SessionState) (before : List CommandInfo)
    (c : CommandInfo) (after : List CommandInfo)
    (hs : st.asyncCommandManager.session = true) (hh : st.handler = true)
    (hcc : st.asyncCommandManager.completedCommands = before ++ c :: after) :
    processCompletedCommands st = drainAround st before c after := by
  simp only [processCompletedCommands, isAttached, hs, hh, Bool.and_self, if_true, hcc,
    processLoop_split, drainAround]
  cases processLoop st before with
  | error e => rfl
  | ok s1 =>
    simp only
    cases completeCommand s1 c.id c.results c.requiresAccept c.syncBitSet with
    | error e => rfl
    | ok s2 => simp only

/-- C19: a command completed asynchronously is completed with what was captured at
registration.  `registerAsyncCommand` files the command under the current id
with the current acceptRequired and sync-bit values, changing no other entry,
and it succeeds whenever the current id is not pending, as for every command a
reachable session receives.  No step changes an entry of the pending map, and a
pending command stays in it until its own completion.  On an attached manager
`completePendingCommand` with a result appends exactly the entry (id, result,
acceptRequired, sync bit) of the command to the completed list, whatever the
list holds, and the list only grows at its end until a drain runs.  The drain of
a list around any entry is the loop over the entries before it, the call of
`completeCommand` with the id, result, acceptRequired and sync bit of the entry,
and the loop over the entries after it.  So for a command registered in a
reachable state, completed by a worker after any steps while the manager is
attached, and drained after any further steps, `completeCommand` is called with
the id and sync bit current at registration, acceptRequired as it was then, and
the result of the worker; and a command registered with any flags and completed
on an attached session is handed to the drain behind whatever the completed list
holds, with the id and both flags current at registration.  In every state reached from a fresh session the keys
of the pending map are strictly increasing and every command is filed under its
own id, so no two pending commands have the same id. -/
theorem async_completion_uses_registered_metadata :
    ((∀ st st1 : SessionState, registerAsyncCommand st = .ok st1 →
      (st.receiver.receiverGetCurrent,
        (⟨st.receiver.receiverGetCurrent, st.acceptRequired, st.syncCurrentCommand⟩ :
          AsyncCommandContext)) ∈ st1.asyncCommandManager.pendingCommands ∧
      (∀ e ∈ st1.asyncCommandManager.pendingCommands,
        e ∈ st.asyncCommandManager.pendingCommands ∨
        e = (st.receiver.receiverGetCurrent,
          ⟨st.receiver.receiverGetCurrent, st.acceptRequired, st.syncCurrentCommand⟩)) ∧
      st1.currentCommandComplete = false) ∧
    (∀ (st st1 : SessionState) (result : InvokerResult),
      st.handler = true → st.asyncCommandManager.session = true →
      st.asyncCommandManager.isAttached = true →
      st.asyncCommandManager.completedCommands = [] →
      st.asyncCommandManager.pendingCommands.Pairwise (fun a b => a.1 < b.1) →
      registerAsyncCommand st = .ok st1 →
      st1.asyncCommandManager.pendingCommands.find?
          (fun e => e.1 == st.receiver.receiverGetCurrent)
        = some (st.receiver.receiverGetCurrent,
            ⟨st.receiver.receiverGetCurrent, st.acceptRequired, st.syncCurrentCommand⟩) ∧
      ∃ st2,
        completePendingCommand st1
          ⟨st.receiver.receiverGetCurrent, st.acceptRequired, st.syncCurrentCommand⟩ result
          = .ok st2 ∧
        st2.asyncCommandManager.completedCommands
          = [⟨st.receiver.receiverGetCurrent, result, st.acceptRequired,
              st.syncCurrentCommand⟩] ∧
        st2.effects = st1.effects ++ [.requestIOProcessing] ∧
        (∀ e ∈ st2.asyncCommandManager.pendingCommands,
          e.1 ≠ st.receiver.receiverGetCurrent) ∧
        processCompletedCommands st2 =
          match completeCommand st2 st.receiver.receiverGetCurrent result st.acceptRequired
              st.syncCurrentCommand with
          | .ok st3 =>
            .ok { st3 with asyncCommandManager :=
                    { st3.asyncCommandManager with completedCommands := [] } }
          | .error e => .error e) ∧
    (∀ (st st' : SessionState) (i : Input), step st i = .ok st' →
      ∀ e ∈ st'.asyncCommandManager.pendingCommands,
        e ∈ st.asyncCommandManager.pendingCommands ∨
        ∃ method, i = .command method ∧ method.dispatch = .deferAsync ∧
          e = (st.receiver.expected, ⟨st.receiver.expected, false, method.isSync⟩)) ∧
    (∀ (first : Nat) (inputs : List Input) (st : SessionState),
      run (create first) inputs = .ok st →
      st.asyncCommandManager.pendingCommands.Pairwise (fun a b => a.1 < b.1) ∧
      (∀ e ∈ st.asyncCommandManager.pendingCommands, e.1 = e.2.id) ∧
      (st.asyncCommandManager.pendingCommands.map (fun e => e.2.id)).Nodup)) ∧
    (∀ st : SessionState,
      (∀ e ∈ st.asyncCommandManager.pendingCommands, e.1 ≠ st.receiver.receiverGetCurrent) →
      ∃ st1, registerAsyncCommand st = .ok st1 ∧
        (st.receiver.receiverGetCurrent,
          (⟨st.receiver.receiverGetCurrent, st.acceptRequired, st.syncCurrentCommand⟩ :
            AsyncCommandContext)) ∈ st1.asyncCommandManager.pendingCommands ∧
        (∀ e ∈ st.asyncCommandManager.pendingCommands,
          e ∈ st1.asyncCommandManager.pendingCommands) ∧
        st1.receiver = st.receiver ∧
        st1.asyncCommandManager.completedCommands
          = st.asyncCommandManager.completedCommands) ∧
    (∀ (first : Nat) (inputs : List Input) (st : SessionState) (method : AMQMethodBody),
      run (create first) inputs = .ok st → method.dispatch = .deferAsync →
      ∃ st1, step st (.command method) = .ok st1 ∧
        (st.receiver.expected,
          (⟨st.receiver.expected, false, method.isSync⟩ : AsyncCommandContext))
          ∈ st1.asyncCommandManager.pendingCommands) ∧
    (∀ (m : AsyncCommandManager) (cmd : AsyncCommandContext) (result : InvokerResult),
      m.session = true → m.isAttached = true →
      (m.completePendingCommand cmd result).1.completedCommands
        = m.completedCommands ++ [⟨cmd.id, result, cmd.requiresAccept, cmd.syncBitSet⟩] ∧
      (m.completePendingCommand cmd result).1.pendingCommands
        = AsyncCommandManager.erasePending m.pendingCommands cmd.id) ∧
    (∀ (st : SessionState) (cmd : AsyncCommandContext) (result : InvokerResult),
      st.handler = true → st.asyncCommandManager.session = true →
      st.asyncCommandManager.isAttached = true →
      ∃ st2, completePendingCommand st cmd result = .ok st2 ∧
        st2.asyncCommandManager.completedCommands
          = st.asyncCommandManager.completedCommands ++
            [⟨cmd.id, result, cmd.requiresAccept, cmd.syncBitSet⟩] ∧
        st2.receiver = st.receiver) ∧
    (∀ (st : SessionState) (before : List CommandInfo) (c : CommandInfo)
      (after : List CommandInfo),
      st.asyncCommandManager.session = true → st.handler = true →
      st.asyncCommandManager.completedCommands = before ++ c :: after →
      processCompletedCommands st = drainAround st before c after) ∧
    (∀ (first : Nat) (pre mid rest : List Input) (method : AMQMethodBody)
      (result : InvokerResult) (st0 st1 st2 st3 st4 : SessionState),
      run (create first) pre = .ok st0 → method.dispatch = .deferAsync →
      step st0 (.command method) = .ok st1 →
      run st1 mid = .ok st2 →
      (∀ r, Input.completed st0.receiver.expected r ∉ mid) →
      st2.asyncCommandManager.isAttached = true →
      step st2 (.completed st0.receiver.expected result) = .ok st3 →
      run st3 rest = .ok st4 → Input.drain ∉ rest →
      (st0.receiver.expected,
        (⟨st0.receiver.expected, false, method.isSync⟩ : AsyncCommandContext))
        ∈ st2.asyncCommandManager.pendingCommands ∧
      (∀ e ∈ st3.asyncCommandManager.pendingCommands, e.1 ≠ st0.receiver.expected) ∧
      ∃ before after,
        st4.asyncCommandManager.completedCommands
          = before ++ ⟨st0.receiver.expected, result, false, method.isSync⟩ :: after ∧
        (st4.handler = true →
          processCompletedCommands st4
            = drainAround st4 before
                ⟨st0.receiver.expected, result, false, method.isSync⟩ after)) ∧
    (∀ (st st1 : SessionState) (result : InvokerResult),
      st.handler = true → st.asyncCommandManager.session = true →
      st.asyncCommandManager.isAttached = true →
      registerAsyncCommand st = .ok st1 →
      ∃ st2,
        completePendingCommand st1
          ⟨st.receiver.receiverGetCurrent, st.acceptRequired, st.syncCurrentCommand⟩ result
          = .ok st2 ∧
        st2.asyncCommandManager.completedCommands
          = st.asyncCommandManager.completedCommands ++
            [⟨st.receiver.receiverGetCurrent, result, st.acceptRequired,
              st.syncCurrentCommand⟩] ∧
        processCompletedCommands st2
          = drainAround st2 st.asyncCommandManager.completedCommands
              ⟨st.receiver.receiverGetCurrent, result, st.acceptRequired,
                st.syncCurrentCommand⟩ []) := by
  have hold : (∀ st st1 : SessionState, registerAsyncCommand st = .ok st1 →
      (st.receiver.receiverGetCurrent,
        (⟨st.receiver.receiverGetCurrent, st.acceptRequired, st.syncCurrentCommand⟩ :
          AsyncCommandContext)) ∈ st1.asyncCommandManager.pendingCommands ∧
      (∀ e ∈ st1.asyncCommandManager.pendingCommands,
        e ∈ st.asyncCommandManager.pendingCommands ∨
        e = (st.receiver.receiverGetCurrent,
          ⟨st.receiver.receiverGetCurrent, st.acceptRequired, st.syncCurrentCommand⟩)) ∧
      st1.currentCommandComplete = false) ∧
    (∀ (st st1 : SessionState) (result : InvokerResult),
      st.handler = true → st.asyncCommandManager.session = true →
      st.asyncCommandManager.isAttached = true →
      st.asyncCommandManager.completedCommands = [] →
      st.asyncCommandManager.pendingCommands.Pairwise (fun a b => a.1 < b.1) →
      registerAsyncCommand st = .ok st1 →
      st1.asyncCommandManager.pendingCommands.find?
          (fun e => e.1 == st.receiver.receiverGetCurrent)
        = some (st.receiver.receiverGetCurrent,
            ⟨st.receiver.receiverGetCurrent, st.acceptRequired, st.syncCurrentCommand⟩) ∧
      ∃ st2,
        completePendingCommand st1
          ⟨st.receiver.receiverGetCurrent, st.acceptRequired, st.syncCurrentCommand⟩ result
          = .ok st2 ∧
        st2.asyncCommandManager.completedCommands
          = [⟨st.receiver.receiverGetCurrent, result, st.acceptRequired,
              st.syncCurrentCommand⟩] ∧
        st2.effects = st1.effects ++ [.requestIOProcessing] ∧
        (∀ e ∈ st2.asyncCommandManager.pendingCommands,
          e.1 ≠ st.receiver.receiverGetCurrent) ∧
        processCompletedCommands st2 =
          match completeCommand st2 st.receiver.receiverGetCurrent result st.acceptRequired
              st.syncCurrentCommand with
          | .ok st3 =>
            .ok { st3 with asyncCommandManager :=
                    { st3.asyncCommandManager with completedCommands := [] } }
          | .error e => .error e) ∧
    (∀ (st st' : SessionState) (i : Input), step st i = .ok st' →
      ∀ e ∈ st'.asyncCommandManager.pendingCommands,
        e ∈ st.asyncCommandManager.pendingCommands ∨
        ∃ method, i = .command method ∧ method.dispatch = .deferAsync ∧
          e = (st.receiver.expected, ⟨st.receiver.expected, false, method.isSync⟩)) ∧
    (∀ (first : Nat) (inputs : List Input) (st : SessionState),
      run (create first) inputs = .ok st →
      st.asyncCommandManager.pendingCommands.Pairwise (fun a b => a.1 < b.1) ∧
      (∀ e ∈ st.asyncCommandManager.pendingCommands, e.1 = e.2.id) ∧
      (st.asyncCommandManager.pendingCommands.map (fun e => e.2.id)).Nodup) := by
    have hreg : ∀ st st1 : SessionState, registerAsyncCommand st = .ok st1 →
        AsyncCommandManager.insertPending st.asyncCommandManager.pendingCommands
          ⟨st.receiver.receiverGetCurrent, st.acceptRequired, st.syncCurrentCommand⟩
          = some st1.asyncCommandManager.pendingCommands ∧
        st1.currentCommandComplete = false ∧ st1.handler = st.handler ∧
        st1.asyncCommandManager.session = st.asyncCommandManager.session ∧
        st1.asyncCommandManager.isAttached = st.asyncCommandManager.isAttached ∧
        st1.asyncCommandManager.completedCommands
          = st.asyncCommandManager.completedCommands := by
      intro st st1 h
      simp only [registerAsyncCommand, AsyncCommandManager.addPendingCommand] at h
      cases hi : AsyncCommandManager.insertPending st.asyncCommandManager.pendingCommands
          ⟨st.receiver.receiverGetCurrent, st.acceptRequired, st.syncCurrentCommand⟩ with
      | none => simp [hi] at h
      | some p =>
        simp only [hi, Except.ok.injEq] at h
        subst h
        exact ⟨rfl, rfl, rfl, rfl, rfl, rfl⟩
    refine ⟨?_, ?_, ?_, ?_⟩
    · intro st st1 h
      obtain ⟨hins, hflag, _⟩ := hreg st st1 h
      have hmem := mem_insertPending _ _ _ hins
      exact ⟨(hmem _).2 (Or.inr rfl), fun e he => (hmem e).1 he, hflag⟩
    · intro st st1 result hh hs ha hempty hsorted h
      obtain ⟨hins, _, hh0, hs0, ha0, he0⟩ := hreg st st1 h
      have hmem := mem_insertPending _ _ _ hins
      have hsorted1 := insertPending_sorted _ _ _ hsorted hins
      have hfind := find_pending _ _ hsorted1 ((hmem _).2 (Or.inr rfl))
      refine ⟨hfind, ?_⟩
      have hh1 : st1.handler = true := hh0.trans hh
      have hs1 : st1.asyncCommandManager.session = true := hs0.trans hs
      have ha1 : st1.asyncCommandManager.isAttached = true := ha0.trans ha
      have he1 : st1.asyncCommandManager.completedCommands = [] := he0.trans hempty
      refine ⟨{ st1 with
                asyncCommandManager :=
                  { st1.asyncCommandManager with
                    completedCommands :=
                      [⟨st.receiver.receiverGetCurrent, result, st.acceptRequired,
                        st.syncCurrentCommand⟩],
                    pendingCommands := AsyncCommandManager.erasePending
                      st1.asyncCommandManager.pendingCommands st.receiver.receiverGetCurrent },
                effects := st1.effects ++ [.requestIOProcessing] }, ?_, ?_, ?_, ?_, ?_⟩
      · simp only [completePendingCommand, AsyncCommandManager.completePendingCommand, hs1, ha1,
          he1, Bool.and_self, if_true, List.nil_append, List.length_singleton, beq_self_eq_true,
          emit, hh1]
      · rfl
      · rfl
      · intro e he
        exact ((mem_erasePending _ _ _).1 he).2
      · simp only [processCompletedCommands, isAttached, hs1, hh1, Bool.and_self, if_true,
          processLoop]
        cases completeCommand _ st.receiver.receiverGetCurrent result st.acceptRequired
          st.syncCurrentCommand <;> rfl
    · intro st st' i h e he
      obtain ⟨_, hcases⟩ := step_pending st st' i h
      rcases hcases with hsame | ⟨id, herase⟩ | ⟨method, hi, hd, hins, _⟩
      · rw [hsame] at he
        exact Or.inl he
      · rw [herase] at he
        exact Or.inl ((mem_erasePending _ _ _).1 he).1
      · rcases (mem_insertPending _ _ _ hins e).1 he with hm | hm
        · exact Or.inl hm
        · exact Or.inr ⟨method, hi, hd, hm⟩
    · intro first inputs st hrun
      have ho := pendingOrdered_run inputs (create first) st (pendingOrdered_create first) hrun
      refine ⟨ho.1, fun e he => (ho.2 e he).1, ?_⟩
      show List.Pairwise _ _
      rw [List.pairwise_map]
      refine List.Pairwise.imp_of_mem ?_ ho.1
      intro a b ha hb hab
      have h1 := (ho.2 a ha).1
      have h2 := (ho.2 b hb).1
      omega
  have hsession : ∀ (first : Nat) (inputs : List Input) (st : SessionState),
      run (create first) inputs = .ok st → st.asyncCommandManager.session = true := by
    intro first inputs st hrun
    rw [run_session inputs _ st hrun]
    rfl
  have hhand : ∀ (st : SessionState) (cmd : AsyncCommandContext) (result : InvokerResult),
      st.handler = true → st.asyncCommandManager.session = true →
      st.asyncCommandManager.isAttached = true →
      ∃ st2, completePendingCommand st cmd result = .ok st2 ∧
        st2.asyncCommandManager.completedCommands
          = st.asyncCommandManager.completedCommands ++
            [⟨cmd.id, result, cmd.requiresAccept, cmd.syncBitSet⟩] ∧
        st2.receiver = st.receiver ∧ st2.handler = st.handler ∧
        st2.asyncCommandManager.session = st.asyncCommandManager.session := by
    intro st cmd result hh hs ha
    have happ := completePendingCommand_appends st.asyncCommandManager cmd result hs ha
    cases hc : completePendingCommand st cmd result with
    | error e =>
      simp only [completePendingCommand, emit, hh, if_true] at hc
      split at hc <;> simp at hc
    | ok st2 =>
      obtain ⟨hman, hrec, hhd⟩ := completePendingCommand_ok st st2 cmd result hc
      refine ⟨st2, rfl, by rw [hman, happ], hrec, hhd, ?_⟩
      rw [hman]
      unfold AsyncCommandManager.completePendingCommand
      split <;> rfl
  refine ⟨hold, ?_, ?_, ?_, ?_, ?_, ?_, ?_⟩
  · intro st hfree
    obtain ⟨p, hp⟩ := insertPending_some st.asyncCommandManager.pendingCommands
      ⟨st.receiver.receiverGetCurrent, st.acceptRequired, st.syncCurrentCommand⟩ hfree
    have hmem := mem_insertPending _ _ _ hp
    refine ⟨{ st with currentCommandComplete := false,
                      asyncCommandManager :=
                        { st.asyncCommandManager with pendingCommands := p } }, ?_,
      (hmem _).2 (Or.inr rfl), fun e he => (hmem e).2 (Or.inl he), rfl, rfl⟩
    simp [registerAsyncCommand, AsyncCommandManager.addPendingCommand, hp]
  · intro first inputs st method hrun hd
    have ho := pendingOrdered_run inputs (create first) st (pendingOrdered_create first) hrun
    obtain ⟨p, hp⟩ := insertPending_some st.asyncCommandManager.pendingCommands
      ⟨st.receiver.expected, false, method.isSync⟩
      (fun e he => by have := (ho.2 e he).2; simp only; omega)
    exact ⟨_, step_deferAsync st method p hd hp, (mem_insertPending _ _ _ hp _).2 (Or.inr rfl)⟩
  · intro m cmd result hs ha
    exact ⟨completePendingCommand_appends m cmd result hs ha,
      completePendingCommand_pending m cmd result⟩
  · intro st cmd result hh hs ha
    obtain ⟨st2, h1, h2, h3, _⟩ := hhand st cmd result hh hs ha
    exact ⟨st2, h1, h2, h3⟩
  · intro st before c after hs hh hcc
    exact processCompletedCommands_around st before c after hs hh hcc
  · intro first pre mid rest method result st0 st1 st2 st3 st4 hpre hd hstep1 hmid hnocomp
      hattached hstep3 hrest hnodrain
    have ho0 := pendingOrdered_run pre (create first) st0 (pendingOrdered_create first) hpre
    have ho1 := pendingOrdered_step st0 st1 _ ho0 hstep1
    have ho2 := pendingOrdered_run mid st1 st2 ho1 hmid
    -- the entry filed at registration
    have hm1 := step_manager st0 st1 _ hstep1
    simp only at hm1
    have hentry1 : (st0.receiver.expected,
        (⟨st0.receiver.expected, false, method.isSync⟩ : AsyncCommandContext))
        ∈ st1.asyncCommandManager.pendingCommands := by
      obtain ⟨p, hp⟩ := insertPending_some st0.asyncCommandManager.pendingCommands
        ⟨st0.receiver.expected, false, method.isSync⟩
        (fun e he => by have := (ho0.2 e he).2; simp only; omega)
      have hs := step_deferAsync st0 method p hd hp
      rw [hs] at hstep1
      simp only [Except.ok.injEq] at hstep1
      subst hstep1
      exact (mem_insertPending _ _ _ hp _).2 (Or.inr rfl)
    have hentry2 := run_keeps_pending mid st1 st2 ho1 hmid _ hentry1 hnocomp
    -- the completion finds it and appends its entry
    have hfind := find_pending _ _ ho2.1 hentry2
    have hm3 := step_manager st2 st3 _ hstep3
    simp only at hm3
    have hs2 : st2.asyncCommandManager.session = true := by
      have h1 := hsession first pre st0 hpre
      rw [run_session mid st1 st2 hmid, step_session st0 st1 _ hstep1]
      exact h1
    have hman3 : st3.asyncCommandManager
        = (st2.asyncCommandManager.completePendingCommand
            ⟨st0.receiver.expected, false, method.isSync⟩ result).1 := by
      rcases hm3 with ⟨hnone, _⟩ | ⟨e, hsome, hman⟩
      · rw [hfind] at hnone
        simp at hnone
      · rw [hfind] at hsome
        simp only [Option.some.injEq] at hsome
        subst hsome
        exact hman
    have hcc3 : st3.asyncCommandManager.completedCommands
        = st2.asyncCommandManager.completedCommands ++
          [⟨st0.receiver.expected, result, false, method.isSync⟩] := by
      rw [hman3]
      exact completePendingCommand_appends _ _ result hs2 hattached
    obtain ⟨added, hadd⟩ := run_keeps_completed rest st3 st4 hrest hnodrain
    have hcc4 : st4.asyncCommandManager.completedCommands
        = st2.asyncCommandManager.completedCommands ++
          ⟨st0.receiver.expected, result, false, method.isSync⟩ :: added := by
      rw [hadd, hcc3, List.append_assoc]
      rfl
    have hs4 : st4.asyncCommandManager.session = true := by
      rw [run_session rest st3 st4 hrest, step_session st2 st3 _ hstep3]
      exact hs2
    refine ⟨hentry2, ?_, _, _, hcc4, fun hh4 =>
      processCompletedCommands_around st4 _ _ _ hs4 hh4 hcc4⟩
    · intro e he
      rw [hman3, completePendingCommand_pending] at he
      exact ((mem_erasePending _ _ _).1 he).2
  · intro st st1 result hh hs ha hreg
    have hfields : st1.handler = st.handler ∧
        st1.asyncCommandManager.session = st.asyncCommandManager.session ∧
        st1.asyncCommandManager.isAttached = st.asyncCommandManager.isAttached ∧
        st1.asyncCommandManager.completedCommands
          = st.asyncCommandManager.completedCommands := by
      simp only [registerAsyncCommand, AsyncCommandManager.addPendingCommand] at hreg
      split at hreg
      · rename_i m heq
        split at heq
        · simp only [Except.ok.injEq] at heq hreg
          subst heq
          subst hreg
          exact ⟨rfl, rfl, rfl, rfl⟩
        · simp at heq
      · simp at hreg
    obtain ⟨h1, h2, h3, h4⟩ := hfields
    obtain ⟨st2, hc, hcc, _, hh2, hs2⟩ := hhand st1
      ⟨st.receiver.receiverGetCurrent, st.acceptRequired, st.syncCurrentCommand⟩ result
      (h1.trans hh) (h2.trans hs) (h3.trans ha)
    rw [h4] at hcc
    exact ⟨st2, hc, hcc, processCompletedCommands_around st2 _ _ []
      (hs2.trans (h2.trans hs)) (hh2.trans (h1.trans hh)) hcc⟩

/-- C19 at the transfer 10, registered with the sync bit and accept required, and at
the transfer 5, registered with the sync bit, completed with a result after
command 6 was registered and completed, and drained after the inline command 7:
the entry of command 5 sits in the completed list behind that of command 6, and
the drain calls `completeCommand` with id 5, that result, accept not required
and the sync bit. -/
theorem async_completion_uses_registered_metadata_witness :
    (∃ st1, registerAsyncCommand transferArrivalState = .ok st1 ∧
      (10, (⟨10, true, true⟩ : AsyncCommandContext))
        ∈ st1.asyncCommandManager.pendingCommands) ∧
    (∃ st2,
      completePendingCommand transferPendingState ⟨10, true, true⟩ ⟨false, some [2]⟩
        = .ok st2 ∧
      st2.asyncCommandManager.completedCommands = [⟨10, ⟨false, some [2]⟩, true, true⟩] ∧
      processCompletedCommands st2
        = drainAround st2 [] ⟨10, ⟨false, some [2]⟩, true, true⟩ []) ∧
    run (create 5) [] = .ok (create 5) ∧
    step (create 5) (.command ⟨true, false, .deferAsync⟩) = .ok burstRegistered ∧
    run burstRegistered [.command ⟨false, false, .deferAsync⟩, .completed 6 ⟨false, none⟩]
      = .ok burstOtherCompleted ∧
    step burstOtherCompleted (.completed 5 ⟨false, some [1]⟩) = .ok burstCompleted ∧
    run burstCompleted [.command ⟨false, false, .inline none⟩] = .ok burstBeforeDrain ∧
    (5, (⟨5, false, true⟩ : AsyncCommandContext))
      ∈ burstOtherCompleted.asyncCommandManager.pendingCommands ∧
    ∃ before after,
      burstBeforeDrain.asyncCommandManager.completedCommands
        = before ++ ⟨5, ⟨false, some [1]⟩, false, true⟩ :: after ∧
      processCompletedCommands burstBeforeDrain
        = drainAround burstBeforeDrain before ⟨5, ⟨false, some [1]⟩, false, true⟩ after := by
  obtain ⟨st1, hreg, hmem, _⟩ := async_completion_uses_registered_metadata.2.1
    transferArrivalState (by decide)
  obtain ⟨hpending, _, before, after, hcc, hdrain⟩ :=
    async_completion_uses_registered_metadata.2.2.2.2.2.2.1 5 []
      [.command ⟨false, false, .deferAsync⟩, .completed 6 ⟨false, none⟩]
      [.command ⟨false, false, .inline none⟩] ⟨true, false, .deferAsync⟩ ⟨false, some [1]⟩
      (create 5) burstRegistered burstOtherCompleted burstCompleted burstBeforeDrain
      rfl rfl rfl rfl (by intro r h; simp [create, attach] at h) rfl rfl rfl (by decide)
  have hflags := async_completion_uses_registered_metadata.2.2.2.2.2.2.2
    transferArrivalState transferPendingState ⟨false, some [2]⟩ rfl rfl rfl rfl
  exact ⟨⟨st1, hreg, hmem⟩, hflags, rfl, rfl, rfl, rfl, rfl, hpending, before, after, hcc,
    hdrain rfl⟩

end SessionState

end Qpid
